import Mathlib

/-!
# Hazard pointers of `lib/isc/hp.c`

A shallow embedding of the hazard-pointer domain (`isc_hp_new`, `isc_hp_destroy`,
`isc_hp_clear`, `isc_hp_clear_one`, `isc_hp_protect`, `isc_hp_protect_ptr`,
`isc_hp_protect_release`, `isc_hp_retire`) and of the thread-handle assignment `tid`.
The wire decoding of TKEY rdata (`lib/dns/rdata/generic/tkey_249.c`) and of A rdata
(`lib/dns/rdata/in_1/a_1.c`) follows in namespace `Rdata`.

Conventions of the embedding.

* Every operation is one atomic step (operation granularity); the calling thread is
  represented by the handle `t` that `tid()` returned to it.
* `uintptr_t` identities are natural numbers (no arithmetic is performed on them); C `int`
  quantities (`max_hps`, `size`, `ihp`) are integers.  A `size_t` converted to `int` wraps
  modulo `2^32` (`int_of_size_t`); the one `int` computation that can leave the range of
  `int`, `max_hps-1` at the start of the slot loop of the scan, wraps to `INT_MAX`
  (`int_pred`).
* Memory blocks are lists of words.  An access outside a block is `Fault.outOfBounds`
  (undefined behaviour in C), a failed `REQUIRE`/`INSIST` is `Fault.assertion`.
* Calls of `hp->deletefunc` are recorded, in order, in a list of identities.
-/

namespace IscHp

/-! ## Constants -/

def HP_MAX_THREADS : Nat := 128

/-- This is named K in the HP paper. -/
def HP_MAX_HPS : Nat := 4

/-- Size in bytes of `uintptr_t` (LP64). -/
def SIZEOF_UINTPTR : Nat := 8

def CLPAD : Nat := 128 / SIZEOF_UINTPTR

/-- This is named R in the HP paper. -/
def HP_THRESHOLD_R : Int := 0

/-- Maximum number of retired objects per thread. -/
def MAX_RETIRED : Nat := HP_MAX_THREADS * HP_MAX_HPS

def TID_UNKNOWN : Int := -1

/-- Number of words of one row `hp->hp[i]`: `isc_mem_get(mctx, CLPAD * 2 * sizeof(hp->hp[i][0]))`. -/
def ROW_WORDS : Nat := CLPAD * 2

/-! ## Outcomes -/

/-- Ways in which a call does not return normally. -/
inductive Fault where
  /-- A `REQUIRE` or `INSIST` failed: the process aborts. -/
  | assertion
  /-- An access outside an allocated block: undefined behaviour. -/
  | outOfBounds
  /-- The call has not returned within the loads or iterations that were supplied. -/
  | pending
  deriving DecidableEq, Repr

/-- Result of a call: a fault, or the value of a normal return. -/
inductive Res (α : Type) where
  | fail (f : Fault)
  | ok (a : α)
  deriving DecidableEq, Repr

/-- Sequencing of calls: the first fault ends the computation. -/
def Res.bind {α β : Type} (r : Res α) (f : α → Res β) : Res β :=
  match r with
  | .fail e => .fail e
  | .ok a => f a

/-! ## Thread handles: `tid()` -/

/-- The process-wide variables `tid_v_base`, `tid_v_initialized` and the thread-local
`tid_v` of every thread (threads are named by natural numbers). -/
structure TidState where
  tid_v_base : Int
  tid_v_initialized : Bool
  tid_v : Nat → Int

/-- State at program start: statics are zero-initialised, every `tid_v` is `TID_UNKNOWN`. -/
def TidState.init : TidState :=
  { tid_v_base := 0, tid_v_initialized := false, tid_v := fun _ => TID_UNKNOWN }

/-- One call of `tid()` by thread `th`. -/
def tid (st : TidState) (th : Nat) : Res (Int × TidState) :=
  let st1 : TidState :=
    if !st.tid_v_initialized then
      { st with tid_v_base := 0, tid_v_initialized := true }
    else st
  if st1.tid_v th = TID_UNKNOWN then
    let v := st1.tid_v_base
    let st2 : TidState :=
      { st1 with tid_v_base := st1.tid_v_base + 1
                 tid_v := fun x => if x = th then v else st1.tid_v x }
    if v < HP_MAX_THREADS then .ok (v, st2) else .fail .assertion
  else .ok (st1.tid_v th, st1)

/-- A sequence of `tid()` calls, by the threads listed; the result is the list of
(thread, handle) pairs in call order and the final state.  A fatal call ends the run. -/
def tid_run (st : TidState) : List Nat → Res (List (Nat × Int) × TidState)
  | [] => .ok ([], st)
  | th :: rest =>
    match tid st th with
    | .fail e => .fail e
    | .ok (v, st1) =>
      match tid_run st1 rest with
      | .fail e => .fail e
      | .ok (log, st2) => .ok ((th, v) :: log, st2)

/-! ## The domain -/

/-- `retirelist_t`: `size` and the array `list[MAX_RETIRED]`. -/
structure retirelist where
  size : Int
  list : List Nat
  deriving DecidableEq, Repr

/-- `struct isc_hp`: `max_hps`, the rows `hp[HP_MAX_THREADS]` and the retire lists
`rl[HP_MAX_THREADS]`.  (`mctx` plays no role; calls of `deletefunc` are logged.) -/
structure isc_hp where
  max_hps : Int
  hp : List (List Nat)
  rl : List retirelist
  deriving DecidableEq, Repr

/-- Conversion of a `size_t` to `int` (wraps modulo `2^32`, two's complement). -/
def int_of_size_t (n : Nat) : Int :=
  if n % 2 ^ 32 < 2 ^ 31 then ((n % 2 ^ 32 : Nat) : Int) else ((n % 2 ^ 32 : Nat) : Int) - 2 ^ 32

/-- A block of `n` words from `isc_mem_get`; its contents are whatever `contents` says. -/
def isc_mem_get (n : Nat) (contents : Nat → Nat) : List Nat :=
  (List.range n).map contents

/-- Store of `v` into word `j` of a block. -/
def store_word (blk : List Nat) (j : Int) (v : Nat) : Res (List Nat) :=
  if 0 ≤ j ∧ j < blk.length then .ok (blk.set j.toNat v) else .fail .outOfBounds

/-- The loop `for (j = 0; j < n; j++) row[j] = 0` (used by `isc_hp_new` and `isc_hp_clear`). -/
def zero_words (row : List Nat) : Nat → Res (List Nat)
  | 0 => .ok row
  | n + 1 => (zero_words row n).bind (fun r => store_word r n 0)

/-- The outer loop of `isc_hp_new`, `for (i = ...; i < HP_MAX_THREADS; i++)`, from `i` on with
`n` iterations left: the rows `hp->hp[i ..]` and the retire lists `hp->rl[i ..]`. -/
def new_rows (k : Int) (junk : Nat → Nat → Nat) :
    Nat → Nat → Res (List (List Nat) × List retirelist)
  | _, 0 => .ok ([], [])
  | i, n + 1 =>
    (zero_words (isc_mem_get ROW_WORDS (junk i)) k.toNat).bind (fun row =>
      (new_rows k junk (i + 1) n).bind (fun acc =>
        .ok (row :: acc.1,
             { size := 0, list := List.replicate MAX_RETIRED 0 } :: acc.2)))

/-- `isc_hp_new(mctx, max_hps, deletefunc)`; `junk i j` is the content of word `j` of the
block that `isc_mem_get` returns for row `i`. -/
def isc_hp_new (max_hps : Nat) (junk : Nat → Nat → Nat) : Res isc_hp :=
  let max_hps := if max_hps = 0 then HP_MAX_HPS else max_hps
  let k := int_of_size_t max_hps
  (new_rows k junk 0 HP_MAX_THREADS).bind (fun acc =>
    .ok { max_hps := k, hp := acc.1, rl := acc.2 })

/-- Store into `hp->hp[t][ihp]`. -/
def store_slot (hp : isc_hp) (t : Nat) (ihp : Int) (v : Nat) : Res isc_hp :=
  match hp.hp[t]? with
  | none => .fail .outOfBounds
  | some row => (store_word row ihp v).bind (fun r => .ok { hp with hp := hp.hp.set t r })

/-- The loop of `isc_hp_clear` for `i = 0 .. n-1`. -/
def clear_loop (hp : isc_hp) (t : Nat) : Nat → Res isc_hp
  | 0 => .ok hp
  | n + 1 => (clear_loop hp t n).bind (fun h => store_slot h t n 0)

/-- `isc_hp_clear(hp)` called by the thread with handle `t`. -/
def isc_hp_clear (hp : isc_hp) (t : Nat) : Res isc_hp :=
  clear_loop hp t hp.max_hps.toNat

/-- `isc_hp_clear_one(hp, ihp)` called by the thread with handle `t`. -/
def isc_hp_clear_one (hp : isc_hp) (t : Nat) (ihp : Int) : Res isc_hp :=
  store_slot hp t ihp 0

/-- Memory events of `isc_hp_protect`, in program order. -/
inductive Ev where
  /-- Value read by `atomic_load(atom)`. -/
  | load (v : Nat)
  /-- Value written by `atomic_store(&hp->hp[tid()][ihp], ret)`. -/
  | store (v : Nat)
  deriving DecidableEq, Repr

/-- The `while` loop of `isc_hp_protect`: `loads` are the values that the successive
`atomic_load(atom)` observe, `n` is the local `n`, `tr` the events so far. -/
def protect_loop (t : Nat) (ihp : Int) :
    List Nat → Nat → isc_hp → List Ev → Res (Nat × isc_hp × List Ev)
  | [], _, _, _ => .fail .pending
  | ret :: rest, n, hp, tr =>
    if ret ≠ n then
      match store_slot hp t ihp ret with
      | .fail e => .fail e
      | .ok hp1 => protect_loop t ihp rest ret hp1 (tr ++ [Ev.load ret, Ev.store ret])
    else .ok (ret, hp, tr ++ [Ev.load ret])

/-- `isc_hp_protect(hp, ihp, atom)` called by the thread with handle `t`: returned value,
new state and the events of the call. -/
def isc_hp_protect (hp : isc_hp) (t : Nat) (ihp : Int) (loads : List Nat) :
    Res (Nat × isc_hp × List Ev) :=
  protect_loop t ihp loads 0 hp []

/-- `isc_hp_protect_ptr(hp, ihp, ptr)` called by the thread with handle `t`. -/
def isc_hp_protect_ptr (hp : isc_hp) (t : Nat) (ihp : Int) (ptr : Nat) : Res (Nat × isc_hp) :=
  (store_slot hp t ihp ptr).bind (fun h => .ok (ptr, h))

/-- `isc_hp_protect_release(hp, ihp, ptr)` called by the thread with handle `t`. -/
def isc_hp_protect_release (hp : isc_hp) (t : Nat) (ihp : Int) (ptr : Nat) :
    Res (Nat × isc_hp) :=
  (store_slot hp t ihp ptr).bind (fun h => .ok (ptr, h))

/-- The inner loop of the scan, `for (ihp = n-1; ihp >= 0; ihp--)` over one row, reading
`row[n-1]` first: `true` when some examined word equals `obj` (then `can_delete = false;
break`). -/
def row_scan (row : List Nat) (obj : Nat) : Nat → Res Bool
  | 0 => .ok false
  | n + 1 =>
    match row[n]? with
    | none => .fail .outOfBounds
    | some v => if v = obj then .ok true else row_scan row obj n

/-- Least value of a C `int` (32 bits, two's complement). -/
def INT_MIN : Int := -2147483648

/-- Greatest value of a C `int`. -/
def INT_MAX : Int := 2147483647

/-- The C expression `x - 1` on an `int` `x` (so `INT_MIN <= x`): it is `x - 1` when that is
an `int`; at `x = INT_MIN` the subtraction overflows and the value wraps, modulo `2^32`, to
`INT_MAX`. -/
def int_pred (x : Int) : Int :=
  if INT_MIN < x then x - 1 else INT_MAX

/-- The loop `for (itid = ...; itid < HP_MAX_THREADS && can_delete; itid++)` with `n`
iterations left, `rows` being the rows `hp->hp[itid ..]`; the result is the final
`can_delete`.  The inner loop starts at `ihp = max_hps-1`, computed in `int`, and examines
the words `ihp, ihp-1, .., 0`: `ihp + 1` of them when `ihp >= 0`, none otherwise. -/
def can_delete_loop (max_hps : Int) (obj : Nat) : List (List Nat) → Nat → Res Bool
  | _, 0 => .ok true
  | [], _ + 1 => .fail .outOfBounds
  | row :: rest, n + 1 =>
    match row_scan row obj (int_pred max_hps + 1).toNat with
    | .fail e => .fail e
    | .ok true => .ok false
    | .ok false => can_delete_loop max_hps obj rest n

/-- Value of `can_delete` for `obj` after both inner loops of `isc_hp_retire`. -/
def can_delete (hp : isc_hp) (obj : Nat) : Res Bool :=
  can_delete_loop hp.max_hps obj hp.hp HP_MAX_THREADS

/-- `memmove(&l[dst], &l[src], n * sizeof(l[0]))`. -/
def memmove (l : List Nat) (dst src n : Nat) : Res (List Nat) :=
  if src + n ≤ l.length ∧ dst + n ≤ l.length then
    .ok (l.take dst ++ (l.drop src).take n ++ l.drop (dst + n))
  else .fail .outOfBounds

/-- The loop `for (iret = 0; iret < size; iret++)` of `isc_hp_retire`, from `iret` on, on
the retire list `rl` of the calling thread; `log` are the `deletefunc` calls so far.
`fuel` bounds the number of iterations. -/
def retire_scan (hp : isc_hp) : Nat → Nat → retirelist → List Nat → Res (retirelist × List Nat)
  | 0, iret, rl, log => if (iret : Int) < rl.size then .fail .pending else .ok (rl, log)
  | fuel + 1, iret, rl, log =>
    if (iret : Int) < rl.size then
      match rl.list[iret]? with
      | none => .fail .outOfBounds
      | some obj =>
        match can_delete hp obj with
        | .fail e => .fail e
        | .ok false => retire_scan hp fuel (iret + 1) rl log
        | .ok true =>
          match memmove rl.list iret (iret + 1) (rl.size - iret).toNat with
          | .fail e => .fail e
          | .ok l1 =>
            retire_scan hp fuel (iret + 1) { size := rl.size - 1, list := l1 } (log ++ [obj])
    else .ok (rl, log)

/-- `isc_hp_retire(hp, ptr)` called by the thread with handle `t`: the new state and the
identities passed to `deletefunc`, in call order. -/
def isc_hp_retire (hp : isc_hp) (t : Nat) (ptr : Nat) : Res (isc_hp × List Nat) :=
  match hp.rl[t]? with
  | none => .fail .outOfBounds
  | some rl =>
    match store_word rl.list rl.size ptr with
    | .fail e => .fail e
    | .ok l1 =>
      let rl1 : retirelist := { size := rl.size + 1, list := l1 }
      if ¬ (rl1.size < MAX_RETIRED) then .fail .assertion
      else if rl1.size < HP_THRESHOLD_R then .ok ({ hp with rl := hp.rl.set t rl1 }, [])
      else
        match retire_scan hp rl1.size.toNat 0 rl1 [] with
        | .fail e => .fail e
        | .ok (rl2, log) => .ok ({ hp with rl := hp.rl.set t rl2 }, log)

/-- The loop `for (j = 0; j < n; j++) deletefunc(list[j])` of `isc_hp_destroy`. -/
def drain (rl : retirelist) : Nat → Res (List Nat)
  | 0 => .ok []
  | n + 1 =>
    (drain rl n).bind (fun log =>
      match rl.list[n]? with
      | none => .fail .outOfBounds
      | some x => .ok (log ++ [x]))

/-- The outer loop of `isc_hp_destroy` for `i = 0 .. n-1`. -/
def destroy_loop (hp : isc_hp) : Nat → Res (List Nat)
  | 0 => .ok []
  | n + 1 =>
    (destroy_loop hp n).bind (fun log =>
      match hp.rl[n]? with
      | none => .fail .outOfBounds
      | some rl => (drain rl rl.size.toNat).bind (fun l => .ok (log ++ l)))

/-- `isc_hp_destroy(hp)`: the identities passed to `deletefunc`, in call order. -/
def isc_hp_destroy (hp : isc_hp) : Res (List Nat) :=
  destroy_loop hp HP_MAX_THREADS

/-! ## Runs -/

/-- One call on the domain by the thread with handle `t`. -/
inductive Op where
  | protect (t : Nat) (ihp : Int) (loads : List Nat)
  | protect_ptr (t : Nat) (ihp : Int) (ptr : Nat)
  | protect_release (t : Nat) (ihp : Int) (ptr : Nat)
  | clear_one (t : Nat) (ihp : Int)
  | clear (t : Nat)
  | retire (t : Nat) (ptr : Nat)
  deriving DecidableEq, Repr

/-- Effect of one call: new state and the identities passed to `deletefunc`. -/
def step (hp : isc_hp) : Op → Res (isc_hp × List Nat)
  | .protect t ihp loads => (isc_hp_protect hp t ihp loads).bind (fun r => .ok (r.2.1, []))
  | .protect_ptr t ihp ptr => (isc_hp_protect_ptr hp t ihp ptr).bind (fun r => .ok (r.2, []))
  | .protect_release t ihp ptr =>
    (isc_hp_protect_release hp t ihp ptr).bind (fun r => .ok (r.2, []))
  | .clear_one t ihp => (isc_hp_clear_one hp t ihp).bind (fun h => .ok (h, []))
  | .clear t => (isc_hp_clear hp t).bind (fun h => .ok (h, []))
  | .retire t ptr => isc_hp_retire hp t ptr

/-- A sequence of calls; the log collects all `deletefunc` calls.  A fault ends the run. -/
def run (hp : isc_hp) : List Op → Res (isc_hp × List Nat)
  | [] => .ok (hp, [])
  | op :: rest =>
    (step hp op).bind (fun r => (run r.1 rest).bind (fun r2 => .ok (r2.1, r.2 ++ r2.2)))

/-- The handle of the calling thread. -/
def Op.thread : Op → Nat
  | .protect t _ _ => t
  | .protect_ptr t _ _ => t
  | .protect_release t _ _ => t
  | .clear_one t _ => t
  | .clear t => t
  | .retire t _ => t

/-! ## Observations on states -/

/-- Content of `hp->hp[u][j]`. -/
def slot (hp : isc_hp) (u j : Nat) : Option Nat :=
  (hp.hp[u]?).bind (fun row => row[j]?)

/-- Some slot `(u, j)`, `u` in `[0, HP_MAX_THREADS)`, `j` in `[0, max_hps)`, holds `obj`. -/
def Held (hp : isc_hp) (obj : Nat) : Prop :=
  ∃ u j : Nat, u < HP_MAX_THREADS ∧ (j : Int) < hp.max_hps ∧ slot hp u j = some obj

/-- The entries of a retire list: `list[0 .. size-1]`. -/
def entries (rl : retirelist) : List Nat :=
  rl.list.take rl.size.toNat

/-- The entries of the retire list of the thread with handle `t`. -/
def retired (hp : isc_hp) (t : Nat) : List Nat :=
  match hp.rl[t]? with
  | none => []
  | some rl => entries rl

/-- Shape of a domain: `HP_MAX_THREADS` rows of `ROW_WORDS` words with `max_hps` of them
in use, `HP_MAX_THREADS` retire lists of `MAX_RETIRED` words with `0 <= size < MAX_RETIRED`. -/
def WF (hp : isc_hp) : Prop :=
  hp.max_hps ≤ ROW_WORDS ∧
  hp.hp.length = HP_MAX_THREADS ∧
  (∀ row ∈ hp.hp, row.length = ROW_WORDS) ∧
  hp.rl.length = HP_MAX_THREADS ∧
  (∀ r ∈ hp.rl, 0 ≤ r.size ∧ r.size < MAX_RETIRED ∧ r.list.length = MAX_RETIRED)

instance (hp : isc_hp) : Decidable (WF hp) := by
  unfold WF; infer_instance

/-! ## The scan on lists of entries -/

/-- What one scan of `isc_hp_retire` does to the entries from the current index on, given
which identities are held: (entries kept, identities passed to `deletefunc`).  After a
removal the index still advances, so the entry that moved into the freed place is kept
without being examined. -/
def scanL (held : Nat → Bool) : List Nat → List Nat × List Nat
  | [] => ([], [])
  | [x] => if held x then ([x], []) else ([], [x])
  | x :: y :: rest =>
    if held x then ((x :: (scanL held (y :: rest)).1), (scanL held (y :: rest)).2)
    else ((y :: (scanL held rest).1), (x :: (scanL held rest).2))

/-- Boolean form of `Held`: some word among the first `max_hps` of one of the first
`HP_MAX_THREADS` rows equals `obj`. -/
def heldB (hp : isc_hp) (obj : Nat) : Bool :=
  (hp.hp.take HP_MAX_THREADS).any (fun row =>
    (row.take hp.max_hps.toNat).any (fun v => v == obj))

instance (hp : isc_hp) (obj : Nat) : Decidable (Held hp obj) :=
  decidable_of_iff (heldB hp obj = true) (by
    simp only [heldB, Held, slot, List.any_eq_true, beq_iff_eq, List.mem_iff_getElem?,
      List.getElem?_take, Int.lt_toNat]
    constructor
    · rintro ⟨row, ⟨u, hu⟩, v, ⟨j, hj⟩, rfl⟩
      split at hu
      · split at hj
        · exact ⟨u, j, by assumption, by assumption, by simp [hu, hj]⟩
        · exact Option.noConfusion hj
      · exact Option.noConfusion hu
    · rintro ⟨u, j, hu, hj, h⟩
      cases hrow : hp.hp[u]? with
      | none => simp [hrow] at h
      | some row =>
        simp only [hrow, Option.some_bind] at h
        exact ⟨row, ⟨u, by simp [hu, hrow]⟩, obj, ⟨j, by simp [hj, h]⟩, rfl⟩)

/-- Fields of one retire list in range. -/
def WFrl (r : retirelist) : Prop :=
  0 ≤ r.size ∧ r.size < MAX_RETIRED ∧ r.list.length = MAX_RETIRED

/-- The states a run goes through, the initial one included, up to its end or its first
fault. -/
def run_states (hp : isc_hp) : List Op → List isc_hp
  | [] => [hp]
  | op :: rest =>
    hp :: (match step hp op with
      | .ok r => run_states r.1 rest
      | .fail _ => [])

/-- Number of `isc_hp_retire` calls by the thread with handle `t` in a sequence of calls. -/
def retire_calls (t : Nat) : List Op → Nat
  | [] => 0
  | .retire u _ :: rest => (if u = t then 1 else 0) + retire_calls t rest
  | _ :: rest => retire_calls t rest

/-- The state of `tid` after exactly the threads of `S` have called it: the counter is the
number of those threads, and they hold distinct handles below the counter. -/
def TidInv (st : TidState) (S : Finset Nat) : Prop :=
  st.tid_v_base = S.card ∧
  (st.tid_v_initialized = false → S = ∅) ∧
  (∀ th, th ∈ S ↔ st.tid_v th ≠ TID_UNKNOWN) ∧
  (∀ th ∈ S, 0 ≤ st.tid_v th ∧ st.tid_v th < S.card) ∧
  (∀ a ∈ S, ∀ b ∈ S, st.tid_v a = st.tid_v b → a = b)

/-- The entries of `l` at the positions where `mask` is `true`, in order. -/
def pick : List Bool → List Nat → List Nat
  | b :: m, x :: l => if b then x :: pick m l else pick m l
  | _, _ => []

/-- A source that presents a different value at every load: `a`, `3 - a`, `a`, ... -/
def alternating : Nat → Nat → List Nat
  | 0, _ => []
  | k + 1, a => a :: alternating k (3 - a)

/-- Every value of `loads` differs from the one loaded before it, `n` standing for the value
before the first load. -/
def changing : Nat → List Nat → Bool
  | _, [] => true
  | n, a :: rest => a != n && changing a rest

/-- A call that protects nothing, in a domain with `K` slots per thread: `retire` of a
nonzero identity, `clear`, or `clear_one` of a slot, by a thread with a handle. -/
def unprotecting (K : Int) : Op → Prop
  | .retire t R => t < HP_MAX_THREADS ∧ R ≠ 0
  | .clear t => t < HP_MAX_THREADS
  | .clear_one t ihp => t < HP_MAX_THREADS ∧ 0 ≤ ihp ∧ ihp < K
  | _ => False

/-- The identities retired by a sequence of calls, in call order. -/
def retired_ids : List Op → List Nat
  | [] => []
  | .retire _ R :: rest => R :: retired_ids rest
  | _ :: rest => retired_ids rest

/-! ## Sample states -/

/-- A fresh domain with one slot per thread: `isc_hp_new(mctx, 1, deletefunc)` on zeroed
memory. -/
def demo_fresh : isc_hp :=
  { max_hps := 1
    hp := List.replicate 128 (List.replicate 32 0)
    rl := List.replicate 128 { size := 0, list := List.replicate 512 0 } }

/-- After thread 0 protected identity 5 in its slot 0. -/
def demo_protected : isc_hp :=
  { demo_fresh with hp := demo_fresh.hp.set 0 ((List.replicate 32 0).set 0 5) }

/-- After thread 1 then retired 5 (kept, being protected). -/
def demo_kept : isc_hp :=
  { demo_protected with
    rl := demo_fresh.rl.set 1 { size := 1, list := (List.replicate 512 0).set 0 5 } }

/-- After thread 0 then cleared its slot: 5 is pending in the list of thread 1, unprotected. -/
def demo_pending : isc_hp :=
  { demo_fresh with
    rl := demo_fresh.rl.set 1 { size := 1, list := (List.replicate 512 0).set 0 5 } }

/-- After thread 1 then retired 6. -/
def demo_after : isc_hp :=
  { demo_fresh with
    rl := demo_fresh.rl.set 1 { size := 1, list := (List.replicate 512 0).set 0 6 } }

/-- After thread 0 published identity 7 in its slot 0 (`isc_hp_protect_ptr(hp, 0, 7)`). -/
def demo_seven : isc_hp :=
  { demo_fresh with hp := demo_fresh.hp.set 0 ((List.replicate 32 0).set 0 7) }

/-- After thread 0 stored 7 into word 1 of its row, beyond its single slot. -/
def demo_pad : isc_hp :=
  { demo_fresh with hp := demo_fresh.hp.set 0 ((List.replicate 32 0).set 1 7) }

/-- One slot per thread, thread `u` holding identity `u + 1`; the retire list of thread 0
holds the 128 identities `1 .. 128`, each of them protected. -/
def demo_full1 : isc_hp :=
  { max_hps := 1
    hp := (List.range 128).map (fun u => (u + 1) :: List.replicate 31 0)
    rl := demo_fresh.rl.set 0
      { size := 128, list := (List.range 128).map (fun i => i + 1) ++ List.replicate 384 0 } }

/-- Four slots per thread, slot `j` of thread `u` holding identity `4 * u + j + 1`; the
retire list of thread 0 holds the 511 identities `1 .. 511`, each of them protected. -/
def demo_full4 : isc_hp :=
  { max_hps := 4
    hp := (List.range 128).map (fun u =>
      [4 * u + 1, 4 * u + 2, 4 * u + 3, 4 * u + 4] ++ List.replicate 28 0)
    rl := demo_fresh.rl.set 0
      { size := 511, list := (List.range 511).map (fun i => i + 1) ++ [0] } }

/-- The domain of `isc_hp_new(mctx, 2147483648, deletefunc)` on zeroed memory: the requested
capacity, converted to `int`, is `INT_MIN`. -/
def demo_min : isc_hp :=
  { demo_fresh with max_hps := -2147483648 }

/-- After thread 1 retired identity 0 in a fresh domain: 0 is held by the unused slots and
stays in its list. -/
def demo_zero : isc_hp :=
  { demo_fresh with
    rl := demo_fresh.rl.set 1 { size := 1, list := List.replicate 512 0 } }

end IscHp

namespace Rdata

open IscHp (Res Fault)

/-! ## Wire decoding of TKEY rdata (`lib/dns/rdata/generic/tkey_249.c`)

Buffers and regions hold bytes, represented by natural numbers (read modulo 256).  The
buffer and region primitives and the helpers of `rdata.c` are not among the sources; they
are modelled here after their use in `fromwire_tkey` and `towire_tkey`. -/

/-- The result codes that `fromwire_tkey` and `towire_tkey` return. -/
inductive dns_result where
  | DNS_R_SUCCESS
  | DNS_R_NOSPACE
  | DNS_R_UNEXPECTEDEND
  deriving DecidableEq, Repr

/-- `isc_buffer_t`: `base` holds the bytes of the used region (`used = base.length`),
`length` is the size of the memory of the buffer, `current` and `active` delimit the
active region. -/
structure isc_buffer where
  base : List Nat
  length : Nat
  current : Nat
  active : Nat
  deriving DecidableEq, Repr

/-- Modelled from the spec: `isc_buffer_active(b, &r)`, missing from the sources; the
active region is `base[current .. active)`. -/
def isc_buffer_active (b : isc_buffer) : List Nat :=
  (b.base.take b.active).drop b.current

/-- Modelled from the spec: number of bytes of the available region of a buffer
(`isc_buffer_available`, missing from the sources), `length - used`. -/
def isc_buffer_available (b : isc_buffer) : Nat :=
  b.length - b.base.length

/-- Modelled from the spec: `isc_region_consume(&r, n)`, missing from the sources; drops the
first `n` bytes of the region, which must have that many. -/
def isc_region_consume (r : List Nat) (n : Nat) : Res (List Nat) :=
  if n ≤ r.length then .ok (r.drop n) else .fail .assertion

/-- Modelled from the spec: `isc_buffer_forward(b, n)`, missing from the sources; advances
`current` by `n`, which must not pass the end of the used region. -/
def isc_buffer_forward (b : isc_buffer) (n : Nat) : Res isc_buffer :=
  if b.current + n ≤ b.base.length then .ok { b with current := b.current + n }
  else .fail .assertion

/-- Modelled from the spec: `mem_tobuffer(target, base, length)` of `rdata.c`, missing from
the sources; appends the bytes to the used region if the available region can take them,
and returns `DNS_R_NOSPACE` otherwise. -/
def mem_tobuffer (target : isc_buffer) (bytes : List Nat) : dns_result × isc_buffer :=
  if bytes.length > isc_buffer_available target then (.DNS_R_NOSPACE, target)
  else (.DNS_R_SUCCESS, { target with base := target.base ++ bytes })

/-- Modelled from the spec: `uint16_fromregion(&r)` of `rdata.c`, missing from the sources;
the big-endian 16-bit value of the first two bytes of the region. -/
def uint16_fromregion (r : List Nat) : Res Nat :=
  match r with
  | hi :: lo :: _ => .ok (hi % 256 * 256 + lo % 256)
  | _ => .fail .assertion

/-- The part of `fromwire_tkey` from "Other Length + Other" on. -/
def fromwire_tkey_other (sr : List Nat) (source target : isc_buffer) :
    Res (dns_result × isc_buffer × isc_buffer) :=
  if sr.length < 2 then .ok (.DNS_R_UNEXPECTEDEND, source, target)
  else
    (uint16_fromregion sr).bind (fun n =>
      if sr.length < n + 2 then .ok (.DNS_R_UNEXPECTEDEND, source, target)
      else
        (isc_buffer_forward source (n + 2)).bind (fun source1 =>
          .ok ((mem_tobuffer target (sr.take (n + 2))).1, source1,
               (mem_tobuffer target (sr.take (n + 2))).2)))

/-- The part of `fromwire_tkey` from "Signature Length + Signature" on. -/
def fromwire_tkey_signature (sr : List Nat) (source target : isc_buffer) :
    Res (dns_result × isc_buffer × isc_buffer) :=
  if sr.length < 2 then .ok (.DNS_R_UNEXPECTEDEND, source, target)
  else
    (uint16_fromregion sr).bind (fun n =>
      if sr.length < n + 2 then .ok (.DNS_R_UNEXPECTEDEND, source, target)
      else
        match mem_tobuffer target (sr.take (n + 2)) with
        | (.DNS_R_SUCCESS, target1) =>
          (isc_region_consume sr (n + 2)).bind (fun sr1 =>
            (isc_buffer_forward source (n + 2)).bind (fun source1 =>
              fromwire_tkey_other sr1 source1 target1))
        | (r, target1) => .ok (r, source, target1))

/-- `fromwire_tkey(class, type, source, dctx, downcase, target)`: the result code and the
source and target buffers on return. -/
def fromwire_tkey (type : Nat) (source target : isc_buffer) :
    Res (dns_result × isc_buffer × isc_buffer) :=
  if type ≠ 249 then .fail .assertion
  else if (isc_buffer_active source).length < 12 then
    .ok (.DNS_R_UNEXPECTEDEND, source, target)
  else
    match mem_tobuffer target ((isc_buffer_active source).take 12) with
    | (.DNS_R_SUCCESS, target1) =>
      (isc_region_consume (isc_buffer_active source) 12).bind (fun sr1 =>
        (isc_buffer_forward source 12).bind (fun source1 =>
          fromwire_tkey_signature sr1 source1 target1))
    | (r, target1) => .ok (r, source, target1)

/-- `towire_tkey(rdata, cctx, target)`, `rdata` being the bytes of the rdata and `type` its
type: the result code and the target buffer on return. -/
def towire_tkey (type : Nat) (rdata : List Nat) (target : isc_buffer) :
    Res (dns_result × isc_buffer) :=
  if type ≠ 249 then .fail .assertion
  else .ok (mem_tobuffer target rdata)

/-- A source whose active region is a TKEY rdata with a 2-byte signature and 1 byte of
other data, followed by one further byte. -/
def demo_tkey_source : isc_buffer :=
  { base := [0, 0, 0, 1, 0, 0, 0, 2, 0, 3, 0, 0, 0, 2, 7, 8, 0, 1, 9, 77],
    length := 20, current := 0, active := 20 }

/-- An empty target of 64 bytes. -/
def demo_tkey_target : isc_buffer :=
  { base := [], length := 64, current := 0, active := 0 }

/-! ## Wire decoding of A rdata (`lib/dns/rdata/in_1/a_1.c`) -/

/-- The result codes that `fromwire_in_a` returns. -/
inductive isc_result where
  | ISC_R_SUCCESS
  | ISC_R_NOSPACE
  | ISC_R_UNEXPECTEDEND
  deriving DecidableEq, Repr

def dns_rdatatype_a : Nat := 1

def dns_rdataclass_in : Nat := 1

/-- Modelled from the spec: `memmove(tregion.base, bytes, n)` followed by
`isc_buffer_add(target, n)`, both missing from the sources: the bytes written at the start
of the available region become the end of the used region, which must have room for them. -/
def isc_buffer_add (b : isc_buffer) (bytes : List Nat) : Res isc_buffer :=
  if b.base.length + bytes.length ≤ b.length then .ok { b with base := b.base ++ bytes }
  else .fail .assertion

/-- `fromwire_in_a(rdclass, type, source, dctx, options, target)`: the result code and the
source and target buffers on return. -/
def fromwire_in_a (rdclass type : Nat) (source target : isc_buffer) :
    Res (isc_result × isc_buffer × isc_buffer) :=
  if type ≠ dns_rdatatype_a then .fail .assertion
  else if rdclass ≠ dns_rdataclass_in then .fail .assertion
  else if (isc_buffer_active source).length < 4 then
    .ok (.ISC_R_UNEXPECTEDEND, source, target)
  else if isc_buffer_available target < 4 then .ok (.ISC_R_NOSPACE, source, target)
  else
    (isc_buffer_forward source 4).bind (fun source1 =>
      (isc_buffer_add target ((isc_buffer_active source).take 4)).bind (fun target1 =>
        .ok (.ISC_R_SUCCESS, source1, target1)))

/-- A source with six active bytes after two consumed ones. -/
def demo_a_source : isc_buffer :=
  { base := [9, 9, 192, 0, 2, 1, 5, 6], length := 8, current := 2, active := 8 }

end Rdata

namespace IscHp

/-! ## Basic facts -/

theorem Res.bind_ok {α β : Type} (a : α) (f : α → Res β) : (Res.ok a).bind f = f a := rfl

theorem Res.bind_fail {α β : Type} (e : Fault) (f : α → Res β) :
    (Res.fail e : Res α).bind f = .fail e := rfl

theorem Res.bind_eq_ok {α β : Type} {r : Res α} {f : α → Res β} {b : β} :
    r.bind f = .ok b ↔ ∃ a, r = .ok a ∧ f a = .ok b := by
  cases r <;> simp [Res.bind]

theorem heldB_iff (hp : isc_hp) (obj : Nat) : heldB hp obj = true ↔ Held hp obj := by
  simp only [heldB, Held, slot, List.any_eq_true, beq_iff_eq, List.mem_iff_getElem?,
    List.getElem?_take, Int.lt_toNat]
  constructor
  · rintro ⟨row, ⟨u, hu⟩, v, ⟨j, hj⟩, rfl⟩
    split at hu
    · split at hj
      · exact ⟨u, j, by assumption, by assumption, by simp [hu, hj]⟩
      · exact Option.noConfusion hj
    · exact Option.noConfusion hu
  · rintro ⟨u, j, hu, hj, h⟩
    cases hrow : hp.hp[u]? with
    | none => simp [hrow] at h
    | some row =>
      simp only [hrow, Option.some_bind] at h
      exact ⟨row, ⟨u, by simp [hu, hrow]⟩, obj, ⟨j, by simp [hj, h]⟩, rfl⟩

theorem heldB_false_iff (hp : isc_hp) (obj : Nat) :
    heldB hp obj = false ↔
      ∀ u j : Nat, u < HP_MAX_THREADS → (j : Int) < hp.max_hps → slot hp u j ≠ some obj := by
  rw [← Bool.not_eq_true, heldB_iff]
  simp only [Held, not_exists, not_and]

theorem row_scan_eq (row : List Nat) (obj : Nat) :
    ∀ n, n ≤ row.length →
      row_scan row obj n = .ok ((row.take n).any (fun v => v == obj))
  | 0, _ => by simp [row_scan]
  | n + 1, h => by
    have hn : n < row.length := h
    rw [row_scan, List.getElem?_eq_getElem hn, List.take_succ, List.getElem?_eq_getElem hn]
    simp only [Option.toList_some, List.any_append, List.any_cons, List.any_nil, Bool.or_false]
    by_cases hv : row[n] = obj
    · simp [hv]
    · simp [hv, row_scan_eq row obj n (by omega)]

/-- On the values of an `int`, `int_pred` is subtraction of 1 modulo `2^32` in two's
complement. -/
theorem int_pred_wrap (x : Int) (h1 : INT_MIN ≤ x) (h2 : x ≤ INT_MAX) :
    int_pred x = (x - 1 + 2 ^ 31) % 2 ^ 32 - 2 ^ 31 := by
  unfold INT_MIN at h1
  unfold INT_MAX at h2
  unfold int_pred INT_MIN INT_MAX
  split <;> omega

/-- Above `INT_MIN` the inner loop examines the words `max_hps-1, .., 0`. -/
theorem int_pred_count (x : Int) (h : INT_MIN < x) : (int_pred x + 1).toNat = x.toNat := by
  rw [int_pred, if_pos h]
  congr 1
  omega

/-- At `INT_MIN` the inner loop starts at index `INT_MAX`. -/
theorem int_pred_overflow (x : Int) (h : x ≤ INT_MIN) :
    (int_pred x + 1).toNat = 2147483647 + 1 := by
  rw [int_pred, if_neg (by omega)]
  rfl

theorem can_delete_loop_eq (k : Int) (obj : Nat) (hk : k ≤ ROW_WORDS) (hmin : INT_MIN < k) :
    ∀ (rows : List (List Nat)) (n : Nat), n ≤ rows.length →
      (∀ row ∈ rows, row.length = ROW_WORDS) →
      can_delete_loop k obj rows n =
        .ok (!((rows.take n).any (fun row => (row.take k.toNat).any (fun v => v == obj))))
  | rows, 0, _, _ => by simp [can_delete_loop]
  | [], n + 1, h, _ => by simp at h
  | row :: rest, n + 1, h, hrow => by
    have hlen : row.length = ROW_WORDS := hrow row (by simp)
    have hK : k.toNat ≤ row.length := by rw [hlen]; omega
    rw [can_delete_loop, int_pred_count k hmin]
    simp only [row_scan_eq row obj _ hK, List.take_succ_cons, List.any_cons]
    cases hb : (row.take k.toNat).any (fun v => v == obj)
    · simp only [Bool.false_or]
      exact can_delete_loop_eq k obj hk hmin rest n (by simp at h; omega)
        (fun r hr => hrow r (by simp [hr]))
    · simp

/-- In a well-shaped domain whose `max_hps` is above `INT_MIN` the two inner loops of the
scan return, and `can_delete` is the negation of `heldB`. -/
theorem can_delete_eq (hp : isc_hp) (obj : Nat) (hwf : WF hp) (hmin : INT_MIN < hp.max_hps) :
    can_delete hp obj = .ok (!heldB hp obj) := by
  obtain ⟨hk, hlen, hrow, -, -⟩ := hwf
  rw [can_delete,
    can_delete_loop_eq hp.max_hps obj hk hmin hp.hp HP_MAX_THREADS (by omega) hrow]
  rfl

/-- In a well-shaped domain whose `max_hps` is `INT_MIN` the first load of the inner loop,
at index `INT_MAX` of row 0, is outside the row. -/
theorem can_delete_overflow (hp : isc_hp) (obj : Nat) (hwf : WF hp)
    (hmin : hp.max_hps ≤ INT_MIN) : can_delete hp obj = .fail .outOfBounds := by
  obtain ⟨-, hlen, hrow, -, -⟩ := hwf
  cases hrows : hp.hp with
  | nil => rw [hrows] at hlen; exact absurd hlen (by decide)
  | cons row rest =>
    have hl : row.length = ROW_WORDS := hrow row (by rw [hrows]; simp)
    have hnone : row[2147483647]? = none := by
      rw [List.getElem?_eq_none_iff, hl]; decide
    rw [can_delete, hrows, HP_MAX_THREADS, can_delete_loop, int_pred_overflow _ hmin, row_scan,
      hnone]

/-! ## The scan on lists: equations and properties -/

theorem scanL_cons_held (held : Nat → Bool) (x : Nat) (tl : List Nat) (h : held x = true) :
    scanL held (x :: tl) = (x :: (scanL held tl).1, (scanL held tl).2) := by
  cases tl with
  | nil => simp [scanL, h]
  | cons y rest => simp [scanL, h]

theorem scanL_cons_free (held : Nat → Bool) (x : Nat) (tl : List Nat) (h : held x = false) :
    scanL held (x :: tl) =
      (tl.take 1 ++ (scanL held (tl.drop 1)).1, x :: (scanL held (tl.drop 1)).2) := by
  cases tl with
  | nil => simp [scanL, h]
  | cons y rest => simp [scanL, h]

theorem scanL_length (held : Nat → Bool) :
    ∀ (n : Nat) (l : List Nat), l.length ≤ n →
      (scanL held l).1.length + (scanL held l).2.length = l.length
  | 0, l, h => by
    have : l = [] := List.length_eq_zero.mp (by omega)
    subst this; simp [scanL]
  | n + 1, [], _ => by simp [scanL]
  | n + 1, x :: tl, h => by
    cases hx : held x
    · rw [scanL_cons_free held x tl hx]
      have := scanL_length held n (tl.drop 1) (by simp at h ⊢; omega)
      cases tl with
      | nil => simp [scanL]
      | cons y rest => simp at this ⊢; omega
    · rw [scanL_cons_held held x tl hx]
      have := scanL_length held n tl (by simp at h; omega)
      simp; omega

/-- Every identity that a scan passes to `deletefunc` is an entry that is not held. -/
theorem scanL_reclaimed (held : Nat → Bool) :
    ∀ (n : Nat) (l : List Nat), l.length ≤ n →
      ∀ x ∈ (scanL held l).2, x ∈ l ∧ held x = false
  | 0, l, h => by
    have : l = [] := List.length_eq_zero.mp (by omega)
    subst this; simp [scanL]
  | n + 1, [], _ => by simp [scanL]
  | n + 1, x :: tl, h => by
    intro z hz
    cases hx : held x
    · rw [scanL_cons_free held x tl hx] at hz
      simp only [List.mem_cons] at hz
      rcases hz with rfl | hz
      · exact ⟨by simp, hx⟩
      · have := scanL_reclaimed held n (tl.drop 1) (by simp at h ⊢; omega) z hz
        exact ⟨List.mem_cons_of_mem _ (List.mem_of_mem_drop this.1), this.2⟩
    · rw [scanL_cons_held held x tl hx] at hz
      have := scanL_reclaimed held n tl (by simp at h; omega) z hz
      exact ⟨List.mem_cons_of_mem _ this.1, this.2⟩

/-- Every entry that a scan keeps was an entry before. -/
theorem scanL_kept_mem (held : Nat → Bool) :
    ∀ (n : Nat) (l : List Nat), l.length ≤ n → ∀ x ∈ (scanL held l).1, x ∈ l
  | 0, l, h => by
    have : l = [] := List.length_eq_zero.mp (by omega)
    subst this; simp [scanL]
  | n + 1, [], _ => by simp [scanL]
  | n + 1, x :: tl, h => by
    intro z hz
    cases hx : held x
    · rw [scanL_cons_free held x tl hx] at hz
      simp only [List.mem_append] at hz
      rcases hz with hz | hz
      · exact List.mem_cons_of_mem _ (List.mem_of_mem_take hz)
      · have := scanL_kept_mem held n (tl.drop 1) (by simp at h ⊢; omega) z hz
        exact List.mem_cons_of_mem _ (List.mem_of_mem_drop this)
    · rw [scanL_cons_held held x tl hx] at hz
      simp only [List.mem_cons] at hz
      rcases hz with rfl | hz
      · simp
      · exact List.mem_cons_of_mem _ (scanL_kept_mem held n tl (by simp at h; omega) z hz)

/-- A held entry is kept by the scan. -/
theorem scanL_keeps_held (held : Nat → Bool) (p : Nat) (hp : held p = true) :
    ∀ (n : Nat) (l : List Nat), l.length ≤ n → p ∈ l → p ∈ (scanL held l).1
  | 0, l, h => by
    have : l = [] := List.length_eq_zero.mp (by omega)
    subst this; simp
  | n + 1, [], _ => by simp
  | n + 1, x :: tl, h => by
    intro hm
    cases hx : held x
    · rw [scanL_cons_free held x tl hx]
      have hne : p ≠ x := by
        rintro rfl; rw [hp] at hx; exact Bool.noConfusion hx
      have hm2 : p ∈ tl := by
        rcases List.mem_cons.mp hm with h1 | h1
        · exact absurd h1 hne
        · exact h1
      rw [← List.take_append_drop 1 tl] at hm2
      rcases List.mem_append.mp hm2 with h1 | h1
      · exact List.mem_append_left _ h1
      · exact List.mem_append_right _
          (scanL_keeps_held held p hp n (tl.drop 1) (by simp at h ⊢; omega) h1)
    · rw [scanL_cons_held held x tl hx]
      rcases List.mem_cons.mp hm with h1 | h1
      · simp [h1]
      · exact List.mem_cons_of_mem _ (scanL_keeps_held held p hp n tl (by simp at h; omega) h1)

/-! ## The scan loop refines the scan on lists -/

theorem entries_getElem? (rl : retirelist) (i : Nat) (h : (i : Int) < rl.size) :
    rl.list[i]? = (entries rl)[i]? := by
  have : i < rl.size.toNat := by omega
  simp [entries, List.getElem?_take, this]

theorem take_drop_lists (l : List Nat) (s i : Nat) (hi : i < s) (hs : s < l.length) :
    List.take (s - 1) (l.take i ++ (l.drop (i + 1)).take (s - i) ++ l.drop (i + (s - i))) =
      (l.take s).take i ++ (l.take s).drop (i + 1) := by
  have e1 : min (s - 1) i = i := by omega
  have e2 : min i s = i := by omega
  have e3 : min i l.length = i := by omega
  have e4 : min (s - i) (l.length - (i + 1)) = s - i := by omega
  have e6 : min (s - 1 - i) (s - i) = s - 1 - i := by omega
  have e7 : s - (i + 1) = s - 1 - i := by omega
  have e8 : s - 1 - i - (s - i) = 0 := by omega
  rw [List.append_assoc, List.take_append_eq_append_take, List.take_append_eq_append_take,
    List.take_take, List.take_take, List.take_take, List.drop_take]
  simp only [List.length_take, List.length_drop, e1, e2, e3, e4, e6, e7]
  simp [e8]

theorem memmove_entries (rl : retirelist) (iret : Nat) (hwf : WFrl rl)
    (h : (iret : Int) < rl.size) :
    ∃ l1, memmove rl.list iret (iret + 1) (rl.size - iret).toNat = .ok l1 ∧
      l1.length = MAX_RETIRED ∧
      entries { size := rl.size - 1, list := l1 } =
        (entries rl).take iret ++ (entries rl).drop (iret + 1) := by
  obtain ⟨h0, h1, h2⟩ := hwf
  have hn : (rl.size - iret).toNat = rl.size.toNat - iret := by omega
  have hs : rl.size.toNat < rl.list.length := by omega
  have hi : iret < rl.size.toNat := by omega
  refine ⟨rl.list.take iret ++ (rl.list.drop (iret + 1)).take (rl.size.toNat - iret) ++
      rl.list.drop (iret + (rl.size.toNat - iret)), ?_, ?_, ?_⟩
  · rw [memmove, if_pos, hn]
    rw [hn]; omega
  · simp only [List.length_append, List.length_take, List.length_drop]
    omega
  · have e : (rl.size - 1).toNat = rl.size.toNat - 1 := by omega
    simp only [entries, e]
    exact take_drop_lists rl.list rl.size.toNat iret hi hs

theorem entries_length (rl : retirelist) (hwf : WFrl rl) :
    (entries rl).length = rl.size.toNat := by
  obtain ⟨h0, h1, h2⟩ := hwf
  simp only [entries, List.length_take]
  omega

theorem drop_succ_splice (E : List Nat) (i : Nat) (hi : i < E.length) :
    List.drop (i + 1) (List.take i E ++ List.drop (i + 1) E) =
      List.drop 1 (List.drop (i + 1) E) := by
  have e1 : (List.take i E).length = i := by simp; omega
  rw [List.drop_append_eq_append_drop, e1, List.drop_eq_nil_of_le (by omega)]
  simp

theorem take_succ_splice (E : List Nat) (i : Nat) (hi : i < E.length) :
    List.take (i + 1) (List.take i E ++ List.drop (i + 1) E) =
      List.take i E ++ List.take 1 (List.drop (i + 1) E) := by
  have e1 : (List.take i E).length = i := by simp; omega
  rw [List.take_append_eq_append_take, e1, List.take_of_length_le (by omega)]
  simp

/-- The loop of `isc_hp_retire` from index `iret` on: with at least `size - iret` iterations
allowed, in a domain whose `max_hps` is above `INT_MIN`, it returns, the `deletefunc` calls
and the entries left are those of `scanL` on the entries from `iret` on, and the entries
before `iret` are untouched. -/
theorem retire_scan_refines (hp : isc_hp) (hwf : WF hp) (hmin : INT_MIN < hp.max_hps) :
    ∀ (fuel iret : Nat) (rl : retirelist) (log : List Nat), WFrl rl →
      rl.size - iret ≤ fuel →
      ∃ rl1, retire_scan hp fuel iret rl log =
          .ok (rl1, log ++ (scanL (heldB hp) ((entries rl).drop iret)).2) ∧
        entries rl1 = (entries rl).take iret ++ (scanL (heldB hp) ((entries rl).drop iret)).1 ∧
        WFrl rl1 ∧ rl1.size ≤ rl.size
  | 0, iret, rl, log, hrl, hf => by
    have hlen := entries_length rl hrl
    have hge : rl.size.toNat ≤ iret := by omega
    have hd : (entries rl).drop iret = [] := List.drop_eq_nil_of_le (by omega)
    have ht : (entries rl).take iret = entries rl := List.take_of_length_le (by omega)
    refine ⟨rl, ?_, ?_, hrl, le_refl _⟩
    · rw [retire_scan, if_neg (by omega), hd]; simp [scanL]
    · rw [hd, ht]; simp [scanL]
  | fuel + 1, iret, rl, log, hrl, hf => by
    have hlen := entries_length rl hrl
    by_cases hlt : (iret : Int) < rl.size
    · have hi : iret < (entries rl).length := by omega
      have hget : rl.list[iret]? = some ((entries rl)[iret]) := by
        rw [entries_getElem? rl iret hlt, List.getElem?_eq_getElem hi]
      have hdrop : (entries rl).drop iret = (entries rl)[iret] :: (entries rl).drop (iret + 1) :=
        List.drop_eq_getElem_cons hi
      rw [retire_scan, if_pos hlt, hget]
      simp only [can_delete_eq hp _ hwf hmin]
      cases hh : heldB hp ((entries rl)[iret])
      · -- not held: removed, and the entry that moves into its place is passed over
        obtain ⟨l1, hmm, hl1, hent⟩ := memmove_entries rl iret hrl hlt
        have hrl1 : WFrl { size := rl.size - 1, list := l1 } := by
          obtain ⟨h0, h1, h2⟩ := hrl
          exact ⟨by simp only; omega, by simp only; omega, hl1⟩
        obtain ⟨rl2, hrun, hent2, hwf2, hsz⟩ :=
          retire_scan_refines hp hwf hmin fuel (iret + 1) { size := rl.size - 1, list := l1 }
            (log ++ [(entries rl)[iret]]) hrl1 (by simp only; omega)
        refine ⟨rl2, ?_, ?_, hwf2, by simp only at hsz; omega⟩
        · simp only [Bool.not_false, hmm, hrun, hdrop, scanL_cons_free _ _ _ hh, hent,
            drop_succ_splice _ _ hi]
          simp
        · rw [hent2, hent, hdrop, scanL_cons_free _ _ _ hh, drop_succ_splice _ _ hi,
            take_succ_splice _ _ hi]
          simp
      · -- held: kept
        obtain ⟨rl2, hrun, hent2, hwf2, hsz⟩ :=
          retire_scan_refines hp hwf hmin fuel (iret + 1) rl log hrl (by omega)
        refine ⟨rl2, ?_, ?_, hwf2, hsz⟩
        · simp only [Bool.not_true, hrun, hdrop, scanL_cons_held _ _ _ hh]
        · have e : List.take (iret + 1) (entries rl) =
              List.take iret (entries rl) ++ [(entries rl)[iret]] := by
            rw [List.take_succ, List.getElem?_eq_getElem hi]; rfl
          rw [hent2, hdrop, scanL_cons_held _ _ _ hh, e]
          simp only [List.append_assoc, List.singleton_append]
    · have hge : rl.size.toNat ≤ iret := by omega
      have hd : (entries rl).drop iret = [] := List.drop_eq_nil_of_le (by omega)
      have ht : (entries rl).take iret = entries rl := List.take_of_length_le (by omega)
      refine ⟨rl, ?_, ?_, hrl, le_refl _⟩
      · rw [retire_scan, if_neg hlt, hd]; simp [scanL]
      · rw [hd, ht]; simp [scanL]

/-! ## `isc_hp_retire` in terms of the scan on lists -/

theorem entries_append (rl : retirelist) (ptr : Nat) (hwf : WFrl rl) :
    entries { size := rl.size + 1, list := rl.list.set rl.size.toNat ptr } =
      entries rl ++ [ptr] := by
  obtain ⟨h0, h1, h2⟩ := hwf
  have e : (rl.size + 1).toNat = rl.size.toNat + 1 := by omega
  have hlt : rl.size.toNat < rl.list.length := by omega
  have ht : List.take rl.size.toNat (rl.list.set rl.size.toNat ptr) =
      List.take rl.size.toNat rl.list := by
    apply List.ext_getElem?
    intro i
    rw [List.getElem?_take, List.getElem?_take]
    split
    · rw [List.getElem?_set_ne (by omega)]
    · rfl
  simp only [entries, e]
  rw [List.take_succ, List.getElem?_set_self hlt, ht]
  rfl

theorem WF_rl_get (hp : isc_hp) (hwf : WF hp) (t : Nat) (ht : t < HP_MAX_THREADS) :
    ∃ rl, hp.rl[t]? = some rl ∧ WFrl rl := by
  obtain ⟨-, -, -, hlen, hrl⟩ := hwf
  have h : t < hp.rl.length := by omega
  exact ⟨hp.rl[t], List.getElem?_eq_getElem h, hrl _ (List.getElem_mem h)⟩

theorem WF_set_rl (hp : isc_hp) (hwf : WF hp) (t : Nat) (r : retirelist) (hr : WFrl r) :
    WF { hp with rl := hp.rl.set t r } := by
  obtain ⟨h1, h2, h3, h4, h5⟩ := hwf
  refine ⟨h1, h2, h3, by simpa using h4, ?_⟩
  intro x hx
  rcases List.mem_or_eq_of_mem_set hx with h | h
  · exact h5 x h
  · subst h; exact hr

theorem retired_set_self (hp : isc_hp) (t : Nat) (r : retirelist) (ht : t < hp.rl.length) :
    retired { hp with rl := hp.rl.set t r } t = entries r := by
  simp [retired, List.getElem?_set_self ht]

theorem retired_set_other (hp : isc_hp) (t u : Nat) (r : retirelist) (hne : u ≠ t) :
    retired { hp with rl := hp.rl.set t r } u = retired hp u := by
  simp [retired, List.getElem?_set_ne (Ne.symm hne)]

/-- The first two statements of `isc_hp_retire` on a well-shaped domain: the append is in
bounds; the assertion fails when the list already has `MAX_RETIRED - 1` entries, and
otherwise the call is the scan of the list with `ptr` appended. -/
theorem isc_hp_retire_scan (hp : isc_hp) (hwf : WF hp) (t ptr : Nat)
    (ht : t < HP_MAX_THREADS) :
    ∃ rl, hp.rl[t]? = some rl ∧ WFrl rl ∧
      store_word rl.list rl.size ptr = .ok (rl.list.set rl.size.toNat ptr) ∧
      entries { size := rl.size + 1, list := rl.list.set rl.size.toNat ptr } =
        retired hp t ++ [ptr] ∧
      ((MAX_RETIRED : Int) ≤ rl.size + 1 → isc_hp_retire hp t ptr = .fail .assertion) ∧
      (rl.size + 1 < (MAX_RETIRED : Int) →
        WFrl { size := rl.size + 1, list := rl.list.set rl.size.toNat ptr } ∧
        isc_hp_retire hp t ptr =
          (retire_scan hp (rl.size + 1).toNat 0
              { size := rl.size + 1, list := rl.list.set rl.size.toNat ptr } []).bind
            (fun r => .ok ({ hp with rl := hp.rl.set t r.1 }, r.2))) := by
  obtain ⟨rl, hget, hrl⟩ := WF_rl_get hp hwf t ht
  have hrl' := hrl
  obtain ⟨h0, h1, h2⟩ := hrl
  have hst : store_word rl.list rl.size ptr = .ok (rl.list.set rl.size.toNat ptr) := by
    rw [store_word, if_pos]; exact ⟨h0, by omega⟩
  have hret : retired hp t = entries rl := by simp [retired, hget]
  refine ⟨rl, hget, hrl', hst, by rw [hret]; exact entries_append rl ptr hrl', ?_, ?_⟩
  · intro hge
    simp only [isc_hp_retire, hget, hst]
    rw [if_pos (by omega)]
  · intro hlt
    refine ⟨⟨by simp only; omega, by simp only; omega,
      by simp only [List.length_set]; exact h2⟩, ?_⟩
    simp only [isc_hp_retire, hget, hst]
    rw [if_neg (by simp only [not_not]; omega), if_neg (by simp only [HP_THRESHOLD_R]; omega)]
    cases retire_scan hp (rl.size + 1).toNat 0
        { size := rl.size + 1, list := rl.list.set rl.size.toNat ptr } [] with
    | fail e => rfl
    | ok r => rfl

/-- What `isc_hp_retire` does on a well-shaped domain: the assertion fails exactly when the
list already has `MAX_RETIRED - 1` entries; otherwise, when `max_hps` is above `INT_MIN`,
the call returns, only the retire list of the caller changes, and kept entries and
`deletefunc` calls are those of `scanL`; when `max_hps` is `INT_MIN` the scan of the first
entry loads outside row 0. -/
theorem isc_hp_retire_eq (hp : isc_hp) (hwf : WF hp) (t ptr : Nat) (ht : t < HP_MAX_THREADS) :
    ∃ rl, hp.rl[t]? = some rl ∧ WFrl rl ∧
      ((MAX_RETIRED : Int) ≤ rl.size + 1 → isc_hp_retire hp t ptr = .fail .assertion) ∧
      (rl.size + 1 < (MAX_RETIRED : Int) → INT_MIN < hp.max_hps →
        ∃ rl2, isc_hp_retire hp t ptr =
            .ok ({ hp with rl := hp.rl.set t rl2 },
                 (scanL (heldB hp) (retired hp t ++ [ptr])).2) ∧
          entries rl2 = (scanL (heldB hp) (retired hp t ++ [ptr])).1 ∧ WFrl rl2) ∧
      (rl.size + 1 < (MAX_RETIRED : Int) → hp.max_hps ≤ INT_MIN →
        isc_hp_retire hp t ptr = .fail .outOfBounds) := by
  obtain ⟨rl, hget, hrl, -, hent1, hfail, hscan⟩ := isc_hp_retire_scan hp hwf t ptr ht
  refine ⟨rl, hget, hrl, hfail, ?_, ?_⟩
  · intro hlt hmin
    obtain ⟨hrl1, heq⟩ := hscan hlt
    obtain ⟨rl2, hrun, hent, hwf2, -⟩ :=
      retire_scan_refines hp hwf hmin (rl.size + 1).toNat 0
        { size := rl.size + 1, list := rl.list.set rl.size.toNat ptr } [] hrl1
        (by simp only; omega)
    rw [hent1] at hrun hent
    simp only [List.drop_zero, List.take_zero, List.nil_append] at hrun hent
    refine ⟨rl2, ?_, hent, hwf2⟩
    rw [heq, hrun]
    rfl
  · intro hlt hmin
    obtain ⟨hrl1, heq⟩ := hscan hlt
    obtain ⟨h0, -, -⟩ := hrl
    obtain ⟨n, hn⟩ : ∃ n, (rl.size + 1).toNat = n + 1 := ⟨rl.size.toNat, by omega⟩
    have hpos : ((0 : Nat) : Int) < rl.size + 1 := by omega
    have hlen : 0 < (rl.list.set rl.size.toNat ptr).length := by
      rw [hrl1.2.2]; decide
    rw [heq, hn, retire_scan]
    simp only [if_pos hpos, List.getElem?_eq_getElem hlen, can_delete_overflow hp _ hwf hmin]
    rfl

/-- A normal return of `isc_hp_retire` on a well-shaped domain, read backwards: `max_hps` is
above `INT_MIN`, and the call did what `scanL` says. -/
theorem isc_hp_retire_ok (hp : isc_hp) (hwf : WF hp) (t ptr : Nat) (hp1 : isc_hp)
    (log : List Nat) (h : isc_hp_retire hp t ptr = .ok (hp1, log)) :
    t < HP_MAX_THREADS ∧
      log = (scanL (heldB hp) (retired hp t ++ [ptr])).2 ∧
      retired hp1 t = (scanL (heldB hp) (retired hp t ++ [ptr])).1 ∧
      hp1.hp = hp.hp ∧ hp1.max_hps = hp.max_hps ∧ WF hp1 ∧
      (∀ u, u ≠ t → retired hp1 u = retired hp u) ∧
      (∀ u, u ≠ t → hp1.rl[u]? = hp.rl[u]?) := by
  have ht : t < HP_MAX_THREADS := by
    by_contra hge
    have hnone : hp.rl[t]? = none := by
      rw [List.getElem?_eq_none_iff]
      obtain ⟨-, -, -, hlen, -⟩ := hwf
      omega
    simp [isc_hp_retire, hnone] at h
  obtain ⟨rl, hget, hrl, hfail, hok, hover⟩ := isc_hp_retire_eq hp hwf t ptr ht
  by_cases hlt : rl.size + 1 < (MAX_RETIRED : Int)
  · by_cases hmin : INT_MIN < hp.max_hps
    · obtain ⟨rl2, heq, hent, hwf2⟩ := hok hlt hmin
      rw [heq] at h
      injection h with h
      injection h with h1 h2
      subst h1; subst h2
      have hlen : t < hp.rl.length := by
        obtain ⟨-, -, -, hlen, -⟩ := hwf
        omega
      refine ⟨ht, rfl, ?_, rfl, rfl, WF_set_rl hp hwf t rl2 hwf2, ?_, ?_⟩
      · rw [retired_set_self hp t rl2 hlen, hent]
      · intro u hu; exact retired_set_other hp t u rl2 hu
      · intro u hu; simp [List.getElem?_set_ne (Ne.symm hu)]
    · rw [hover hlt (by omega)] at h
      exact Res.noConfusion h
  · rw [hfail (by omega)] at h
    exact Res.noConfusion h

/-! ## Shape of the domain is preserved -/

theorem store_slot_ok (hp : isc_hp) (t : Nat) (ihp : Int) (v : Nat) (hp1 : isc_hp)
    (h : store_slot hp t ihp v = .ok hp1) :
    ∃ row, hp.hp[t]? = some row ∧ 0 ≤ ihp ∧ ihp < row.length ∧
      hp1 = { hp with hp := hp.hp.set t (row.set ihp.toNat v) } := by
  unfold store_slot at h
  cases hrow : hp.hp[t]? with
  | none => simp [hrow] at h
  | some row =>
    simp only [hrow, store_word] at h
    by_cases hc : 0 ≤ ihp ∧ ihp < row.length
    · rw [if_pos hc] at h
      simp only [Res.bind_ok] at h
      injection h with h
      exact ⟨row, rfl, hc.1, hc.2, h.symm⟩
    · rw [if_neg hc] at h
      exact Res.noConfusion h

theorem store_slot_WF (hp : isc_hp) (hwf : WF hp) (t : Nat) (ihp : Int) (v : Nat)
    (hp1 : isc_hp) (h : store_slot hp t ihp v = .ok hp1) :
    WF hp1 ∧ hp1.rl = hp.rl ∧ hp1.max_hps = hp.max_hps := by
  obtain ⟨row, hrow, h0, h1, rfl⟩ := store_slot_ok hp t ihp v hp1 h
  obtain ⟨w1, w2, w3, w4, w5⟩ := hwf
  refine ⟨⟨w1, by simpa using w2, ?_, w4, w5⟩, rfl, rfl⟩
  intro x hx
  rcases List.mem_or_eq_of_mem_set hx with hm | hm
  · exact w3 x hm
  · subst hm
    rw [List.length_set]
    exact w3 row (List.getElem?_mem hrow)

theorem clear_loop_WF (hp : isc_hp) (hwf : WF hp) (t : Nat) :
    ∀ (n : Nat) (hp1 : isc_hp), clear_loop hp t n = .ok hp1 →
      WF hp1 ∧ hp1.rl = hp.rl ∧ hp1.max_hps = hp.max_hps
  | 0, hp1, h => by
    simp only [clear_loop] at h
    injection h with h
    subst h
    exact ⟨hwf, rfl, rfl⟩
  | n + 1, hp1, h => by
    simp only [clear_loop] at h
    obtain ⟨hp2, h2, h3⟩ := Res.bind_eq_ok.mp h
    obtain ⟨a1, a2, a3⟩ := clear_loop_WF hp hwf t n hp2 h2
    obtain ⟨b1, b2, b3⟩ := store_slot_WF hp2 a1 t n 0 hp1 h3
    exact ⟨b1, b2.trans a2, b3.trans a3⟩

theorem protect_loop_WF (t : Nat) (ihp : Int) :
    ∀ (loads : List Nat) (n : Nat) (hp : isc_hp) (tr : List Ev) (r : Nat) (hp1 : isc_hp)
      (tr1 : List Ev), WF hp → protect_loop t ihp loads n hp tr = .ok (r, hp1, tr1) →
      WF hp1 ∧ hp1.rl = hp.rl ∧ hp1.max_hps = hp.max_hps
  | [], n, hp, tr, r, hp1, tr1, _, h => by
    simp [protect_loop] at h
  | ret :: rest, n, hp, tr, r, hp1, tr1, hwf, h => by
    rw [protect_loop] at h
    by_cases hc : ret ≠ n
    · rw [if_pos hc] at h
      cases hs : store_slot hp t ihp ret with
      | fail e => simp [hs] at h
      | ok hp2 =>
        simp only [hs] at h
        obtain ⟨a1, a2, a3⟩ := store_slot_WF hp hwf t ihp ret hp2 hs
        obtain ⟨b1, b2, b3⟩ := protect_loop_WF t ihp rest ret hp2 _ r hp1 tr1 a1 h
        exact ⟨b1, b2.trans a2, b3.trans a3⟩
    · rw [if_neg hc] at h
      injection h with h
      injection h with h1 h2
      injection h2 with h2 h3
      subst h2
      exact ⟨hwf, rfl, rfl⟩

theorem step_WF (hp : isc_hp) (hwf : WF hp) (op : Op) (hp1 : isc_hp) (log : List Nat)
    (h : step hp op = .ok (hp1, log)) : WF hp1 ∧ hp1.max_hps = hp.max_hps := by
  cases op with
  | protect t ihp loads =>
    simp only [step] at h
    obtain ⟨r, h1, h2⟩ := Res.bind_eq_ok.mp h
    injection h2 with h2
    injection h2 with h2 h3
    obtain ⟨v, hp2, tr⟩ := r
    simp only at h2
    subst h2
    obtain ⟨a1, -, a3⟩ := protect_loop_WF t ihp loads 0 hp [] v _ tr hwf h1
    exact ⟨a1, a3⟩
  | protect_ptr t ihp ptr =>
    simp only [step, isc_hp_protect_ptr] at h
    obtain ⟨r, h1, h2⟩ := Res.bind_eq_ok.mp h
    obtain ⟨hp2, h3, h4⟩ := Res.bind_eq_ok.mp h1
    injection h4 with h4
    subst h4
    injection h2 with h2
    injection h2 with h2 h5
    simp only at h2
    subst h2
    obtain ⟨a1, -, a3⟩ := store_slot_WF hp hwf t ihp ptr _ h3
    exact ⟨a1, a3⟩
  | protect_release t ihp ptr =>
    simp only [step, isc_hp_protect_release] at h
    obtain ⟨r, h1, h2⟩ := Res.bind_eq_ok.mp h
    obtain ⟨hp2, h3, h4⟩ := Res.bind_eq_ok.mp h1
    injection h4 with h4
    subst h4
    injection h2 with h2
    injection h2 with h2 h5
    simp only at h2
    subst h2
    obtain ⟨a1, -, a3⟩ := store_slot_WF hp hwf t ihp ptr _ h3
    exact ⟨a1, a3⟩
  | clear_one t ihp =>
    simp only [step, isc_hp_clear_one] at h
    obtain ⟨hp2, h1, h2⟩ := Res.bind_eq_ok.mp h
    injection h2 with h2
    injection h2 with h2 h5
    subst h2
    obtain ⟨a1, -, a3⟩ := store_slot_WF hp hwf t ihp 0 _ h1
    exact ⟨a1, a3⟩
  | clear t =>
    simp only [step, isc_hp_clear] at h
    obtain ⟨hp2, h1, h2⟩ := Res.bind_eq_ok.mp h
    injection h2 with h2
    injection h2 with h2 h5
    subst h2
    obtain ⟨a1, -, a3⟩ := clear_loop_WF hp hwf t _ _ h1
    exact ⟨a1, a3⟩
  | retire t ptr =>
    simp only [step] at h
    obtain ⟨-, -, -, -, a5, a6, -⟩ := isc_hp_retire_ok hp hwf t ptr hp1 log h
    exact ⟨a6, a5⟩

theorem run_WF : ∀ (ops : List Op) (hp : isc_hp) (hp1 : isc_hp) (log : List Nat),
    WF hp → run hp ops = .ok (hp1, log) → WF hp1 ∧ hp1.max_hps = hp.max_hps
  | [], hp, hp1, log, hwf, h => by
    simp only [run] at h
    injection h with h
    injection h with h1 h2
    subst h1
    exact ⟨hwf, rfl⟩
  | op :: rest, hp, hp1, log, hwf, h => by
    simp only [run] at h
    obtain ⟨r, h1, h2⟩ := Res.bind_eq_ok.mp h
    obtain ⟨r2, h3, h4⟩ := Res.bind_eq_ok.mp h2
    injection h4 with h4
    injection h4 with h4 h5
    obtain ⟨a1, a2⟩ := step_WF hp hwf op r.1 r.2 h1
    obtain ⟨b1, b2⟩ := run_WF rest r.1 r2.1 r2.2 a1 h3
    subst h4
    exact ⟨b1, b2.trans a2⟩

/-! ## The freshly created domain -/

theorem zero_words_ok (row : List Nat) :
    ∀ (n : Nat) (r : List Nat), zero_words row n = .ok r →
      r.length = row.length ∧ n ≤ row.length ∧
      (∀ j, j < n → r[j]? = some 0) ∧ (∀ j, n ≤ j → r[j]? = row[j]?)
  | 0, r, h => by
    simp only [zero_words] at h
    injection h with h
    subst h
    exact ⟨rfl, Nat.zero_le _, fun j hj => absurd hj (Nat.not_lt_zero j), fun _ _ => rfl⟩
  | n + 1, r, h => by
    simp only [zero_words] at h
    obtain ⟨r1, h1, h2⟩ := Res.bind_eq_ok.mp h
    obtain ⟨a1, a2, a3, a4⟩ := zero_words_ok row n r1 h1
    unfold store_word at h2
    by_cases hc : 0 ≤ (n : Int) ∧ (n : Int) < r1.length
    · rw [if_pos hc] at h2
      injection h2 with h2
      subst h2
      have hn : n < r1.length := by omega
      refine ⟨by simp [a1], by omega, ?_, ?_⟩
      · intro j hj
        by_cases hjn : j = n
        · subst hjn; simp [List.getElem?_set_self hn]
        · simp only [Int.toNat_ofNat]
          rw [List.getElem?_set_ne (Ne.symm hjn)]
          exact a3 j (by omega)
      · intro j hj
        simp only [Int.toNat_ofNat]
        rw [List.getElem?_set_ne (by omega)]
        exact a4 j (by omega)
    · rw [if_neg hc] at h2
      exact Res.noConfusion h2

theorem new_rows_ok (k : Int) (junk : Nat → Nat → Nat) :
    ∀ (n i : Nat) (acc : List (List Nat) × List retirelist), new_rows k junk i n = .ok acc →
      acc.1.length = n ∧ acc.2.length = n ∧
      (∀ row ∈ acc.1, row.length = ROW_WORDS ∧ k.toNat ≤ ROW_WORDS ∧
        ∀ j, j < k.toNat → row[j]? = some 0) ∧
      (∀ r ∈ acc.2, r = { size := 0, list := List.replicate MAX_RETIRED 0 })
  | 0, i, acc, h => by
    simp only [new_rows] at h
    injection h with h
    subst h
    simp
  | n + 1, i, acc, h => by
    simp only [new_rows] at h
    obtain ⟨row, h3, h2⟩ := Res.bind_eq_ok.mp h
    obtain ⟨acc1, h1, h4⟩ := Res.bind_eq_ok.mp h2
    injection h4 with h4
    subst h4
    obtain ⟨a1, a2, a3, a4⟩ := new_rows_ok k junk n (i + 1) acc1 h1
    obtain ⟨b1, b2, b3, -⟩ := zero_words_ok _ _ row h3
    have hlen : (isc_mem_get ROW_WORDS (junk i)).length = ROW_WORDS := by
      simp [isc_mem_get]
    refine ⟨by simp [a1], by simp [a2], ?_, ?_⟩
    · intro x hx
      rcases List.mem_cons.mp hx with hx | hx
      · subst hx
        exact ⟨b1.trans hlen, hlen ▸ b2, b3⟩
      · exact a3 x hx
    · intro x hx
      rcases List.mem_cons.mp hx with hx | hx
      · exact hx
      · exact a4 x hx

/-- The domain that `isc_hp_new` returns is well-shaped, every slot is zero and every
retire list is empty. -/
theorem isc_hp_new_ok (m : Nat) (junk : Nat → Nat → Nat) (hp : isc_hp)
    (h : isc_hp_new m junk = .ok hp) :
    WF hp ∧
      (∀ u j : Nat, u < HP_MAX_THREADS → (j : Int) < hp.max_hps → slot hp u j = some 0) ∧
      (∀ u, retired hp u = []) := by
  simp only [isc_hp_new] at h
  obtain ⟨acc, h1, h2⟩ := Res.bind_eq_ok.mp h
  injection h2 with h2
  subst h2
  obtain ⟨a1, a2, a3, a4⟩ := new_rows_ok _ junk _ 0 acc h1
  have hlen0 : 0 < acc.1.length := by rw [a1]; decide
  have hrow0 : acc.1[0]? = some acc.1[0] := List.getElem?_eq_getElem hlen0
  refine ⟨⟨?_, a1, fun row hrow => (a3 row hrow).1, a2, ?_⟩, ?_, ?_⟩
  · have := (a3 _ (List.getElem?_mem hrow0)).2.1
    simp only
    omega
  · intro r hr
    rw [a4 r hr]
    exact ⟨le_refl _, by decide, by simp⟩
  · intro u j hu hj
    have hlt : u < acc.1.length := by rw [a1]; exact hu
    simp only [slot, List.getElem?_eq_getElem hlt, Option.some_bind]
    exact (a3 _ (List.getElem_mem hlt)).2.2 j (by simp only at hj; omega)
  · intro u
    simp only [retired]
    cases hr : acc.2[u]? with
    | none => rfl
    | some r =>
      simp only
      rw [a4 r (List.getElem?_mem hr)]
      simp [entries]

/-! ## Facts on the sample states -/

theorem demo_fresh_new : isc_hp_new 1 (fun _ _ => 0) = .ok demo_fresh := by decide!

theorem demo_fresh_WF : WF demo_fresh := by decide!

theorem demo_protected_WF : WF demo_protected := by decide!

theorem demo_kept_WF : WF demo_kept := by decide!

theorem demo_pending_WF : WF demo_pending := by decide!

theorem demo_full4_WF : WF demo_full4 := by decide!

theorem demo_full1_WF : WF demo_full1 := by decide!

theorem demo_min_new : isc_hp_new 2147483648 (fun _ _ => 0) = .ok demo_min := by decide!

theorem demo_min_WF : WF demo_min := by decide!

theorem demo_min_retire : isc_hp_retire demo_min 0 7 = .fail .outOfBounds := by decide!

theorem demo_min_zero (u j : Nat) (hu : u < HP_MAX_THREADS) (hj : j < ROW_WORDS) :
    slot demo_min u j = some 0 := by
  have hu1 : u < 128 := hu
  have hj1 : j < 32 := hj
  have h1 : demo_min.hp = List.replicate 128 (List.replicate 32 0) := rfl
  rw [slot, h1, List.getElem?_replicate, if_pos hu1, Option.some_bind,
    List.getElem?_replicate, if_pos hj1]

theorem demo_run_pending :
    run demo_fresh [.protect 0 0 [5, 5], .retire 1 5, .clear_one 0 0] =
      .ok (demo_pending, []) := by decide!

theorem demo_retire_after : isc_hp_retire demo_pending 1 6 = .ok (demo_after, [5]) := by
  decide!

/-! ## Claims on `isc_hp_retire` -/

/-- C1 (safety at operation granularity): in every run of calls from a freshly created
domain, whenever `isc_hp_retire` passes an identity `obj` to `deletefunc`, no slot `(u, j)`
with `u` in `[0, 128)` and `j` in `[0, K)` holds `obj`, neither before nor after the call
(the call changes no slot). -/
theorem C1_retire_safety (m : Nat) (junk : Nat → Nat → Nat) (hp0 : isc_hp) (pre : List Op)
    (s : isc_hp) (log0 : List Nat) (t ptr : Nat) (s1 : isc_hp) (log : List Nat)
    (hnew : isc_hp_new m junk = .ok hp0)
    (hrun : run hp0 pre = .ok (s, log0))
    (hret : isc_hp_retire s t ptr = .ok (s1, log)) :
    ∀ obj ∈ log, ∀ u j : Nat, u < HP_MAX_THREADS → (j : Int) < hp0.max_hps →
      slot s u j ≠ some obj ∧ slot s1 u j ≠ some obj := by
  intro obj hobj u j hu hj
  have hwf0 := (isc_hp_new_ok m junk hp0 hnew).1
  obtain ⟨hwf, hk⟩ := run_WF pre hp0 s log0 hwf0 hrun
  obtain ⟨-, hlog, -, hhp, -, -, -, -⟩ := isc_hp_retire_ok s hwf t ptr s1 log hret
  rw [hlog] at hobj
  have hfree := (scanL_reclaimed (heldB s) _ _ (le_refl _) obj hobj).2
  have hno := (heldB_false_iff s obj).mp hfree u j hu (by rw [hk]; exact hj)
  refine ⟨hno, ?_⟩
  simpa only [slot, hhp] using hno

theorem C1_retire_safety_witness :
    slot demo_pending 0 0 ≠ some 5 ∧ slot demo_after 0 0 ≠ some 5 :=
  C1_retire_safety 1 (fun _ _ => 0) demo_fresh
    [.protect 0 0 [5, 5], .retire 1 5, .clear_one 0 0] demo_pending [] 1 6 demo_after [5]
    demo_fresh_new demo_run_pending demo_retire_after 5 (by simp) 0 0 (by decide) (by decide)

/-- C2 (scan completeness), evaluated: from a fresh one-slot domain thread 0 protects 5,
thread 1 retires 5, thread 0 clears; the list of thread 1 is `[5]` and no slot holds 5 or 6.
Then `retire(6)` by thread 1 passes only 5 to `deletefunc` and leaves 6, which no slot
holds, in the list: after the removal at index 0 the loop index advances to 1, the new
size, and the entry that moved to index 0 is never examined. -/
theorem C2_scan_skips_entry :
    isc_hp_new 1 (fun _ _ => 0) = .ok demo_fresh ∧
      run demo_fresh [.protect 0 0 [5, 5], .retire 1 5, .clear_one 0 0] = .ok (demo_pending, []) ∧
      retired demo_pending 1 = [5] ∧
      ¬ Held demo_pending 5 ∧ ¬ Held demo_pending 6 ∧
      isc_hp_retire demo_pending 1 6 = .ok (demo_after, [5]) ∧
      retired demo_after 1 = [6] ∧ ¬ Held demo_after 6 :=
  ⟨demo_fresh_new, demo_run_pending, by decide!, by decide!, by decide!, demo_retire_after,
    by decide!, by decide!⟩

/-- C5 (a protected object is not reclaimed by retire): if some slot `(u, j)`, `u` in
`[0, 128)`, `j` in `[0, K)`, holds `P`, then a call `retire(P)` by a thread `t` that
returns normally does not pass `P` to `deletefunc`, and `P` is an entry of the retire list
of `t` afterwards. -/
theorem C5_protected_not_reclaimed (hp : isc_hp) (t P : Nat) (hp1 : isc_hp) (log : List Nat)
    (hwf : WF hp)
    (hheld : ∃ u j : Nat, u < HP_MAX_THREADS ∧ (j : Int) < hp.max_hps ∧ slot hp u j = some P)
    (hret : isc_hp_retire hp t P = .ok (hp1, log)) :
    P ∉ log ∧ P ∈ retired hp1 t := by
  have hb : heldB hp P = true := (heldB_iff hp P).mpr hheld
  obtain ⟨-, hlog, hkept, -, -, -, -, -⟩ := isc_hp_retire_ok hp hwf t P hp1 log hret
  constructor
  · intro hmem
    rw [hlog] at hmem
    have := (scanL_reclaimed (heldB hp) _ _ (le_refl _) P hmem).2
    rw [hb] at this
    exact Bool.noConfusion this
  · rw [hkept]
    exact scanL_keeps_held (heldB hp) P hb _ _ (le_refl _) (by simp)

theorem C5_protected_not_reclaimed_witness :
    5 ∉ ([] : List Nat) ∧ 5 ∈ retired demo_kept 1 :=
  C5_protected_not_reclaimed demo_protected 1 5 demo_kept [] demo_protected_WF
    ⟨0, 0, by decide, by decide, by decide!⟩ (by decide!)

/-- On a well-shaped domain whose `max_hps` is above `INT_MIN`, `isc_hp_retire` returns
normally when the list of the caller has fewer than `MAX_RETIRED - 1` entries. -/
theorem isc_hp_retire_total (hp : isc_hp) (hwf : WF hp) (hmin : INT_MIN < hp.max_hps)
    (t ptr : Nat) (ht : t < HP_MAX_THREADS)
    (hroom : (retired hp t).length + 1 < MAX_RETIRED) :
    ∃ hp1, isc_hp_retire hp t ptr =
      .ok (hp1, (scanL (heldB hp) (retired hp t ++ [ptr])).2) := by
  obtain ⟨rl, hget, hrl, -, hok, -⟩ := isc_hp_retire_eq hp hwf t ptr ht
  have hlen : (retired hp t).length = rl.size.toNat := by
    simp only [retired, hget]
    exact entries_length rl hrl
  obtain ⟨h0, -, -⟩ := hrl
  obtain ⟨rl2, heq, -, -⟩ := hok (by omega) hmin
  exact ⟨_, heq⟩

/-- On a well-shaped domain whose `max_hps` is `INT_MIN`, a call of `isc_hp_retire` that
passes its assertion loads outside row 0. -/
theorem isc_hp_retire_overflow (hp : isc_hp) (hwf : WF hp) (hmin : hp.max_hps ≤ INT_MIN)
    (t ptr : Nat) (ht : t < HP_MAX_THREADS)
    (hroom : (retired hp t).length + 1 < MAX_RETIRED) :
    isc_hp_retire hp t ptr = .fail .outOfBounds := by
  obtain ⟨rl, hget, hrl, -, -, hover⟩ := isc_hp_retire_eq hp hwf t ptr ht
  have hlen : (retired hp t).length = rl.size.toNat := by
    simp only [retired, hget]
    exact entries_length rl hrl
  obtain ⟨h0, -, -⟩ := hrl
  exact hover (by omega) hmin

theorem not_heldB_of_zero (hp : isc_hp) (R : Nat) (hR : R ≠ 0)
    (hzero : ∀ u j : Nat, u < HP_MAX_THREADS → (j : Int) < hp.max_hps → slot hp u j = some 0) :
    heldB hp R = false := by
  rw [heldB_false_iff]
  intro u j hu hj h
  rw [hzero u j hu hj] at h
  injection h with h
  exact hR h.symm

theorem retire_unprotected (hp : isc_hp) (t R : Nat) (hwf : WF hp)
    (hmin : INT_MIN < hp.max_hps) (ht : t < HP_MAX_THREADS) (hR : R ≠ 0)
    (hzero : ∀ u j : Nat, u < HP_MAX_THREADS → (j : Int) < hp.max_hps → slot hp u j = some 0)
    (hempty : retired hp t = []) :
    ∃ hp1, isc_hp_retire hp t R = .ok (hp1, [R]) ∧ retired hp1 t = [] ∧
      (∀ u, u ≠ t → retired hp1 u = retired hp u) ∧ WF hp1 ∧
      hp1.hp = hp.hp ∧ hp1.max_hps = hp.max_hps := by
  have hfree := not_heldB_of_zero hp R hR hzero
  obtain ⟨hp1, heq⟩ := isc_hp_retire_total hp hwf hmin t R ht (by rw [hempty]; decide)
  obtain ⟨-, -, hkept, a1, a2, a3, a4, -⟩ := isc_hp_retire_ok hp hwf t R hp1 _ heq
  have hs : scanL (heldB hp) (retired hp t ++ [R]) = ([], [R]) := by
    rw [hempty]; simp [scanL, hfree]
  rw [hs] at heq hkept
  exact ⟨hp1, heq, hkept, a4, a3, a1, a2⟩

/-! ## `isc_hp_destroy` -/

theorem drain_eq (rl : retirelist) :
    ∀ n, n ≤ rl.list.length → drain rl n = .ok (rl.list.take n)
  | 0, _ => by simp [drain]
  | n + 1, h => by
    have hn : n < rl.list.length := h
    rw [drain, drain_eq rl n (by omega), Res.bind_ok, List.getElem?_eq_getElem hn,
      List.take_succ, List.getElem?_eq_getElem hn]
    rfl

theorem destroy_loop_eq (hp : isc_hp) (hrl : ∀ r ∈ hp.rl, WFrl r) :
    ∀ n, n ≤ hp.rl.length →
      destroy_loop hp n = .ok ((List.range n).map (retired hp)).flatten
  | 0, _ => by simp [destroy_loop]
  | n + 1, h => by
    have hn : n < hp.rl.length := h
    have hw := hrl _ (List.getElem_mem hn)
    have hsz : (hp.rl[n]).size.toNat ≤ (hp.rl[n]).list.length := by
      obtain ⟨h0, h1, h2⟩ := hw
      omega
    rw [destroy_loop, destroy_loop_eq hp hrl n (by omega), Res.bind_ok,
      List.getElem?_eq_getElem hn]
    simp only [drain_eq _ _ hsz, Res.bind_ok, List.range_succ, List.map_append,
      List.flatten_append, List.map_cons, List.map_nil, retired, List.getElem?_eq_getElem hn,
      entries]
    simp

/-- C3 (teardown completeness): `isc_hp_destroy` passes to `deletefunc` exactly the entries
of the 128 retire lists, each once, in thread-handle order and within a list in list
order, and nothing else; the calls do not depend on the hazard slots, so entries held by a
slot are reclaimed too. -/
theorem C3_destroy_reclaims_all (hp : isc_hp) (hwf : WF hp) :
    isc_hp_destroy hp =
        .ok ((List.range HP_MAX_THREADS).map (fun u => retired hp u)).flatten ∧
      (∀ slots : List (List Nat),
        isc_hp_destroy { hp with hp := slots } = isc_hp_destroy hp) ∧
      (∀ u x, u < HP_MAX_THREADS → x ∈ retired hp u → Held hp x →
        ∃ log, isc_hp_destroy hp = .ok log ∧ x ∈ log) := by
  obtain ⟨-, -, -, hlen, hrl⟩ := hwf
  have h1 : isc_hp_destroy hp =
      .ok ((List.range HP_MAX_THREADS).map (fun u => retired hp u)).flatten :=
    destroy_loop_eq hp hrl HP_MAX_THREADS (by omega)
  refine ⟨h1, ?_, ?_⟩
  · intro slots
    rw [h1]
    exact destroy_loop_eq { hp with hp := slots } hrl HP_MAX_THREADS (by simp only; omega)
  · intro u x hu hx _
    refine ⟨_, h1, ?_⟩
    simp only [List.mem_flatten, List.mem_map, List.mem_range]
    exact ⟨retired hp u, ⟨u, hu, rfl⟩, hx⟩

theorem C3_destroy_reclaims_all_witness :
    isc_hp_destroy demo_kept =
        .ok ((List.range HP_MAX_THREADS).map (fun u => retired demo_kept u)).flatten ∧
      (∀ slots : List (List Nat),
        isc_hp_destroy { demo_kept with hp := slots } = isc_hp_destroy demo_kept) ∧
      (∀ u x, u < HP_MAX_THREADS → x ∈ retired demo_kept u → Held demo_kept x →
        ∃ log, isc_hp_destroy demo_kept = .ok log ∧ x ∈ log) :=
  C3_destroy_reclaims_all demo_kept demo_kept_WF

/-! ## Stores into slots -/

theorem store_slot_slot (hp : isc_hp) (t : Nat) (ihp : Int) (v : Nat) (hp1 : isc_hp)
    (h : store_slot hp t ihp v = .ok hp1) :
    slot hp1 t ihp.toNat = some v ∧
      ∀ u j : Nat, (u ≠ t ∨ j ≠ ihp.toNat) → slot hp1 u j = slot hp u j := by
  obtain ⟨row, hrow, h0, h1, rfl⟩ := store_slot_ok hp t ihp v hp1 h
  have ht : t < hp.hp.length := by
    by_contra hc
    rw [List.getElem?_eq_none_iff.mpr (by omega)] at hrow
    exact Option.noConfusion hrow
  have hi : ihp.toNat < row.length := by omega
  constructor
  · simp [slot, List.getElem?_set_self ht, List.getElem?_set_self hi]
  · intro u j huj
    by_cases hu : u = t
    · subst hu
      have hj : j ≠ ihp.toNat := by
        rcases huj with h | h
        · exact absurd rfl h
        · exact h
      simp [slot, List.getElem?_set_self ht, hrow, List.getElem?_set_ne (Ne.symm hj)]
    · simp [slot, List.getElem?_set_ne (Ne.symm hu)]

/-- The loop of `isc_hp_protect`: when it returns `r`, either it left at once (the load
equalled `n`, nothing stored, one load event), or the trace ends with the store of `r`
followed by a load of `r`, and the slot holds `r`. -/
theorem protect_loop_ok (t : Nat) (ihp : Int) :
    ∀ (loads : List Nat) (n : Nat) (hp : isc_hp) (tr : List Ev) (r : Nat) (hp1 : isc_hp)
      (tr1 : List Ev), protect_loop t ihp loads n hp tr = .ok (r, hp1, tr1) →
      (r = n ∧ hp1 = hp ∧ tr1 = tr ++ [Ev.load r] ∧ loads.head? = some n) ∨
      ((∃ pre, tr1 = pre ++ [Ev.store r, Ev.load r]) ∧ slot hp1 t ihp.toNat = some r ∧
        loads.head? ≠ some n)
  | [], n, hp, tr, r, hp1, tr1, h => by
    simp [protect_loop] at h
  | ret :: rest, n, hp, tr, r, hp1, tr1, h => by
    rw [protect_loop] at h
    by_cases hc : ret ≠ n
    · rw [if_pos hc] at h
      right
      have hhead : (ret :: rest).head? ≠ some n := by
        simp only [List.head?_cons, ne_eq, Option.some.injEq]
        exact hc
      cases hs : store_slot hp t ihp ret with
      | fail e => simp [hs] at h
      | ok hp2 =>
        simp only [hs] at h
        have hslot := (store_slot_slot hp t ihp ret hp2 hs).1
        rcases protect_loop_ok t ihp rest ret hp2 _ r hp1 tr1 h with
          ⟨h1, h2, h3, -⟩ | ⟨h1, h2, -⟩
        · subst h1; subst h2
          refine ⟨⟨tr ++ [Ev.load r], ?_⟩, hslot, hhead⟩
          rw [h3]; simp
        · exact ⟨h1, h2, hhead⟩
    · rw [if_neg hc] at h
      have hn : ret = n := not_not.mp hc
      injection h with h
      injection h with h1 h2
      injection h2 with h2 h3
      left
      subst h1; subst h2; subst hn
      exact ⟨rfl, rfl, h3.symm, rfl⟩

/-- C4 as stated fails: thread 0 holds 7 in slot 0 and calls `isc_hp_protect` on a source
whose first load reads 0.  The call returns 0 after that single load, without any store:
the trace does not end with a store of 0 followed by a second load, and on return the slot
still holds 7, not the returned 0. -/
theorem C4_counterexample :
    isc_hp_new 1 (fun _ _ => 0) = .ok demo_fresh ∧
      run demo_fresh [.protect_ptr 0 0 7] = .ok (demo_seven, []) ∧
      isc_hp_protect demo_seven 0 0 [0] = .ok (0, demo_seven, [Ev.load 0]) ∧
      (¬ ∃ pre, [Ev.load 0] = pre ++ [Ev.store 0, Ev.load 0]) ∧
      slot demo_seven 0 0 = some 7 ∧ slot demo_seven 0 0 ≠ some 0 := by
  refine ⟨demo_fresh_new, by decide!, by decide!, ?_, by decide!, by decide!⟩
  rintro ⟨pre, h⟩
  have := congrArg List.length h
  simp at this

/-- C4 (stability of protect), amended: on every sequence of loads on which
`isc_hp_protect(hp, ihp, atom)` returns a value `r`: if the first load read a nonzero
value, then `r` was stored into slot `ihp` of the caller before the final load, the final
load read `r` again, and on return that slot holds `r`; if the first load read 0, the call
returns 0 at once, with that single load, no store and the domain unchanged. -/
theorem C4_protect_stable (hp : isc_hp) (t : Nat) (ihp : Int) (loads : List Nat) (r : Nat)
    (hp1 : isc_hp) (tr : List Ev)
    (h : isc_hp_protect hp t ihp loads = .ok (r, hp1, tr)) :
    (loads.head? ≠ some 0 →
      (∃ pre, tr = pre ++ [Ev.store r, Ev.load r]) ∧ slot hp1 t ihp.toNat = some r) ∧
    (loads.head? = some 0 → r = 0 ∧ hp1 = hp ∧ tr = [Ev.load 0]) := by
  rcases protect_loop_ok t ihp loads 0 hp [] r hp1 tr h with
    ⟨h1, h2, h3, h4⟩ | ⟨h1, h2, h3⟩
  · refine ⟨fun hne => absurd h4 hne, fun _ => ⟨h1, h2, ?_⟩⟩
    rw [h3, h1]; rfl
  · exact ⟨fun _ => ⟨h1, h2⟩, fun he => absurd he h3⟩

theorem C4_protect_stable_witness :
    ([5, 7, 7].head? ≠ some 0 →
      (∃ pre, [Ev.load 5, Ev.store 5, Ev.load 7, Ev.store 7, Ev.load 7] =
        pre ++ [Ev.store 7, Ev.load 7]) ∧ slot demo_seven 0 (0 : Int).toNat = some 7) ∧
    ([5, 7, 7].head? = some 0 → 7 = 0 ∧ demo_seven = demo_fresh ∧
      [Ev.load 5, Ev.store 5, Ev.load 7, Ev.store 7, Ev.load 7] = [Ev.load 0]) :=
  C4_protect_stable demo_fresh 0 0 [5, 7, 7] 7 demo_seven
    [Ev.load 5, Ev.store 5, Ev.load 7, Ev.store 7, Ev.load 7] (by decide!)

/-! ## Slot indices outside `[0, K)` -/

theorem store_slot_total (hp : isc_hp) (hwf : WF hp) (t : Nat) (ihp : Int) (v : Nat)
    (ht : t < HP_MAX_THREADS) (h0 : 0 ≤ ihp) (hhi : ihp < ROW_WORDS) :
    ∃ hp1, store_slot hp t ihp v = .ok hp1 := by
  obtain ⟨-, hlen, hrow, -, -⟩ := hwf
  have hlt : t < hp.hp.length := by omega
  have hr : (hp.hp[t]).length = ROW_WORDS := hrow _ (List.getElem_mem hlt)
  refine ⟨{ hp with hp := hp.hp.set t ((hp.hp[t]).set ihp.toNat v) }, ?_⟩
  rw [store_slot, List.getElem?_eq_getElem hlt]
  simp only [store_word]
  rw [if_pos ⟨h0, by rw [hr]; exact hhi⟩]
  rfl

/-- A store into a word at or beyond index `K` of a row changes no slot. -/
theorem store_slot_pad (hp : isc_hp) (t : Nat) (ihp : Int) (v : Nat) (hp1 : isc_hp)
    (hlo : hp.max_hps ≤ ihp) (h : store_slot hp t ihp v = .ok hp1) :
    hp1.max_hps = hp.max_hps ∧
      ∀ u j : Nat, u < HP_MAX_THREADS → (j : Int) < hp.max_hps → slot hp1 u j = slot hp u j := by
  obtain ⟨row, -, h0, -, heq⟩ := store_slot_ok hp t ihp v hp1 h
  refine ⟨by rw [heq], ?_⟩
  intro u j _ hj
  exact (store_slot_slot hp t ihp v hp1 h).2 u j (Or.inr (by omega))

theorem protect_loop_pad (t : Nat) (ihp : Int) (ht : t < HP_MAX_THREADS) (h0 : 0 ≤ ihp)
    (hhi : ihp < ROW_WORDS) :
    ∀ (loads : List Nat) (n : Nat) (hp : isc_hp) (tr : List Ev), WF hp → hp.max_hps ≤ ihp →
      protect_loop t ihp loads n hp tr = .fail .pending ∨
      ∃ r hp1 tr1, protect_loop t ihp loads n hp tr = .ok (r, hp1, tr1) ∧
        ∀ u j : Nat, u < HP_MAX_THREADS → (j : Int) < hp.max_hps → slot hp1 u j = slot hp u j
  | [], n, hp, tr, _, _ => Or.inl rfl
  | ret :: rest, n, hp, tr, hwf, hlo => by
    rw [protect_loop]
    by_cases hc : ret ≠ n
    · rw [if_pos hc]
      obtain ⟨hp2, hs⟩ := store_slot_total hp hwf t ihp ret ht h0 hhi
      obtain ⟨a1, a2⟩ := store_slot_pad hp t ihp ret hp2 hlo hs
      have hwf2 := (store_slot_WF hp hwf t ihp ret hp2 hs).1
      simp only [hs]
      rcases protect_loop_pad t ihp ht h0 hhi rest ret hp2
          (tr ++ [Ev.load ret, Ev.store ret]) hwf2 (by rw [a1]; exact hlo) with h | h
      · exact Or.inl h
      · obtain ⟨r, hp1, tr1, h1, h2⟩ := h
        refine Or.inr ⟨r, hp1, tr1, h1, ?_⟩
        intro u j hu hj
        rw [h2 u j hu (by rw [a1]; exact hj), a2 u j hu hj]
    · rw [if_neg hc]
      exact Or.inr ⟨ret, hp, _, rfl, fun _ _ _ _ => rfl⟩

/-- C9 as stated fails: in a fresh domain with `K = 1`, slot index 1 is outside `[0, K)`,
yet `isc_hp_clear_one`, `isc_hp_protect_ptr`, `isc_hp_protect_release` and `isc_hp_protect`
called with it return normally (there is no check of `ihp`); the store goes to word 1 of
the row of the caller. -/
theorem C9_counterexample :
    isc_hp_new 1 (fun _ _ => 0) = .ok demo_fresh ∧ demo_fresh.max_hps = 1 ∧
      isc_hp_clear_one demo_fresh 0 1 = .ok demo_fresh ∧
      isc_hp_protect_ptr demo_fresh 0 1 7 = .ok (7, demo_pad) ∧
      isc_hp_protect_release demo_fresh 0 1 7 = .ok (7, demo_pad) ∧
      isc_hp_protect demo_fresh 0 1 [7, 7] =
        .ok (7, demo_pad, [Ev.load 7, Ev.store 7, Ev.load 7]) :=
  ⟨demo_fresh_new, by decide, by decide!, by decide!, by decide!, by decide!⟩

/-- C9 (invalid slot index), amended: the four functions do not check `ihp`.  For a slot
index with `K <= ihp < 32` (a word of the row of the caller beyond its `K` slots)
`isc_hp_clear_one`, `isc_hp_protect_ptr` and `isc_hp_protect_release` return normally, and
`isc_hp_protect` returns normally unless the loads supplied never become stable; no call
fails an assertion, and every slot `(u, j)`, `j` in `[0, K)`, is unchanged. -/
theorem C9_no_index_check (hp : isc_hp) (t : Nat) (ihp : Int) (v : Nat) (loads : List Nat)
    (hwf : WF hp) (ht : t < HP_MAX_THREADS) (hlo : hp.max_hps ≤ ihp) (h0 : 0 ≤ ihp)
    (hhi : ihp < ROW_WORDS) :
    (∃ hp1, isc_hp_clear_one hp t ihp = .ok hp1 ∧
      ∀ u j : Nat, u < HP_MAX_THREADS → (j : Int) < hp.max_hps → slot hp1 u j = slot hp u j) ∧
    (∃ hp1, isc_hp_protect_ptr hp t ihp v = .ok (v, hp1) ∧
      ∀ u j : Nat, u < HP_MAX_THREADS → (j : Int) < hp.max_hps → slot hp1 u j = slot hp u j) ∧
    (∃ hp1, isc_hp_protect_release hp t ihp v = .ok (v, hp1) ∧
      ∀ u j : Nat, u < HP_MAX_THREADS → (j : Int) < hp.max_hps → slot hp1 u j = slot hp u j) ∧
    (isc_hp_protect hp t ihp loads = .fail .pending ∨
      ∃ r hp1 tr, isc_hp_protect hp t ihp loads = .ok (r, hp1, tr) ∧
        ∀ u j : Nat, u < HP_MAX_THREADS → (j : Int) < hp.max_hps →
          slot hp1 u j = slot hp u j) := by
  obtain ⟨c, hc⟩ := store_slot_total hp hwf t ihp 0 ht h0 hhi
  obtain ⟨p, hp'⟩ := store_slot_total hp hwf t ihp v ht h0 hhi
  refine ⟨⟨c, hc, (store_slot_pad hp t ihp 0 c hlo hc).2⟩,
    ⟨p, ?_, (store_slot_pad hp t ihp v p hlo hp').2⟩,
    ⟨p, ?_, (store_slot_pad hp t ihp v p hlo hp').2⟩,
    protect_loop_pad t ihp ht h0 hhi loads 0 hp [] hwf hlo⟩
  · simp only [isc_hp_protect_ptr, hp', Res.bind_ok]
  · simp only [isc_hp_protect_release, hp', Res.bind_ok]

theorem C9_no_index_check_witness :
    (∃ hp1, isc_hp_clear_one demo_fresh 0 1 = .ok hp1 ∧
      ∀ u j : Nat, u < HP_MAX_THREADS → (j : Int) < demo_fresh.max_hps →
        slot hp1 u j = slot demo_fresh u j) ∧
    (∃ hp1, isc_hp_protect_ptr demo_fresh 0 1 7 = .ok (7, hp1) ∧
      ∀ u j : Nat, u < HP_MAX_THREADS → (j : Int) < demo_fresh.max_hps →
        slot hp1 u j = slot demo_fresh u j) ∧
    (∃ hp1, isc_hp_protect_release demo_fresh 0 1 7 = .ok (7, hp1) ∧
      ∀ u j : Nat, u < HP_MAX_THREADS → (j : Int) < demo_fresh.max_hps →
        slot hp1 u j = slot demo_fresh u j) ∧
    (isc_hp_protect demo_fresh 0 1 [7, 7] = .fail .pending ∨
      ∃ r hp1 tr, isc_hp_protect demo_fresh 0 1 [7, 7] = .ok (r, hp1, tr) ∧
        ∀ u j : Nat, u < HP_MAX_THREADS → (j : Int) < demo_fresh.max_hps →
          slot hp1 u j = slot demo_fresh u j) :=
  C9_no_index_check demo_fresh 0 1 7 [7, 7] demo_fresh_WF (by decide) (by decide) (by decide)
    (by decide)

/-! ## Capacity of a retire list -/

/-- C8 as stated fails, in both directions.  With `K = 1` a list that already holds
`maxThreads * K = 128` entries accepts a further `retire` (which returns normally); with
`K = 4` a list that holds 511 entries, fewer than `maxThreads * K = 512`, makes `retire`
fail the assertion. -/
theorem C8_counterexample :
    (WF demo_full1 ∧ demo_full1.max_hps = 1 ∧
      (retired demo_full1 0).length = HP_MAX_THREADS * 1 ∧
      ∃ hp1 log, isc_hp_retire demo_full1 0 200 = .ok (hp1, log)) ∧
    (WF demo_full4 ∧ demo_full4.max_hps = 4 ∧
      (retired demo_full4 0).length = 511 ∧ 511 < HP_MAX_THREADS * 4 ∧
      isc_hp_retire demo_full4 0 600 = .fail .assertion) := by
  have hlen : (retired demo_full1 0).length = 128 := by decide!
  obtain ⟨hp1, h1⟩ := isc_hp_retire_total demo_full1 demo_full1_WF (by decide) 0 200
    (by decide) (by rw [hlen]; decide)
  exact ⟨⟨demo_full1_WF, by decide, hlen, hp1, _, h1⟩,
    ⟨demo_full4_WF, by decide, by decide!, by decide, by decide!⟩⟩

/-- C8 (retire-list capacity), amended: a retire list holds at most `MAX_RETIRED - 1 = 511`
entries, where `MAX_RETIRED = HP_MAX_THREADS * HP_MAX_HPS = 128 * 4` does not depend on the
`K` of the domain; `retire(obj)` fails the assertion if and only if the list of the caller
already holds 511 entries, and otherwise appends `obj` and proceeds to the scan of the list
so extended (the result of the call is the result of that scan); when `max_hps` is above
`INT_MIN` the scan returns, with the kept entries and the `deletefunc` calls of one pass. -/
theorem C8_retire_capacity (hp : isc_hp) (t ptr : Nat) (hwf : WF hp)
    (ht : t < HP_MAX_THREADS) :
    MAX_RETIRED = 128 * 4 ∧ (retired hp t).length ≤ MAX_RETIRED - 1 ∧
    (isc_hp_retire hp t ptr = .fail .assertion ↔ (retired hp t).length = MAX_RETIRED - 1) ∧
    ((retired hp t).length < MAX_RETIRED - 1 →
      ∃ rl1, entries rl1 = retired hp t ++ [ptr] ∧
        isc_hp_retire hp t ptr =
          (retire_scan hp rl1.size.toNat 0 rl1 []).bind
            (fun r => .ok ({ hp with rl := hp.rl.set t r.1 }, r.2))) ∧
    ((retired hp t).length < MAX_RETIRED - 1 → INT_MIN < hp.max_hps →
      ∃ hp1, isc_hp_retire hp t ptr =
          .ok (hp1, (scanL (heldB hp) (retired hp t ++ [ptr])).2) ∧
        retired hp1 t = (scanL (heldB hp) (retired hp t ++ [ptr])).1) := by
  obtain ⟨rl, hget, hrl, -, hent, hfail, hscan⟩ := isc_hp_retire_scan hp hwf t ptr ht
  have hlen : (retired hp t).length = rl.size.toNat := by
    simp only [retired, hget]
    exact entries_length rl hrl
  obtain ⟨h0, h1, -⟩ := hrl
  have hM : MAX_RETIRED = 512 := rfl
  refine ⟨rfl, by omega, ?_, ?_, ?_⟩
  · constructor
    · intro hf
      by_contra hne
      by_cases hmin : INT_MIN < hp.max_hps
      · obtain ⟨hp1, heq⟩ := isc_hp_retire_total hp hwf hmin t ptr ht (by omega)
        rw [heq] at hf
        exact Res.noConfusion hf
      · rw [isc_hp_retire_overflow hp hwf (by omega) t ptr ht (by omega)] at hf
        exact absurd hf (by decide)
    · intro he
      exact hfail (by omega)
  · intro hlt
    exact ⟨_, hent, (hscan (by omega)).2⟩
  · intro hlt hmin
    obtain ⟨hp1, heq⟩ := isc_hp_retire_total hp hwf hmin t ptr ht (by omega)
    exact ⟨hp1, heq, (isc_hp_retire_ok hp hwf t ptr hp1 _ heq).2.2.1⟩

theorem C8_retire_capacity_witness :
    MAX_RETIRED = 128 * 4 ∧ (retired demo_full4 0).length ≤ MAX_RETIRED - 1 ∧
    (isc_hp_retire demo_full4 0 600 = .fail .assertion ↔
      (retired demo_full4 0).length = MAX_RETIRED - 1) ∧
    ((retired demo_full4 0).length < MAX_RETIRED - 1 →
      ∃ rl1, entries rl1 = retired demo_full4 0 ++ [600] ∧
        isc_hp_retire demo_full4 0 600 =
          (retire_scan demo_full4 rl1.size.toNat 0 rl1 []).bind
            (fun r => .ok ({ demo_full4 with rl := demo_full4.rl.set 0 r.1 }, r.2))) ∧
    ((retired demo_full4 0).length < MAX_RETIRED - 1 → INT_MIN < demo_full4.max_hps →
      ∃ hp1, isc_hp_retire demo_full4 0 600 =
          .ok (hp1, (scanL (heldB demo_full4) (retired demo_full4 0 ++ [600])).2) ∧
        retired hp1 0 = (scanL (heldB demo_full4) (retired demo_full4 0 ++ [600])).1) :=
  C8_retire_capacity demo_full4 0 600 demo_full4_WF (by decide)

/-! ## Progress of repeated scans -/

/-- An entry at index `i` that is not held is, after one scan, either reclaimed or kept at
an index below `i`. -/
theorem scanL_progress (held : Nat → Bool) (P : Nat) (hP : held P = false) :
    ∀ (n : Nat) (l : List Nat) (i : Nat), l.length ≤ n → l[i]? = some P →
      P ∈ (scanL held l).2 ∨ ∃ j, j < i ∧ (scanL held l).1[j]? = some P
  | 0, l, i, h, hi => by
    have : l = [] := List.length_eq_zero.mp (by omega)
    subst this; simp at hi
  | n + 1, [], i, _, hi => by simp at hi
  | n + 1, x :: tl, 0, _, hi => by
    have hx : x = P := by simpa using hi
    subst hx
    left
    rw [scanL_cons_free held x tl hP]
    simp
  | n + 1, x :: tl, i + 1, h, hi => by
    have hi1 : tl[i]? = some P := by simpa using hi
    have hlen : tl.length ≤ n := by simp at h; omega
    cases hx : held x
    · rw [scanL_cons_free held x tl hx]
      cases tl with
      | nil => simp at hi1
      | cons y rest =>
        cases i with
        | zero =>
          have hy : y = P := by simpa using hi1
          subst hy
          right
          exact ⟨0, by omega, by simp⟩
        | succ k =>
          have hk : rest[k]? = some P := by simpa using hi1
          have hl2 : rest.length ≤ n := by simp at hlen; omega
          rcases scanL_progress held P hP n rest k hl2 hk with h1 | ⟨j, hj, h1⟩
          · left; simp [h1]
          · right
            exact ⟨j + 1, by omega, by simpa using h1⟩
    · rw [scanL_cons_held held x tl hx]
      rcases scanL_progress held P hP n tl i hlen hi1 with h1 | ⟨j, hj, h1⟩
      · left; exact h1
      · right
        exact ⟨j + 1, by omega, by simpa using h1⟩

/-- Calls other than `isc_hp_retire` leave all retire lists unchanged and call no
`deletefunc`. -/
theorem step_rl (hp : isc_hp) (hwf : WF hp) (op : Op) (hp1 : isc_hp) (log : List Nat)
    (hop : ∀ t ptr, op ≠ .retire t ptr) (h : step hp op = .ok (hp1, log)) :
    hp1.rl = hp.rl ∧ log = [] := by
  cases op with
  | protect t ihp loads =>
    simp only [step] at h
    obtain ⟨r, h1, h2⟩ := Res.bind_eq_ok.mp h
    injection h2 with h2
    injection h2 with h2 h3
    obtain ⟨v, hp2, tr⟩ := r
    simp only at h2
    subst h2
    exact ⟨(protect_loop_WF t ihp loads 0 hp [] v _ tr hwf h1).2.1, h3.symm⟩
  | protect_ptr t ihp ptr =>
    simp only [step, isc_hp_protect_ptr] at h
    obtain ⟨r, h1, h2⟩ := Res.bind_eq_ok.mp h
    obtain ⟨hp2, h3, h4⟩ := Res.bind_eq_ok.mp h1
    injection h4 with h4
    subst h4
    injection h2 with h2
    injection h2 with h2 h5
    simp only at h2
    subst h2
    exact ⟨(store_slot_WF hp hwf t ihp ptr _ h3).2.1, h5.symm⟩
  | protect_release t ihp ptr =>
    simp only [step, isc_hp_protect_release] at h
    obtain ⟨r, h1, h2⟩ := Res.bind_eq_ok.mp h
    obtain ⟨hp2, h3, h4⟩ := Res.bind_eq_ok.mp h1
    injection h4 with h4
    subst h4
    injection h2 with h2
    injection h2 with h2 h5
    simp only at h2
    subst h2
    exact ⟨(store_slot_WF hp hwf t ihp ptr _ h3).2.1, h5.symm⟩
  | clear_one t ihp =>
    simp only [step, isc_hp_clear_one] at h
    obtain ⟨hp2, h1, h2⟩ := Res.bind_eq_ok.mp h
    injection h2 with h2
    injection h2 with h2 h5
    subst h2
    exact ⟨(store_slot_WF hp hwf t ihp 0 _ h1).2.1, h5.symm⟩
  | clear t =>
    simp only [step, isc_hp_clear] at h
    obtain ⟨hp2, h1, h2⟩ := Res.bind_eq_ok.mp h
    injection h2 with h2
    injection h2 with h2 h5
    subst h2
    exact ⟨(clear_loop_WF hp hwf t _ _ h1).2.1, h5.symm⟩
  | retire t ptr => exact absurd rfl (hop t ptr)

/-- An entry at index `i` of the retire list of thread `t` that no slot holds in any
state of a run is passed to `deletefunc` once the run contains `i + 1` retire calls by
`t`. -/
theorem run_reclaims (t P : Nat) :
    ∀ (ops : List Op) (s : isc_hp) (i : Nat) (s1 : isc_hp) (log : List Nat), WF s →
      (retired s t)[i]? = some P →
      (∀ x ∈ run_states s ops, ¬ Held x P) →
      i + 1 ≤ retire_calls t ops →
      run s ops = .ok (s1, log) → P ∈ log
  | [], s, i, s1, log, _, _, _, hc, _ => by
    simp [retire_calls] at hc
  | op :: rest, s, i, s1, log, hwf, hi, hnever, hc, hrun => by
    simp only [run] at hrun
    obtain ⟨r, h1, h2⟩ := Res.bind_eq_ok.mp hrun
    obtain ⟨r2, h3, h4⟩ := Res.bind_eq_ok.mp h2
    injection h4 with h4
    injection h4 with h4 h5
    obtain ⟨r1s, r1l⟩ := r
    obtain ⟨r2s, r2l⟩ := r2
    simp only at h3 h4 h5
    subst h4; subst h5
    have hwf1 := (step_WF s hwf op r1s r1l h1).1
    have hs : ¬ Held s P := hnever s (by simp [run_states])
    have hrest : ∀ x ∈ run_states r1s rest, ¬ Held x P := by
      intro x hx
      apply hnever x
      simp only [run_states, h1, List.mem_cons]
      exact Or.inr hx
    by_cases hop : ∃ u ptr, op = .retire u ptr
    · obtain ⟨u, ptr, rfl⟩ := hop
      simp only [step] at h1
      obtain ⟨-, hlog, hkept, -, -, -, hother, -⟩ := isc_hp_retire_ok s hwf u ptr r1s r1l h1
      by_cases hu : u = t
      · subst hu
        have hfree : heldB s P = false := by
          rw [← Bool.not_eq_true, heldB_iff]; exact hs
        have hidx : (retired s u ++ [ptr])[i]? = some P := by
          have hlt : i < (retired s u).length := by
            by_contra hge
            rw [List.getElem?_eq_none_iff.mpr (by omega)] at hi
            exact Option.noConfusion hi
          rw [List.getElem?_append_left hlt]
          exact hi
        rcases scanL_progress (heldB s) P hfree _ _ i (le_refl _) hidx with hin | ⟨j, hj, hin⟩
        · rw [← hlog] at hin
          exact List.mem_append_left _ hin
        · rw [← hkept] at hin
          have hcount : j + 1 ≤ retire_calls u rest := by
            simp only [retire_calls, if_true] at hc
            omega
          exact List.mem_append_right _
            (run_reclaims u P rest r1s j r2s r2l hwf1 hin hrest hcount h3)
      · have hi1 : (retired r1s t)[i]? = some P := by
          rw [hother t (Ne.symm hu)]; exact hi
        have hcount : i + 1 ≤ retire_calls t rest := by
          simp only [retire_calls, if_neg hu] at hc
          omega
        exact List.mem_append_right _
          (run_reclaims t P rest r1s i r2s r2l hwf1 hi1 hrest hcount h3)
    · have hop1 : ∀ u ptr, op ≠ .retire u ptr := fun u ptr he => hop ⟨u, ptr, he⟩
      obtain ⟨hrl, -⟩ := step_rl s hwf op r1s r1l hop1 h1
      have hi1 : (retired r1s t)[i]? = some P := by
        simp only [retired, hrl]; exact hi
      have hcount : i + 1 ≤ retire_calls t rest := by
        cases op with
        | retire u ptr => exact absurd rfl (hop1 u ptr)
        | protect _ _ _ => simpa only [retire_calls] using hc
        | protect_ptr _ _ _ => simpa only [retire_calls] using hc
        | protect_release _ _ _ => simpa only [retire_calls] using hc
        | clear_one _ _ => simpa only [retire_calls] using hc
        | clear _ => simpa only [retire_calls] using hc
      exact List.mem_append_right _
        (run_reclaims t P rest r1s i r2s r2l hwf1 hi1 hrest hcount h3)

/-! ## Liveness -/

/-- A retire call by thread `u` of an identity other than `P`, when `P` is not in the list
of `u`, does not pass `P` to `deletefunc` and does not bring `P` into the list of `u`. -/
theorem retire_other_thread (hp : isc_hp) (hwf : WF hp) (u x P : Nat) (hp1 : isc_hp)
    (log : List Nat) (hx : x ≠ P) (hP : P ∉ retired hp u)
    (h : isc_hp_retire hp u x = .ok (hp1, log)) :
    P ∉ log ∧ P ∉ retired hp1 u ∧ WF hp1 ∧ (∀ v, v ≠ u → retired hp1 v = retired hp v) := by
  obtain ⟨-, hlog, hkept, -, -, hwf1, hother, -⟩ := isc_hp_retire_ok hp hwf u x hp1 log h
  have hnot : P ∉ retired hp u ++ [x] := by
    simp only [List.mem_append, List.mem_singleton, not_or]
    exact ⟨hP, fun he => hx he.symm⟩
  refine ⟨?_, ?_, hwf1, hother⟩
  · intro hin
    rw [hlog] at hin
    exact hnot (scanL_reclaimed _ _ _ (le_refl _) P hin).1
  · intro hin
    rw [hkept] at hin
    exact hnot (scanL_kept_mem _ _ _ (le_refl _) P hin)

theorem run_other_thread (t u P : Nat) (htu : t ≠ u) :
    ∀ (objs : List Nat) (s s1 : isc_hp) (log : List Nat), WF s → P ∉ objs →
      P ∉ retired s u →
      run s (objs.map (fun x => Op.retire u x)) = .ok (s1, log) →
      P ∉ log ∧ retired s1 t = retired s t
  | [], s, s1, log, _, _, _, h => by
    simp only [List.map_nil, run] at h
    injection h with h
    injection h with h1 h2
    subst h1; subst h2
    exact ⟨by simp, rfl⟩
  | x :: rest, s, s1, log, hwf, hobjs, hP, h => by
    simp only [List.map_cons, run] at h
    obtain ⟨r, h1, h2⟩ := Res.bind_eq_ok.mp h
    obtain ⟨r2, h3, h4⟩ := Res.bind_eq_ok.mp h2
    injection h4 with h4
    injection h4 with h4 h5
    obtain ⟨r1s, r1l⟩ := r
    obtain ⟨r2s, r2l⟩ := r2
    simp only at h3 h4 h5
    subst h4; subst h5
    simp only [step] at h1
    have hx : x ≠ P := fun he => hobjs (by simp [he])
    obtain ⟨a1, a2, a3, a4⟩ := retire_other_thread s hwf u x P r1s r1l hx hP h1
    obtain ⟨b1, b2⟩ := run_other_thread t u P htu rest r1s r2s r2l a3
      (fun hin => hobjs (by simp [hin])) a2 h3
    refine ⟨?_, ?_⟩
    · simp only [List.mem_append, not_or]
      exact ⟨a1, b1⟩
    · rw [b2, a4 t htu]

theorem run_replicate_fixed (s : isc_hp) (u x : Nat)
    (h : isc_hp_retire s u x = .ok (s, [x])) :
    ∀ n, run s (List.replicate n (Op.retire u x)) = .ok (s, List.replicate n x)
  | 0 => rfl
  | n + 1 => by
    simp only [List.replicate_succ, run, step, h, Res.bind_ok, run_replicate_fixed s u x h n,
      List.singleton_append]

/-- C6 as stated fails for a thread other than the one whose list holds the entry.  From a
fresh one-slot domain: thread 0 protects 5, thread 1 retires 5, thread 0 clears, so 5 is in
the list of thread 1 and no slot holds it.  Whatever identities other than 5 thread 2 then
retires, and however many (such runs of every length return normally), 5 is never passed
to `deletefunc` and stays in the list of thread 1: the scan of a retire call reads only
the list of the caller. -/
theorem C6_counterexample :
    isc_hp_new 1 (fun _ _ => 0) = .ok demo_fresh ∧
      run demo_fresh [.protect 0 0 [5, 5], .retire 1 5, .clear_one 0 0] = .ok (demo_pending, []) ∧
      retired demo_pending 1 = [5] ∧ ¬ Held demo_pending 5 ∧
      (∀ (objs : List Nat) (s1 : isc_hp) (log : List Nat), 5 ∉ objs →
        run demo_pending (objs.map (fun x => Op.retire 2 x)) = .ok (s1, log) →
        5 ∉ log ∧ retired s1 1 = [5]) ∧
      (∀ n, run demo_pending (List.replicate n (Op.retire 2 9)) =
        .ok (demo_pending, List.replicate n 9)) := by
  refine ⟨demo_fresh_new, demo_run_pending, by decide!, by decide!, ?_, ?_⟩
  · intro objs s1 log hobjs hrun
    have h := run_other_thread 1 2 5 (by decide) objs demo_pending s1 log demo_pending_WF hobjs
      (by decide!) hrun
    exact ⟨h.1, h.2.trans (by decide!)⟩
  · exact run_replicate_fixed demo_pending 2 9 (by decide!)

/-- C6 (liveness), amended: if `P` is an entry of the retire list of thread `t` and no slot
holds `P` in any state of the run that follows, then the retire calls of `t` itself
reclaim it: once `t` has made as many further retire calls as its list had entries (all
calls of the run returning normally), `P` has been passed to `deletefunc`. -/
theorem C6_owner_liveness (s : isc_hp) (t P : Nat) (ops : List Op) (s1 : isc_hp)
    (log : List Nat) (hwf : WF s) (hmem : P ∈ retired s t)
    (hnever : ∀ x ∈ run_states s ops, ¬ Held x P)
    (hcalls : (retired s t).length ≤ retire_calls t ops)
    (hrun : run s ops = .ok (s1, log)) :
    P ∈ log := by
  obtain ⟨i, hi⟩ := List.getElem?_of_mem hmem
  have hlt : i < (retired s t).length := by
    by_contra hge
    rw [List.getElem?_eq_none_iff.mpr (by omega)] at hi
    exact Option.noConfusion hi
  exact run_reclaims t P ops s i s1 log hwf hi hnever (by omega) hrun

theorem C6_owner_liveness_witness : 5 ∈ [5] :=
  C6_owner_liveness demo_pending 1 5 [.retire 1 6] demo_after [5] demo_pending_WF (by decide!)
    (by decide!) (by decide!) (by decide!)

/-! ## Thread handles -/

theorem TidInv_init : TidInv TidState.init ∅ := by
  refine ⟨rfl, fun _ => rfl, ?_, ?_, ?_⟩
  · intro th; simp [TidState.init]
  · intro th h; simp at h
  · intro a h; simp at h

theorem tid_known (st : TidState) (S : Finset Nat) (hinv : TidInv st S) (th : Nat)
    (hth : th ∈ S) :
    ∃ st1, tid st th = .ok (st.tid_v th, st1) ∧ TidInv st1 S ∧ st1.tid_v = st.tid_v := by
  obtain ⟨h1, h2, h3, h4, h5⟩ := hinv
  have hini : st.tid_v_initialized = true := by
    cases hb : st.tid_v_initialized
    · have := h2 hb
      rw [this] at hth
      simp at hth
    · rfl
  have hk := (h3 th).mp hth
  refine ⟨st, ?_, ⟨h1, h2, h3, h4, h5⟩, rfl⟩
  simp only [tid, hini, Bool.not_true, Bool.false_eq_true, if_false, if_neg hk]

theorem tid_fresh_eq (st : TidState) (S : Finset Nat) (hinv : TidInv st S) (th : Nat)
    (hth : th ∉ S) :
    tid st th =
      if (S.card : Int) < HP_MAX_THREADS then
        .ok ((S.card : Int),
          { tid_v_base := (S.card : Int) + 1, tid_v_initialized := true,
            tid_v := fun x => if x = th then (S.card : Int) else st.tid_v x })
      else .fail .assertion := by
  obtain ⟨h1, h2, h3, h4, h5⟩ := hinv
  have hk : st.tid_v th = TID_UNKNOWN := by
    by_contra hne
    exact hth ((h3 th).mpr hne)
  cases hb : st.tid_v_initialized
  · have hS := h2 hb
    subst hS
    simp [tid, hb, hk]
  · obtain ⟨b, i, f⟩ := st
    simp only at hb h1 hk
    subst hb
    simp [tid, hk, h1]

theorem tid_fresh (st : TidState) (S : Finset Nat) (hinv : TidInv st S) (th : Nat)
    (hth : th ∉ S) :
    (S.card < HP_MAX_THREADS →
      ∃ st1, tid st th = .ok ((S.card : Int), st1) ∧ TidInv st1 (insert th S) ∧
        st1.tid_v th = S.card ∧ ∀ x, x ≠ th → st1.tid_v x = st.tid_v x) ∧
    (HP_MAX_THREADS ≤ S.card → tid st th = .fail .assertion) := by
  have heq := tid_fresh_eq st S hinv th hth
  obtain ⟨h1, h2, h3, h4, h5⟩ := hinv
  constructor
  · intro hlt
    rw [if_pos (by exact_mod_cast hlt)] at heq
    refine ⟨_, heq, ?_, by simp, fun x hx => by simp [hx]⟩
    have hmem : ∀ x, x ∈ insert th S → x ≠ th → x ∈ S := by
      intro x hx hne
      rcases Finset.mem_insert.mp hx with h | h
      · exact absurd h hne
      · exact h
    refine ⟨?_, ?_, ?_, ?_, ?_⟩
    · simp only [Finset.card_insert_of_not_mem hth]
      push_cast; ring
    · intro hf
      exact Bool.noConfusion hf
    · intro x
      simp only [Finset.mem_insert]
      by_cases hx : x = th
      · subst hx
        simp only [true_or, if_true, true_iff, TID_UNKNOWN]
        omega
      · simp only [hx, false_or, if_false]
        exact h3 x
    · intro x hx
      simp only [Finset.card_insert_of_not_mem hth]
      by_cases hxt : x = th
      · subst hxt
        simp only [if_true]
        push_cast
        omega
      · simp only [hxt, if_false]
        have := h4 x (hmem x hx hxt)
        push_cast
        omega
    · intro a ha b hb hab
      simp only at hab
      by_cases hat : a = th
      · by_cases hbt : b = th
        · rw [hat, hbt]
        · exfalso
          simp only [hat, if_true, hbt, if_false] at hab
          have := (h4 b (hmem b hb hbt)).2
          omega
      · by_cases hbt : b = th
        · exfalso
          simp only [hat, if_false, hbt, if_true] at hab
          have := (h4 a (hmem a ha hat)).2
          omega
        · simp only [hat, hbt, if_false] at hab
          exact h5 a (hmem a ha hat) b (hmem b hb hbt) hab
  · intro hge
    rw [heq, if_neg]
    have : (HP_MAX_THREADS : Int) ≤ (S.card : Int) := by exact_mod_cast hge
    omega

theorem tid_run_inv : ∀ (ths : List Nat) (st : TidState) (S : Finset Nat), TidInv st S →
    (S ∪ ths.toFinset).card ≤ HP_MAX_THREADS →
    ∃ log st1, tid_run st ths = .ok (log, st1) ∧ TidInv st1 (S ∪ ths.toFinset) ∧
      log.map Prod.fst = ths ∧ (∀ p ∈ log, p.2 = st1.tid_v p.1) ∧
      (∀ x ∈ S, st1.tid_v x = st.tid_v x)
  | [], st, S, hinv, _ => by
    refine ⟨[], st, rfl, by simpa using hinv, rfl, ?_, fun _ _ => rfl⟩
    intro p hp
    simp at hp
  | th :: rest, st, S, hinv, hcard => by
    have hunion : S ∪ (th :: rest).toFinset = insert th S ∪ rest.toFinset := by
      ext x
      simp only [List.toFinset_cons, Finset.mem_union, Finset.mem_insert, List.mem_toFinset]
      tauto
    rw [hunion] at hcard ⊢
    by_cases hth : th ∈ S
    · obtain ⟨st1, h1, h2, h3⟩ := tid_known st S hinv th hth
      have hins : insert th S = S := Finset.insert_eq_of_mem hth
      rw [hins] at hcard ⊢
      obtain ⟨log, st2, r1, r2, r3, r4, r5⟩ := tid_run_inv rest st1 S h2 hcard
      refine ⟨(th, st.tid_v th) :: log, st2, ?_, r2, by simp [r3], ?_, ?_⟩
      · simp only [tid_run, h1, r1]
      · intro p hp
        rcases List.mem_cons.mp hp with h | h
        · subst h
          simp only
          rw [r5 th hth, h3]
        · exact r4 p h
      · intro x hx
        rw [r5 x hx, h3]
    · have hlt : S.card < HP_MAX_THREADS := by
        have h1 : (insert th S).card ≤ (insert th S ∪ rest.toFinset).card :=
          Finset.card_le_card Finset.subset_union_left
        rw [Finset.card_insert_of_not_mem hth] at h1
        omega
      obtain ⟨st1, h1, h2, h3, h4⟩ := (tid_fresh st S hinv th hth).1 hlt
      obtain ⟨log, st2, r1, r2, r3, r4, r5⟩ := tid_run_inv rest st1 (insert th S) h2 hcard
      refine ⟨(th, (S.card : Int)) :: log, st2, ?_, r2, by simp [r3], ?_, ?_⟩
      · simp only [tid_run, h1, r1]
      · intro p hp
        rcases List.mem_cons.mp hp with h | h
        · subst h
          simp only
          rw [r5 th (Finset.mem_insert_self th S), h3]
        · exact r4 p h
      · intro x hx
        have hne : x ≠ th := fun he => hth (he ▸ hx)
        rw [r5 x (Finset.mem_insert_of_mem hx), h4 x hne]

/-- C7 (thread-handle uniqueness): in every sequence of `tid()` calls from the initial
state made by at most 128 distinct threads, every call returns; a thread gets the same
handle on each of its calls, distinct threads get distinct handles, every handle lies in
`[0, 128)`; and when the sequence has used 128 distinct threads, the first call by a
further thread fails the `REQUIRE`. -/
theorem C7_tid_handles (ths : List Nat) (th : Nat)
    (h : ths.dedup.length ≤ HP_MAX_THREADS) :
    ∃ log st, tid_run TidState.init ths = .ok (log, st) ∧ log.map Prod.fst = ths ∧
      (∀ a ∈ log, ∀ b ∈ log, (a.1 = b.1 ↔ a.2 = b.2)) ∧
      (∀ a ∈ log, 0 ≤ a.2 ∧ a.2 < HP_MAX_THREADS) ∧
      (ths.dedup.length = HP_MAX_THREADS → th ∉ ths → tid st th = .fail .assertion) := by
  have hcard : (∅ ∪ ths.toFinset).card ≤ HP_MAX_THREADS := by
    rw [Finset.empty_union, List.card_toFinset]; exact h
  obtain ⟨log, st, r1, r2, r3, r4, -⟩ := tid_run_inv ths TidState.init ∅ TidInv_init hcard
  rw [Finset.empty_union] at r2
  have hmem : ∀ p ∈ log, p.1 ∈ ths.toFinset := by
    intro p hp
    rw [List.mem_toFinset, ← r3]
    exact List.mem_map_of_mem _ hp
  obtain ⟨i1, i2, i3, i4, i5⟩ := r2
  refine ⟨log, st, r1, r3, ?_, ?_, ?_⟩
  · intro a ha b hb
    rw [r4 a ha, r4 b hb]
    constructor
    · intro he; rw [he]
    · intro he; exact i5 _ (hmem a ha) _ (hmem b hb) he
  · intro a ha
    have := i4 _ (hmem a ha)
    rw [r4 a ha]
    have hc : ((ths.toFinset.card : Nat) : Int) ≤ (HP_MAX_THREADS : Int) := by
      rw [List.card_toFinset]; exact_mod_cast h
    omega
  · intro hfull hnew
    have hnot : th ∉ ths.toFinset := by
      rw [List.mem_toFinset]; exact hnew
    exact (tid_fresh st ths.toFinset ⟨i1, i2, i3, i4, i5⟩ th hnot).2
      (by rw [List.card_toFinset, hfull])

theorem C7_tid_handles_witness :
    ∃ log st, tid_run TidState.init (List.range 128 ++ [5, 0]) = .ok (log, st) ∧
      log.map Prod.fst = List.range 128 ++ [5, 0] ∧
      (∀ a ∈ log, ∀ b ∈ log, (a.1 = b.1 ↔ a.2 = b.2)) ∧
      (∀ a ∈ log, 0 ≤ a.2 ∧ a.2 < HP_MAX_THREADS) ∧
      ((List.range 128 ++ [5, 0]).dedup.length = HP_MAX_THREADS →
        128 ∉ List.range 128 ++ [5, 0] → tid st 128 = .fail .assertion) :=
  C7_tid_handles (List.range 128 ++ [5, 0]) 128 (by decide!)

/-! ## Order and conservation of one scan -/

theorem pick_sublist : ∀ (mask : List Bool) (l : List Nat), (pick mask l).Sublist l
  | [], l => by simp [pick]
  | _ :: _, [] => by simp [pick]
  | b :: m, x :: l => by
    cases b
    · simpa [pick] using (pick_sublist m l).cons x
    · simpa [pick] using (pick_sublist m l).cons₂ x

/-- One scan splits the list by positions: some positions are kept, the others are passed
to `deletefunc`, both in list order. -/
theorem scanL_mask (held : Nat → Bool) :
    ∀ (n : Nat) (l : List Nat), l.length ≤ n →
      ∃ mask : List Bool, mask.length = l.length ∧
        (scanL held l).1 = pick mask l ∧ (scanL held l).2 = pick (mask.map (fun b => !b)) l
  | 0, l, h => by
    have : l = [] := List.length_eq_zero.mp (by omega)
    subst this
    exact ⟨[], rfl, by simp [scanL, pick], by simp [scanL, pick]⟩
  | n + 1, [], _ => ⟨[], rfl, by simp [scanL, pick], by simp [scanL, pick]⟩
  | n + 1, x :: tl, h => by
    cases hx : held x
    · rw [scanL_cons_free held x tl hx]
      cases tl with
      | nil => exact ⟨[false], rfl, by simp [scanL, pick], by simp [scanL, pick]⟩
      | cons y rest =>
        obtain ⟨m, hm, h1, h2⟩ := scanL_mask held n rest (by simp at h; omega)
        refine ⟨false :: true :: m, by simp [hm], ?_, ?_⟩
        · simp [pick, h1]
        · simp [pick, h2]
    · rw [scanL_cons_held held x tl hx]
      obtain ⟨m, hm, h1, h2⟩ := scanL_mask held n tl (by simp at h; omega)
      refine ⟨true :: m, by simp [hm], ?_, ?_⟩
      · simp [pick, h1]
      · simp [pick, h2]

/-- C11 (order preservation and conservation of the scan): for every `retire(obj)` by
thread `t` that returns normally, with `L` the old list of `t`, there is a choice of
positions of `L ++ [obj]` such that the new list of `t` consists of the entries at the
chosen positions and the sequence of identities passed to `deletefunc` of the entries at
the other positions, both in list order; so both are order-preserving sublists, every
entry is either kept or reclaimed exactly once, and nothing else is reclaimed. -/
theorem C11_scan_order_conservation (hp : isc_hp) (t ptr : Nat) (hp1 : isc_hp)
    (log : List Nat) (hwf : WF hp) (hret : isc_hp_retire hp t ptr = .ok (hp1, log)) :
    ∃ mask : List Bool, mask.length = (retired hp t ++ [ptr]).length ∧
      retired hp1 t = pick mask (retired hp t ++ [ptr]) ∧
      log = pick (mask.map (fun b => !b)) (retired hp t ++ [ptr]) ∧
      (retired hp1 t).Sublist (retired hp t ++ [ptr]) ∧
      log.Sublist (retired hp t ++ [ptr]) ∧
      (retired hp1 t).length + log.length = (retired hp t ++ [ptr]).length := by
  obtain ⟨-, hlog, hkept, -, -, -, -, -⟩ := isc_hp_retire_ok hp hwf t ptr hp1 log hret
  obtain ⟨mask, hm, h1, h2⟩ := scanL_mask (heldB hp) _ (retired hp t ++ [ptr]) (le_refl _)
  have hlen := scanL_length (heldB hp) _ (retired hp t ++ [ptr]) (le_refl _)
  refine ⟨mask, hm, hkept.trans h1, hlog.trans h2, ?_, ?_, ?_⟩
  · rw [hkept, h1]; exact pick_sublist _ _
  · rw [hlog, h2]; exact pick_sublist _ _
  · rw [hkept, hlog]; exact hlen

theorem C11_scan_order_conservation_witness :
    ∃ mask : List Bool, mask.length = (retired demo_pending 1 ++ [6]).length ∧
      retired demo_after 1 = pick mask (retired demo_pending 1 ++ [6]) ∧
      [5] = pick (mask.map (fun b => !b)) (retired demo_pending 1 ++ [6]) ∧
      (retired demo_after 1).Sublist (retired demo_pending 1 ++ [6]) ∧
      [5].Sublist (retired demo_pending 1 ++ [6]) ∧
      (retired demo_after 1).length + [5].length = (retired demo_pending 1 ++ [6]).length :=
  C11_scan_order_conservation demo_pending 1 6 demo_after [5] demo_pending_WF
    demo_retire_after

/-! ## Creation -/

theorem zero_words_total (row : List Nat) :
    ∀ n, n ≤ row.length → ∃ r, zero_words row n = .ok r
  | 0, _ => ⟨row, rfl⟩
  | n + 1, h => by
    obtain ⟨r, hr⟩ := zero_words_total row n (by omega)
    have hlen := (zero_words_ok row n r hr).1
    refine ⟨r.set n 0, ?_⟩
    simp only [zero_words, hr, Res.bind_ok, store_word]
    rw [if_pos ⟨by omega, by omega⟩]
    simp

theorem new_rows_total (k : Int) (junk : Nat → Nat → Nat) (hk : k.toNat ≤ ROW_WORDS) :
    ∀ (n i : Nat), ∃ acc, new_rows k junk i n = .ok acc
  | 0, _ => ⟨([], []), rfl⟩
  | n + 1, i => by
    have hlen : (isc_mem_get ROW_WORDS (junk i)).length = ROW_WORDS := by
      simp [isc_mem_get]
    obtain ⟨row, hrow⟩ := zero_words_total (isc_mem_get ROW_WORDS (junk i)) k.toNat
      (by rw [hlen]; exact hk)
    obtain ⟨acc, hacc⟩ := new_rows_total k junk hk n (i + 1)
    refine ⟨(row :: acc.1, { size := 0, list := List.replicate MAX_RETIRED 0 } :: acc.2), ?_⟩
    simp only [new_rows, hrow, Res.bind_ok, hacc]

theorem int_of_size_t_small (m : Nat) (h : m < 2 ^ 31) : int_of_size_t m = m := by
  have h1 : m % 2 ^ 32 = m := Nat.mod_eq_of_lt (by omega)
  simp only [int_of_size_t, h1, if_pos h]

/-- C12 as stated fails.  A request for capacity 0 yields a domain of capacity
`HP_MAX_HPS = 4`, not 0; a request for 33 slots makes the initialisation loop store beyond
the 32 words of a row; a request for `2^31` slots is truncated to a negative `int`, the
loop does not run and the slots keep whatever the allocator returned (7 here). -/
theorem C12_counterexample :
    (isc_hp_new 0 (fun _ _ => 0)).bind (fun h => .ok h.max_hps) = .ok 4 ∧
      isc_hp_new 33 (fun _ _ => 0) = .fail .outOfBounds ∧
      (isc_hp_new (2 ^ 31) (fun _ _ => 7)).bind (fun h => .ok (h.max_hps, slot h 0 0)) =
        .ok (-(2 ^ 31), some 7) := by
  decide!

/-- C12 (initial state), amended: for every requested capacity `m` of at most 32 (the
number of words of a row), `isc_hp_new` returns a domain whose capacity `K` is `m`, or
`HP_MAX_HPS = 4` when `m = 0`, and in which for every thread handle `u` in `[0, 128)` all
`K` slots are zero and the retire list is empty, with `size = 0`. -/
theorem C12_initial_state (m : Nat) (junk : Nat → Nat → Nat) (hm : m ≤ ROW_WORDS) :
    ∃ hp, isc_hp_new m junk = .ok hp ∧
      hp.max_hps = (if m = 0 then (HP_MAX_HPS : Int) else (m : Int)) ∧
      (∀ u j : Nat, u < HP_MAX_THREADS → (j : Int) < hp.max_hps → slot hp u j = some 0) ∧
      (∀ u, u < HP_MAX_THREADS → retired hp u = [] ∧
        ∃ r, hp.rl[u]? = some r ∧ r.size = 0) := by
  have hR : ROW_WORDS = 32 := rfl
  have hK : int_of_size_t (if m = 0 then HP_MAX_HPS else m) =
      (if m = 0 then (HP_MAX_HPS : Int) else (m : Int)) := by
    by_cases h0 : m = 0
    · simp only [h0, if_true]; rfl
    · simp only [h0, if_false]
      exact int_of_size_t_small m (by omega)
  have hk32 : (int_of_size_t (if m = 0 then HP_MAX_HPS else m)).toNat ≤ ROW_WORDS := by
    rw [hK]
    by_cases h0 : m = 0
    · simp only [h0, if_true]; decide
    · simp only [h0, if_false]; omega
  obtain ⟨acc, hacc⟩ := new_rows_total _ junk hk32 HP_MAX_THREADS 0
  have hnew : isc_hp_new m junk =
      .ok { max_hps := int_of_size_t (if m = 0 then HP_MAX_HPS else m),
            hp := acc.1, rl := acc.2 } := by
    simp only [isc_hp_new, hacc, Res.bind_ok]
  obtain ⟨hwf, hz, he⟩ := isc_hp_new_ok m junk _ hnew
  obtain ⟨-, a2, -, a4⟩ := new_rows_ok _ junk _ 0 acc hacc
  refine ⟨_, hnew, hK, hz, ?_⟩
  intro u hu
  refine ⟨he u, ?_⟩
  have hlt : u < acc.2.length := by rw [a2]; exact hu
  refine ⟨acc.2[u], List.getElem?_eq_getElem hlt, ?_⟩
  rw [a4 _ (List.getElem_mem hlt)]

theorem C12_initial_state_witness :
    ∃ hp, isc_hp_new 0 (fun _ _ => 9) = .ok hp ∧
      hp.max_hps = (if 0 = 0 then (HP_MAX_HPS : Int) else ((0 : Nat) : Int)) ∧
      (∀ u j : Nat, u < HP_MAX_THREADS → (j : Int) < hp.max_hps → slot hp u j = some 0) ∧
      (∀ u, u < HP_MAX_THREADS → retired hp u = [] ∧
        ∃ r, hp.rl[u]? = some r ∧ r.size = 0) :=
  C12_initial_state 0 (fun _ _ => 9) (by decide)

/-! ## Publishing and clearing a slot -/

theorem store_slot_rows (hp : isc_hp) (t : Nat) (ihp : Int) (v : Nat) (hp1 : isc_hp)
    (h : store_slot hp t ihp v = .ok hp1) : ∀ u, u ≠ t → hp1.hp[u]? = hp.hp[u]? := by
  obtain ⟨row, -, -, -, rfl⟩ := store_slot_ok hp t ihp v hp1 h
  intro u hu
  simp [List.getElem?_set_ne (Ne.symm hu)]

/-- C13 (`isc_hp_protect_ptr` and `isc_hp_protect_release` have the same effect): the two
functions agree on every input, and for a slot index in `[0, K)` both return `v` and the
same state, which is the input state with slot `(t, ihp)` set to `v` and nothing else
changed. -/
theorem C13_protect_ptr_release_same (hp : isc_hp) (t : Nat) (ihp : Int) (v : Nat)
    (hwf : WF hp) (ht : t < HP_MAX_THREADS) (h0 : 0 ≤ ihp) (hK : ihp < hp.max_hps) :
    isc_hp_protect_ptr hp t ihp v = isc_hp_protect_release hp t ihp v ∧
    ∃ hp1, isc_hp_protect_ptr hp t ihp v = .ok (v, hp1) ∧
      isc_hp_protect_release hp t ihp v = .ok (v, hp1) ∧
      slot hp1 t ihp.toNat = some v ∧
      (∀ u j : Nat, (u ≠ t ∨ j ≠ ihp.toNat) → slot hp1 u j = slot hp u j) ∧
      hp1.rl = hp.rl ∧ hp1.max_hps = hp.max_hps := by
  obtain ⟨hp1, hs⟩ := store_slot_total hp hwf t ihp v ht h0 (lt_of_lt_of_le hK hwf.1)
  obtain ⟨s1, s2⟩ := store_slot_slot hp t ihp v hp1 hs
  obtain ⟨-, w2, w3⟩ := store_slot_WF hp hwf t ihp v hp1 hs
  refine ⟨rfl, hp1, ?_, ?_, s1, s2, w2, w3⟩
  · simp only [isc_hp_protect_ptr, hs, Res.bind_ok]
  · simp only [isc_hp_protect_release, hs, Res.bind_ok]

theorem C13_protect_ptr_release_same_witness :
    isc_hp_protect_ptr demo_fresh 0 0 7 = isc_hp_protect_release demo_fresh 0 0 7 ∧
    ∃ hp1, isc_hp_protect_ptr demo_fresh 0 0 7 = .ok (7, hp1) ∧
      isc_hp_protect_release demo_fresh 0 0 7 = .ok (7, hp1) ∧
      slot hp1 0 (0 : Int).toNat = some 7 ∧
      (∀ u j : Nat, (u ≠ 0 ∨ j ≠ (0 : Int).toNat) → slot hp1 u j = slot demo_fresh u j) ∧
      hp1.rl = demo_fresh.rl ∧ hp1.max_hps = demo_fresh.max_hps :=
  C13_protect_ptr_release_same demo_fresh 0 0 7 demo_fresh_WF (by decide) (by decide)
    (by decide)

theorem list_set_same {α : Type} (l : List α) (i : Nat) (a : α) (h : l[i]? = some a) :
    l.set i a = l := by
  apply List.ext_getElem?
  intro k
  by_cases hk : i = k
  · subst hk
    have hi : i < l.length := by
      by_contra hc
      rw [List.getElem?_eq_none_iff.mpr (by omega)] at h
      exact Option.noConfusion h
    rw [List.getElem?_set_self hi, h]
  · rw [List.getElem?_set_ne hk]

/-- A store of the value that the word already holds changes nothing. -/
theorem store_slot_same (hp : isc_hp) (t j v : Nat) (h : slot hp t j = some v) :
    store_slot hp t (j : Int) v = .ok hp := by
  unfold slot at h
  cases hrow : hp.hp[t]? with
  | none => simp [hrow] at h
  | some row =>
    simp only [hrow, Option.some_bind] at h
    have hj : j < row.length := by
      by_contra hc
      rw [List.getElem?_eq_none_iff.mpr (by omega)] at h
      exact Option.noConfusion h
    have e1 : row.set j v = row := list_set_same row j v h
    have e2 : hp.hp.set t row = hp.hp := list_set_same hp.hp t row hrow
    simp only [store_slot, hrow, store_word]
    rw [if_pos ⟨by omega, by omega⟩]
    simp only [Res.bind_ok, Int.toNat_ofNat, e1, e2]

theorem clear_loop_slots (hp : isc_hp) (t : Nat) :
    ∀ (n : Nat) (h1 : isc_hp), clear_loop hp t n = .ok h1 →
      (∀ j, j < n → slot h1 t j = some 0) ∧
      (∀ u j : Nat, (u ≠ t ∨ n ≤ j) → slot h1 u j = slot hp u j) ∧
      (∀ u, u ≠ t → h1.hp[u]? = hp.hp[u]?)
  | 0, h1, h => by
    simp only [clear_loop] at h
    injection h with h
    subst h
    exact ⟨fun j hj => absurd hj (Nat.not_lt_zero j), fun _ _ _ => rfl, fun _ _ => rfl⟩
  | n + 1, h1, h => by
    simp only [clear_loop] at h
    obtain ⟨h2, e2, e3⟩ := Res.bind_eq_ok.mp h
    obtain ⟨a1, a2, a3⟩ := clear_loop_slots hp t n h2 e2
    obtain ⟨b1, b2⟩ := store_slot_slot h2 t n 0 h1 e3
    have b3 := store_slot_rows h2 t n 0 h1 e3
    simp only [Int.toNat_ofNat] at b1 b2
    refine ⟨?_, ?_, ?_⟩
    · intro j hj
      by_cases hjn : j = n
      · rw [hjn]; exact b1
      · rw [b2 t j (Or.inr hjn)]
        exact a1 j (by omega)
    · intro u j huj
      have hne : u ≠ t ∨ j ≠ n := by
        rcases huj with h | h
        · exact Or.inl h
        · exact Or.inr (by omega)
      rw [b2 u j hne]
      exact a2 u j (by
        rcases huj with h | h
        · exact Or.inl h
        · exact Or.inr (by omega))
    · intro u hu
      rw [b3 u hu, a3 u hu]

theorem clear_loop_total (hp : isc_hp) (hwf : WF hp) (t : Nat) (ht : t < HP_MAX_THREADS) :
    ∀ n, n ≤ ROW_WORDS → ∃ h1, clear_loop hp t n = .ok h1
  | 0, _ => ⟨hp, rfl⟩
  | n + 1, h => by
    obtain ⟨h2, e2⟩ := clear_loop_total hp hwf t ht n (by omega)
    have hwf2 := (clear_loop_WF hp hwf t n h2 e2).1
    obtain ⟨h1, e1⟩ := store_slot_total h2 hwf2 t n 0 ht (by omega) (by exact_mod_cast h)
    exact ⟨h1, by simp only [clear_loop, e2, Res.bind_ok, e1]⟩

theorem clear_loop_fixed (hp : isc_hp) (t : Nat) :
    ∀ n, (∀ j, j < n → slot hp t j = some 0) → clear_loop hp t n = .ok hp
  | 0, _ => rfl
  | n + 1, h => by
    simp only [clear_loop, clear_loop_fixed hp t n (fun j hj => h j (by omega)), Res.bind_ok]
    exact store_slot_same hp t n 0 (h n (by omega))

theorem clear_loop_fold (hp : isc_hp) (t : Nat) :
    ∀ n, clear_loop hp t n =
      (List.range n).foldl (fun r i => r.bind (fun h => isc_hp_clear_one h t i)) (.ok hp)
  | 0 => rfl
  | n + 1 => by
    rw [clear_loop, clear_loop_fold hp t n, List.range_succ, List.foldl_append]
    rfl

/-- C14 (clear and clearAll): `isc_hp_clear_one(hp, ihp)` with `ihp` in `[0, K)` leaves
slot `(t, ihp)` zero and every other slot unchanged; `isc_hp_clear(hp)` leaves all `K`
slots of `t` zero and every other word unchanged, and is the composition of
`isc_hp_clear_one` for `ihp = 0 .. K-1`; repeating either call changes nothing. -/
theorem C14_clear (hp : isc_hp) (t : Nat) (ihp : Int) (hwf : WF hp)
    (ht : t < HP_MAX_THREADS) (h0 : 0 ≤ ihp) (hK : ihp < hp.max_hps) :
    (∃ h1, isc_hp_clear_one hp t ihp = .ok h1 ∧ slot h1 t ihp.toNat = some 0 ∧
      (∀ u j : Nat, (u ≠ t ∨ j ≠ ihp.toNat) → slot h1 u j = slot hp u j) ∧
      isc_hp_clear_one h1 t ihp = .ok h1) ∧
    (∃ h2, isc_hp_clear hp t = .ok h2 ∧
      (∀ j : Nat, (j : Int) < hp.max_hps → slot h2 t j = some 0) ∧
      (∀ u j : Nat, (u ≠ t ∨ hp.max_hps ≤ (j : Int)) → slot h2 u j = slot hp u j) ∧
      isc_hp_clear h2 t = .ok h2) ∧
    isc_hp_clear hp t =
      (List.range hp.max_hps.toNat).foldl
        (fun r i => r.bind (fun h => isc_hp_clear_one h t i)) (.ok hp) := by
  refine ⟨?_, ?_, clear_loop_fold hp t _⟩
  · obtain ⟨h1, hs⟩ := store_slot_total hp hwf t ihp 0 ht h0 (lt_of_lt_of_le hK hwf.1)
    obtain ⟨s1, s2⟩ := store_slot_slot hp t ihp 0 h1 hs
    refine ⟨h1, hs, s1, s2, ?_⟩
    have := store_slot_same h1 t ihp.toNat 0 s1
    rwa [Int.toNat_of_nonneg h0] at this
  · obtain ⟨h2, hc⟩ := clear_loop_total hp hwf t ht hp.max_hps.toNat (by
      have := hwf.1
      omega)
    obtain ⟨c1, c2, -⟩ := clear_loop_slots hp t _ h2 hc
    have hk2 : h2.max_hps = hp.max_hps := (clear_loop_WF hp hwf t _ h2 hc).2.2
    refine ⟨h2, hc, fun j hj => c1 j (by omega), ?_, ?_⟩
    · intro u j huj
      exact c2 u j (by
        rcases huj with h | h
        · exact Or.inl h
        · exact Or.inr (by omega))
    · simp only [isc_hp_clear, hk2]
      exact clear_loop_fixed h2 t _ c1

theorem C14_clear_witness :
    (∃ h1, isc_hp_clear_one demo_protected 0 0 = .ok h1 ∧ slot h1 0 (0 : Int).toNat = some 0 ∧
      (∀ u j : Nat, (u ≠ 0 ∨ j ≠ (0 : Int).toNat) → slot h1 u j = slot demo_protected u j) ∧
      isc_hp_clear_one h1 0 0 = .ok h1) ∧
    (∃ h2, isc_hp_clear demo_protected 0 = .ok h2 ∧
      (∀ j : Nat, (j : Int) < demo_protected.max_hps → slot h2 0 j = some 0) ∧
      (∀ u j : Nat, (u ≠ 0 ∨ demo_protected.max_hps ≤ (j : Int)) →
        slot h2 u j = slot demo_protected u j) ∧
      isc_hp_clear h2 0 = .ok h2) ∧
    isc_hp_clear demo_protected 0 =
      (List.range demo_protected.max_hps.toNat).foldl
        (fun r i => r.bind (fun h => isc_hp_clear_one h 0 i)) (.ok demo_protected) :=
  C14_clear demo_protected 0 0 demo_protected_WF (by decide) (by decide) (by decide)

/-! ## Runs in which nothing is protected -/

theorem retired_ids_cons (op : Op) (rest : List Op) :
    retired_ids (op :: rest) = retired_ids [op] ++ retired_ids rest := by
  cases op <;> simp [retired_ids]

/-- One call that protects nothing, in a domain above `INT_MIN` whose slots are all zero and
whose lists are all empty: the call returns, `deletefunc` is called on the retired identity
(if the call is a `retire`) and on nothing else, and afterwards all slots are zero and all
lists empty again. -/
theorem step_unprotecting (hp : isc_hp) (op : Op) (hwf : WF hp) (hmin : INT_MIN < hp.max_hps)
    (hzero : ∀ u j : Nat, u < HP_MAX_THREADS → (j : Int) < hp.max_hps → slot hp u j = some 0)
    (hempty : ∀ u, retired hp u = [])
    (hop : unprotecting hp.max_hps op) :
    ∃ hp1, step hp op = .ok (hp1, retired_ids [op]) ∧ WF hp1 ∧ hp1.max_hps = hp.max_hps ∧
      (∀ u j : Nat, u < HP_MAX_THREADS → (j : Int) < hp1.max_hps → slot hp1 u j = some 0) ∧
      (∀ u, retired hp1 u = []) := by
  cases op with
  | protect t ihp loads => exact False.elim hop
  | protect_ptr t ihp ptr => exact False.elim hop
  | protect_release t ihp ptr => exact False.elim hop
  | clear_one t ihp =>
    obtain ⟨ht, h0, hK⟩ := hop
    have hj : ((ihp.toNat : Nat) : Int) = ihp := Int.toNat_of_nonneg h0
    have hs : store_slot hp t ihp 0 = .ok hp := by
      have := store_slot_same hp t ihp.toNat 0 (hzero t ihp.toNat ht (by omega))
      rwa [hj] at this
    refine ⟨hp, ?_, hwf, rfl, hzero, hempty⟩
    simp only [step, isc_hp_clear_one, hs, Res.bind_ok, retired_ids]
  | clear t =>
    have ht : t < HP_MAX_THREADS := hop
    have hs : clear_loop hp t hp.max_hps.toNat = .ok hp :=
      clear_loop_fixed hp t _ (fun j hj => hzero t j ht (by omega))
    refine ⟨hp, ?_, hwf, rfl, hzero, hempty⟩
    simp only [step, isc_hp_clear, hs, Res.bind_ok, retired_ids]
  | retire t R =>
    obtain ⟨ht, hR⟩ := hop
    obtain ⟨hp1, heq, b1, b2, b3, b4, b5⟩ :=
      retire_unprotected hp t R hwf hmin ht hR hzero (hempty t)
    refine ⟨hp1, ?_, b3, b5, ?_, ?_⟩
    · simp only [step, heq, retired_ids]
    · intro u j hu hj
      have := hzero u j hu (by rw [← b5]; exact hj)
      simpa only [slot, b4] using this
    · intro u
      by_cases hu : u = t
      · rw [hu]; exact b1
      · rw [b2 u hu]; exact hempty u

theorem run_unprotecting : ∀ (ops : List Op) (hp : isc_hp), WF hp → INT_MIN < hp.max_hps →
    (∀ u j : Nat, u < HP_MAX_THREADS → (j : Int) < hp.max_hps → slot hp u j = some 0) →
    (∀ u, retired hp u = []) →
    (∀ op ∈ ops, unprotecting hp.max_hps op) →
    ∃ s, run hp ops = .ok (s, retired_ids ops) ∧ ∀ u, retired s u = []
  | [], hp, _, _, _, hempty, _ => ⟨hp, rfl, hempty⟩
  | op :: rest, hp, hwf, hmin, hzero, hempty, hops => by
    obtain ⟨hp1, heq, b1, b2, b3, b4⟩ :=
      step_unprotecting hp op hwf hmin hzero hempty (hops op (by simp))
    obtain ⟨s, hrun, hs⟩ :=
      run_unprotecting rest hp1 b1 (by rw [b2]; exact hmin) b3 b4
        (fun x hx => by rw [b2]; exact hops x (by simp [hx]))
    refine ⟨s, ?_, hs⟩
    rw [retired_ids_cons]
    simp only [run, heq, Res.bind_ok, hrun]

/-- C10 as stated fails in the domain of `isc_hp_new(mctx, 2147483648, deletefunc)`, whose
`max_hps` is `INT_MIN`: the domain has no slot that is not zero (every word of every row is
zero) and the list of thread 0 is empty, yet `retire(7)` by thread 0 does not pass 7 to
`deletefunc`: `max_hps-1` overflows and the first load of the scan, at index `INT_MAX` of
row 0, is outside the row. -/
theorem C10_counterexample :
    isc_hp_new 2147483648 (fun _ _ => 0) = .ok demo_min ∧
      demo_min.max_hps = INT_MIN ∧
      (∀ u j : Nat, u < HP_MAX_THREADS → (j : Int) < demo_min.max_hps →
        slot demo_min u j = some 0) ∧
      (∀ u j : Nat, u < HP_MAX_THREADS → j < ROW_WORDS → slot demo_min u j = some 0) ∧
      retired demo_min 0 = [] ∧
      isc_hp_retire demo_min 0 7 = .fail .outOfBounds :=
  ⟨demo_min_new, rfl, (isc_hp_new_ok _ _ _ demo_min_new).2.1, demo_min_zero, by decide!,
    demo_min_retire⟩

/-- C10 (unprotected retire is immediate), amended to domains whose `max_hps` is above
`INT_MIN`: when every slot of every thread is zero and the retire list of the caller is
empty, `retire(R)` for nonzero `R` passes exactly `R`, once, to `deletefunc` and leaves the
list of the caller empty; hence any run of `retire`, `clear` and `clear_one` calls (a run in
which nothing is protected) from a freshly created domain returns, reclaims each retired
identity within its own call, and leaves every retire list empty after every call. -/
theorem C10_unprotected_retire_immediate (hp : isc_hp) (t R : Nat) (hwf : WF hp)
    (hmin : INT_MIN < hp.max_hps) (ht : t < HP_MAX_THREADS) (hR : R ≠ 0)
    (hzero : ∀ u j : Nat, u < HP_MAX_THREADS → (j : Int) < hp.max_hps → slot hp u j = some 0)
    (hempty : retired hp t = []) :
    (∃ hp1, isc_hp_retire hp t R = .ok (hp1, [R]) ∧ retired hp1 t = []) ∧
    (∀ (m : Nat) (junk : Nat → Nat → Nat) (hp0 : isc_hp) (ops : List Op),
      isc_hp_new m junk = .ok hp0 → INT_MIN < hp0.max_hps →
      (∀ op ∈ ops, unprotecting hp0.max_hps op) →
      ∃ s, run hp0 ops = .ok (s, retired_ids ops) ∧ ∀ u, retired s u = []) := by
  constructor
  · obtain ⟨hp1, h1, h2, -⟩ := retire_unprotected hp t R hwf hmin ht hR hzero hempty
    exact ⟨hp1, h1, h2⟩
  · intro m junk hp0 ops hnew hmin0 hops
    obtain ⟨a1, a2, a3⟩ := isc_hp_new_ok m junk hp0 hnew
    exact run_unprotecting ops hp0 a1 hmin0 a2 a3 hops

theorem C10_unprotected_retire_immediate_witness :
    (∃ hp1, isc_hp_retire demo_fresh 3 7 = .ok (hp1, [7]) ∧ retired hp1 3 = []) ∧
    (∀ (m : Nat) (junk : Nat → Nat → Nat) (hp0 : isc_hp) (ops : List Op),
      isc_hp_new m junk = .ok hp0 → INT_MIN < hp0.max_hps →
      (∀ op ∈ ops, unprotecting hp0.max_hps op) →
      ∃ s, run hp0 ops = .ok (s, retired_ids ops) ∧ ∀ u, retired s u = []) :=
  C10_unprotected_retire_immediate demo_fresh 3 7 demo_fresh_WF (by decide) (by decide)
    (by decide) (isc_hp_new_ok 1 (fun _ _ => 0) demo_fresh demo_fresh_new).2.1 (by decide!)

/-! ## Single-writer frame -/

theorem protect_loop_rows (t : Nat) (ihp : Int) :
    ∀ (loads : List Nat) (n : Nat) (hp : isc_hp) (tr : List Ev) (r : Nat) (hp1 : isc_hp)
      (tr1 : List Ev), protect_loop t ihp loads n hp tr = .ok (r, hp1, tr1) →
      ∀ u, u ≠ t → hp1.hp[u]? = hp.hp[u]?
  | [], n, hp, tr, r, hp1, tr1, h => by
    simp [protect_loop] at h
  | ret :: rest, n, hp, tr, r, hp1, tr1, h => by
    rw [protect_loop] at h
    by_cases hc : ret ≠ n
    · rw [if_pos hc] at h
      cases hs : store_slot hp t ihp ret with
      | fail e => simp [hs] at h
      | ok hp2 =>
        simp only [hs] at h
        intro u hu
        rw [protect_loop_rows t ihp rest ret hp2 _ r hp1 tr1 h u hu,
          store_slot_rows hp t ihp ret hp2 hs u hu]
    · rw [if_neg hc] at h
      injection h with h
      injection h with h1 h2
      injection h2 with h2 h3
      subst h2
      exact fun _ _ => rfl

theorem step_rows (hp : isc_hp) (op : Op) (hp1 : isc_hp) (log : List Nat)
    (hop : ∀ t ptr, op ≠ .retire t ptr) (h : step hp op = .ok (hp1, log)) :
    ∀ u, u ≠ op.thread → hp1.hp[u]? = hp.hp[u]? := by
  cases op with
  | protect t ihp loads =>
    simp only [step] at h
    obtain ⟨r, h1, h2⟩ := Res.bind_eq_ok.mp h
    injection h2 with h2
    injection h2 with h2 h3
    obtain ⟨v, hp2, tr⟩ := r
    simp only at h2
    subst h2
    exact protect_loop_rows t ihp loads 0 hp [] v _ tr h1
  | protect_ptr t ihp ptr =>
    simp only [step, isc_hp_protect_ptr] at h
    obtain ⟨r, h1, h2⟩ := Res.bind_eq_ok.mp h
    obtain ⟨hp2, h3, h4⟩ := Res.bind_eq_ok.mp h1
    injection h4 with h4
    subst h4
    injection h2 with h2
    injection h2 with h2 h5
    simp only at h2
    subst h2
    exact store_slot_rows hp t ihp ptr _ h3
  | protect_release t ihp ptr =>
    simp only [step, isc_hp_protect_release] at h
    obtain ⟨r, h1, h2⟩ := Res.bind_eq_ok.mp h
    obtain ⟨hp2, h3, h4⟩ := Res.bind_eq_ok.mp h1
    injection h4 with h4
    subst h4
    injection h2 with h2
    injection h2 with h2 h5
    simp only at h2
    subst h2
    exact store_slot_rows hp t ihp ptr _ h3
  | clear_one t ihp =>
    simp only [step, isc_hp_clear_one] at h
    obtain ⟨hp2, h1, h2⟩ := Res.bind_eq_ok.mp h
    injection h2 with h2
    injection h2 with h2 h5
    subst h2
    exact store_slot_rows hp t ihp 0 _ h1
  | clear t =>
    simp only [step, isc_hp_clear] at h
    obtain ⟨hp2, h1, h2⟩ := Res.bind_eq_ok.mp h
    injection h2 with h2
    injection h2 with h2 h5
    subst h2
    exact (clear_loop_slots hp t _ _ h1).2.2
  | retire t ptr => exact absurd rfl (hop t ptr)

/-- C15 (single-writer frame): a call by the thread with handle `t` that returns changes
only data of `t`.  `isc_hp_protect`, `isc_hp_protect_ptr`, `isc_hp_protect_release`,
`isc_hp_clear_one` and `isc_hp_clear` leave the rows of all threads `u != t` and all retire
lists unchanged; `isc_hp_retire` leaves every row and the retire lists of all threads
`u != t` unchanged. -/
theorem C15_single_writer (hp : isc_hp) (op : Op) (hp1 : isc_hp) (log : List Nat)
    (hwf : WF hp) (h : step hp op = .ok (hp1, log)) :
    ((∀ t ptr, op ≠ .retire t ptr) →
      (∀ u, u ≠ op.thread → hp1.hp[u]? = hp.hp[u]?) ∧ hp1.rl = hp.rl) ∧
    ((∃ t ptr, op = .retire t ptr) →
      hp1.hp = hp.hp ∧ ∀ u, u ≠ op.thread → hp1.rl[u]? = hp.rl[u]?) := by
  constructor
  · intro hop
    exact ⟨step_rows hp op hp1 log hop h, (step_rl hp hwf op hp1 log hop h).1⟩
  · rintro ⟨t, ptr, rfl⟩
    simp only [step] at h
    obtain ⟨-, -, -, a1, -, -, -, a2⟩ := isc_hp_retire_ok hp hwf t ptr hp1 log h
    exact ⟨a1, a2⟩

theorem C15_single_writer_witness :
    ((∀ t ptr, Op.retire 1 6 ≠ .retire t ptr) →
      (∀ u, u ≠ (Op.retire 1 6).thread → demo_after.hp[u]? = demo_pending.hp[u]?) ∧
        demo_after.rl = demo_pending.rl) ∧
    ((∃ t ptr, Op.retire 1 6 = .retire t ptr) →
      demo_after.hp = demo_pending.hp ∧
        ∀ u, u ≠ (Op.retire 1 6).thread → demo_after.rl[u]? = demo_pending.rl[u]?) :=
  C15_single_writer demo_pending (.retire 1 6) demo_after [5] demo_pending_WF
    demo_retire_after

/-! ## Termination -/

theorem protect_loop_alternating (hp0 : isc_hp) (t : Nat) (ihp : Int)
    (ht : t < HP_MAX_THREADS) (h0 : 0 ≤ ihp) (hhi : ihp < ROW_WORDS) :
    ∀ (k a n : Nat) (hp : isc_hp) (tr : List Ev), WF hp → (a = 1 ∨ a = 2) → n ≠ a →
      protect_loop t ihp (alternating k a) n hp tr = .fail .pending
  | 0, a, n, hp, tr, _, _, _ => rfl
  | k + 1, a, n, hp, tr, hwf, ha, hn => by
    obtain ⟨hp1, hs⟩ := store_slot_total hp hwf t ihp a ht h0 hhi
    have hwf1 := (store_slot_WF hp hwf t ihp a hp1 hs).1
    rw [alternating, protect_loop, if_pos (Ne.symm hn)]
    simp only [hs]
    exact protect_loop_alternating hp0 t ihp ht h0 hhi k (3 - a) a hp1 _ hwf1 (by omega)
      (by omega)

/-- The loop of `isc_hp_protect` on loads of which each differs from the one before it: it
has not returned when the loads are used up. -/
theorem protect_loop_changing (t : Nat) (ihp : Int) (ht : t < HP_MAX_THREADS) (h0 : 0 ≤ ihp)
    (hhi : ihp < ROW_WORDS) :
    ∀ (loads : List Nat) (n : Nat) (hp : isc_hp) (tr : List Ev), WF hp →
      changing n loads = true → protect_loop t ihp loads n hp tr = .fail .pending
  | [], n, hp, tr, _, _ => rfl
  | a :: rest, n, hp, tr, hwf, hch => by
    simp only [changing, Bool.and_eq_true, bne_iff_ne, ne_eq] at hch
    obtain ⟨hp1, hs⟩ := store_slot_total hp hwf t ihp a ht h0 hhi
    have hwf1 := (store_slot_WF hp hwf t ihp a hp1 hs).1
    rw [protect_loop, if_pos hch.1]
    simp only [hs]
    exact protect_loop_changing t ihp ht h0 hhi rest a hp1 _ hwf1 hch.2

/-- C16 as stated fails for `isc_hp_protect`: on a source that presents 1, 2, 1, 2, ...
the call has not returned after any number of loads (each load differs from the value
just published, so the loop goes round again).  It also fails for the scan of
`isc_hp_retire` in the domain of `isc_hp_new(mctx, 2147483648, deletefunc)`, whose `max_hps`
is `INT_MIN`: the scan does not complete, its first load being outside row 0. -/
theorem C16_counterexample :
    (isc_hp_new 1 (fun _ _ => 0) = .ok demo_fresh ∧
      alternating 6 1 = [1, 2, 1, 2, 1, 2] ∧
      ∀ k, isc_hp_protect demo_fresh 0 0 (alternating k 1) = .fail .pending) ∧
    (isc_hp_new 2147483648 (fun _ _ => 0) = .ok demo_min ∧
      demo_min.max_hps = INT_MIN ∧
      isc_hp_retire demo_min 0 7 = .fail .outOfBounds) :=
  ⟨⟨demo_fresh_new, rfl, fun k =>
    protect_loop_alternating demo_fresh 0 0 (by decide) (by decide) (by decide) k 1 0
      demo_fresh [] demo_fresh_WF (Or.inl rfl) (by decide)⟩,
    ⟨demo_min_new, rfl, demo_min_retire⟩⟩

theorem protect_loop_stable (t : Nat) (ihp : Int) (ht : t < HP_MAX_THREADS) (h0 : 0 ≤ ihp)
    (hhi : ihp < ROW_WORDS) (v : Nat) (rest : List Nat) :
    ∀ (pre : List Nat) (n : Nat) (hp : isc_hp) (tr : List Ev), WF hp →
      ∃ r hp1 tr1, protect_loop t ihp (pre ++ v :: v :: rest) n hp tr = .ok (r, hp1, tr1) ∧
        tr1.length ≤ tr.length + 2 * pre.length + 3
  | [], n, hp, tr, hwf => by
    simp only [List.nil_append, List.length_nil]
    rw [protect_loop]
    by_cases hc : v ≠ n
    · rw [if_pos hc]
      obtain ⟨hp1, hs⟩ := store_slot_total hp hwf t ihp v ht h0 hhi
      simp only [hs]
      rw [protect_loop, if_neg (by simp)]
      exact ⟨_, _, _, rfl, by simp⟩
    · rw [if_neg hc]
      exact ⟨_, _, _, rfl, by simp⟩
  | a :: pre, n, hp, tr, hwf => by
    simp only [List.cons_append, List.length_cons]
    rw [protect_loop]
    by_cases hc : a ≠ n
    · rw [if_pos hc]
      obtain ⟨hp1, hs⟩ := store_slot_total hp hwf t ihp a ht h0 hhi
      have hwf1 := (store_slot_WF hp hwf t ihp a hp1 hs).1
      simp only [hs]
      obtain ⟨r, hp2, tr1, h1, h2⟩ :=
        protect_loop_stable t ihp ht h0 hhi v rest pre a hp1
          (tr ++ [Ev.load a, Ev.store a]) hwf1
      refine ⟨r, hp2, tr1, h1, ?_⟩
      simp only [List.length_append, List.length_cons, List.length_nil] at h2
      omega
    · rw [if_neg hc]
      exact ⟨_, _, _, rfl, by simp; omega⟩

/-- C16 (every operation is finite-step), amended: in a domain whose `max_hps` is above
`INT_MIN` the scan loop of `isc_hp_retire` returns within `size` iterations, so
`isc_hp_retire` returns or fails its assertion; `isc_hp_clear` and `isc_hp_destroy` return;
`isc_hp_protect` returns once a load reads the value that the load before it read (or 0 at
the first load), after at most that many loads, whatever was read before; on loads of which
the first is not 0 and each differs from the one before it, it has not returned after any
number of loads. -/
theorem C16_finite_step (hp : isc_hp) (t ptr : Nat) (ihp : Int) (pre : List Nat) (v : Nat)
    (rest : List Nat) (hwf : WF hp) (ht : t < HP_MAX_THREADS) (h0 : 0 ≤ ihp)
    (hhi : ihp < ROW_WORDS) :
    (INT_MIN < hp.max_hps →
      ∀ rl, WFrl rl → ∃ r, retire_scan hp rl.size.toNat 0 rl [] = .ok r) ∧
    (INT_MIN < hp.max_hps →
      isc_hp_retire hp t ptr = .fail .assertion ∨
        ∃ hp1 log, isc_hp_retire hp t ptr = .ok (hp1, log)) ∧
    (∃ hp1, isc_hp_clear hp t = .ok hp1) ∧
    (∃ log, isc_hp_destroy hp = .ok log) ∧
    (∃ r hp1 tr, isc_hp_protect hp t ihp (pre ++ v :: v :: rest) = .ok (r, hp1, tr) ∧
      tr.length ≤ 2 * pre.length + 3) ∧
    isc_hp_protect hp t ihp (0 :: rest) = .ok (0, hp, [Ev.load 0]) ∧
    (∀ loads, changing 0 loads = true →
      isc_hp_protect hp t ihp loads = .fail .pending) := by
  refine ⟨?_, ?_, ?_, ?_, ?_, rfl, ?_⟩
  · intro hmin rl hrl
    obtain ⟨rl1, h1, -⟩ := retire_scan_refines hp hwf hmin rl.size.toNat 0 rl [] hrl (by
      have := hrl.1
      omega)
    exact ⟨_, h1⟩
  · intro hmin
    obtain ⟨rl, -, hrl, hfail, hok, -⟩ := isc_hp_retire_eq hp hwf t ptr ht
    by_cases hlt : rl.size + 1 < (MAX_RETIRED : Int)
    · obtain ⟨rl2, heq, -⟩ := hok hlt hmin
      exact Or.inr ⟨_, _, heq⟩
    · exact Or.inl (hfail (by omega))
  · exact clear_loop_total hp hwf t ht _ (by
      have := hwf.1
      omega)
  · obtain ⟨-, -, -, hlen, hrl⟩ := hwf
    exact ⟨_, destroy_loop_eq hp hrl HP_MAX_THREADS (by omega)⟩
  · obtain ⟨r, hp1, tr, h1, h2⟩ :=
      protect_loop_stable t ihp ht h0 hhi v rest pre 0 hp [] hwf
    exact ⟨r, hp1, tr, h1, by simpa using h2⟩
  · intro loads hch
    exact protect_loop_changing t ihp ht h0 hhi loads 0 hp [] hwf hch

theorem C16_finite_step_witness :
    (INT_MIN < demo_fresh.max_hps →
      ∀ rl, WFrl rl → ∃ r, retire_scan demo_fresh rl.size.toNat 0 rl [] = .ok r) ∧
    (INT_MIN < demo_fresh.max_hps →
      isc_hp_retire demo_fresh 0 7 = .fail .assertion ∨
        ∃ hp1 log, isc_hp_retire demo_fresh 0 7 = .ok (hp1, log)) ∧
    (∃ hp1, isc_hp_clear demo_fresh 0 = .ok hp1) ∧
    (∃ log, isc_hp_destroy demo_fresh = .ok log) ∧
    (∃ r hp1 tr, isc_hp_protect demo_fresh 0 0 ([5] ++ 7 :: 7 :: []) = .ok (r, hp1, tr) ∧
      tr.length ≤ 2 * [5].length + 3) ∧
    isc_hp_protect demo_fresh 0 0 (0 :: []) = .ok (0, demo_fresh, [Ev.load 0]) ∧
    (∀ loads, changing 0 loads = true →
      isc_hp_protect demo_fresh 0 0 loads = .fail .pending) :=
  C16_finite_step demo_fresh 0 7 0 [5] 7 [] demo_fresh_WF (by decide) (by decide) (by decide)

/-! ## Bounded reclamation, list bounds, identity zero -/

/-- C17 (bounded reclamation by the owning thread): if `P` is the entry at index `i` of
the retire list of thread `t` and no slot holds `P` in any state of the run that follows,
whatever the other entries and slots are, then once the run contains `i + 1` retire calls
by `t` (all calls returning normally) `P` has been passed to `deletefunc`. -/
theorem C17_bounded_reclamation (s : isc_hp) (t P i : Nat) (ops : List Op) (s1 : isc_hp)
    (log : List Nat) (hwf : WF s) (hidx : (retired s t)[i]? = some P)
    (hnever : ∀ x ∈ run_states s ops, ¬ Held x P)
    (hcalls : i + 1 ≤ retire_calls t ops)
    (hrun : run s ops = .ok (s1, log)) :
    P ∈ log :=
  run_reclaims t P ops s i s1 log hwf hidx hnever hcalls hrun

theorem C17_bounded_reclamation_witness : 5 ∈ [9, 5] :=
  C17_bounded_reclamation demo_pending 1 5 0 [.retire 2 9, .retire 1 6] demo_after [9, 5]
    demo_pending_WF (by decide!) (by decide!) (by decide) (by decide!)

/-- C18 (retire-list bound and in-bounds access): in every state reached from
`isc_hp_new` by calls that return normally, every retire list has
`0 <= size <= MAX_RETIRED - 1 = 511` and an array of `MAX_RETIRED` words.  Under this
invariant the accesses of `isc_hp_retire` to `list[]` stay inside the array: the append at
index `size` is in bounds; for every list within the invariant and every `iret < size` the
read of `list[iret]` is in bounds, and so is the compaction, which copies `size - iret`
words from index `iret + 1`, the last of them from index `size`, and leaves a list within
the invariant.  Hence the call returns normally (with lists within the invariant) or fails
its assertion when `max_hps` is above `INT_MIN`; when `max_hps` is `INT_MIN` and the
assertion holds, the access that leaves its block is the load from the row `hp->hp[0]`, not
an access to `list[]`. -/
theorem C18_retire_list_bounds (m : Nat) (junk : Nat → Nat → Nat) (hp0 : isc_hp)
    (pre : List Op) (s : isc_hp) (log0 : List Nat) (t ptr : Nat)
    (hnew : isc_hp_new m junk = .ok hp0) (hrun : run hp0 pre = .ok (s, log0))
    (ht : t < HP_MAX_THREADS) :
    (∀ r ∈ s.rl, 0 ≤ r.size ∧ r.size ≤ 511 ∧ r.list.length = MAX_RETIRED) ∧
    (MAX_RETIRED : Int) - 1 = 511 ∧
    (∃ rl l1, s.rl[t]? = some rl ∧ store_word rl.list rl.size ptr = .ok l1) ∧
    (∀ (rl : retirelist) (iret : Nat),
      0 ≤ rl.size ∧ rl.size ≤ 511 ∧ rl.list.length = MAX_RETIRED → (iret : Int) < rl.size →
      (∃ obj, rl.list[iret]? = some obj) ∧
      iret + 1 + (rl.size - iret).toNat = rl.size.toNat + 1 ∧ rl.size.toNat < MAX_RETIRED ∧
      ∃ l1, memmove rl.list iret (iret + 1) (rl.size - iret).toNat = .ok l1 ∧
        0 ≤ rl.size - 1 ∧ rl.size - 1 ≤ 511 ∧ l1.length = MAX_RETIRED) ∧
    (INT_MIN < s.max_hps →
      isc_hp_retire s t ptr = .fail .assertion ∨
        ∃ s1 log, isc_hp_retire s t ptr = .ok (s1, log) ∧
          ∀ r ∈ s1.rl, 0 ≤ r.size ∧ r.size ≤ 511 ∧ r.list.length = MAX_RETIRED) ∧
    (s.max_hps ≤ INT_MIN →
      isc_hp_retire s t ptr = .fail .assertion ∨
        (isc_hp_retire s t ptr = .fail .outOfBounds ∧
          ∀ obj, can_delete s obj = .fail .outOfBounds)) := by
  have hwf0 := (isc_hp_new_ok m junk hp0 hnew).1
  have hwf := (run_WF pre hp0 s log0 hwf0 hrun).1
  have hM : (MAX_RETIRED : Int) = 512 := rfl
  have hbound : ∀ x : isc_hp, WF x →
      ∀ r ∈ x.rl, 0 ≤ r.size ∧ r.size ≤ 511 ∧ r.list.length = MAX_RETIRED := by
    intro x hx r hr
    obtain ⟨a, b, c⟩ := hx.2.2.2.2 r hr
    exact ⟨a, by omega, c⟩
  obtain ⟨rl, hget, hrl, hfail, hok, hover⟩ := isc_hp_retire_eq s hwf t ptr ht
  refine ⟨hbound s hwf, by rw [hM]; rfl, ?_, ?_, ?_, ?_⟩
  · refine ⟨rl, rl.list.set rl.size.toNat ptr, hget, ?_⟩
    obtain ⟨a, b, c⟩ := hrl
    rw [store_word, if_pos ⟨a, by omega⟩]
  · intro r iret hr hlt
    obtain ⟨a, b, c⟩ := hr
    have hwr : WFrl r := ⟨a, by omega, c⟩
    obtain ⟨l1, hmm, hl1, -⟩ := memmove_entries r iret hwr hlt
    have hi : iret < r.list.length := by omega
    exact ⟨⟨_, List.getElem?_eq_getElem hi⟩, by omega, by omega, l1, hmm, by omega, by omega,
      hl1⟩
  · intro hmin
    by_cases hlt : rl.size + 1 < (MAX_RETIRED : Int)
    · obtain ⟨rl2, heq, -, hwf2⟩ := hok hlt hmin
      exact Or.inr ⟨_, _, heq, hbound _ (WF_set_rl s hwf t rl2 hwf2)⟩
    · exact Or.inl (hfail (by omega))
  · intro hmin
    by_cases hlt : rl.size + 1 < (MAX_RETIRED : Int)
    · exact Or.inr ⟨hover hlt hmin, fun obj => can_delete_overflow s obj hwf hmin⟩
    · exact Or.inl (hfail (by omega))

theorem C18_retire_list_bounds_witness :
    (∀ r ∈ demo_pending.rl, 0 ≤ r.size ∧ r.size ≤ 511 ∧ r.list.length = MAX_RETIRED) ∧
    (MAX_RETIRED : Int) - 1 = 511 ∧
    (∃ rl l1, demo_pending.rl[1]? = some rl ∧ store_word rl.list rl.size 6 = .ok l1) ∧
    (∀ (rl : retirelist) (iret : Nat),
      0 ≤ rl.size ∧ rl.size ≤ 511 ∧ rl.list.length = MAX_RETIRED → (iret : Int) < rl.size →
      (∃ obj, rl.list[iret]? = some obj) ∧
      iret + 1 + (rl.size - iret).toNat = rl.size.toNat + 1 ∧ rl.size.toNat < MAX_RETIRED ∧
      ∃ l1, memmove rl.list iret (iret + 1) (rl.size - iret).toNat = .ok l1 ∧
        0 ≤ rl.size - 1 ∧ rl.size - 1 ≤ 511 ∧ l1.length = MAX_RETIRED) ∧
    (INT_MIN < demo_pending.max_hps →
      isc_hp_retire demo_pending 1 6 = .fail .assertion ∨
        ∃ s1 log, isc_hp_retire demo_pending 1 6 = .ok (s1, log) ∧
          ∀ r ∈ s1.rl, 0 ≤ r.size ∧ r.size ≤ 511 ∧ r.list.length = MAX_RETIRED) ∧
    (demo_pending.max_hps ≤ INT_MIN →
      isc_hp_retire demo_pending 1 6 = .fail .assertion ∨
        (isc_hp_retire demo_pending 1 6 = .fail .outOfBounds ∧
          ∀ obj, can_delete demo_pending obj = .fail .outOfBounds)) :=
  C18_retire_list_bounds 1 (fun _ _ => 0) demo_fresh
    [.protect 0 0 [5, 5], .retire 1 5, .clear_one 0 0] demo_pending [] 1 6
    demo_fresh_new demo_run_pending (by decide)

/-- A held identity occurs in the kept entries as often as in the scanned list. -/
theorem scanL_count_held (held : Nat → Bool) (p : Nat) (hp : held p = true) :
    ∀ (n : Nat) (l : List Nat), l.length ≤ n → (scanL held l).1.count p = l.count p
  | 0, l, h => by
    have : l = [] := List.length_eq_zero.mp (by omega)
    subst this; simp [scanL]
  | n + 1, [], _ => by simp [scanL]
  | n + 1, x :: tl, h => by
    cases hx : held x
    · rw [scanL_cons_free held x tl hx]
      have hne : x ≠ p := by
        rintro rfl; rw [hp] at hx; exact Bool.noConfusion hx
      have ih := scanL_count_held held p hp n (tl.drop 1) (by simp at h ⊢; omega)
      rw [List.count_append, ih, ← List.count_append, List.take_append_drop,
        List.count_cons_of_ne (Ne.symm hne)]
    · rw [scanL_cons_held held x tl hx]
      have ih := scanL_count_held held p hp n tl (by simp at h; omega)
      simp only [List.count_cons, ih]

/-- C19 (identity zero is never reclaimed by a scan): in a state in which some slot
`(u, j)`, `u` in `[0, 128)`, `j` in `[0, K)`, is zero, a retire call that returns does not
pass 0 to `deletefunc`, and 0 occurs in the list of the caller afterwards as often as in
the list extended by the retired identity (it stays, occupying capacity); 0 in a retire
list is passed to `deletefunc` by `isc_hp_destroy`. -/
theorem C19_zero_not_reclaimed (hp : isc_hp) (t ptr : Nat) (hp1 : isc_hp) (log : List Nat)
    (hwf : WF hp)
    (hzero : ∃ u j : Nat, u < HP_MAX_THREADS ∧ (j : Int) < hp.max_hps ∧ slot hp u j = some 0)
    (hret : isc_hp_retire hp t ptr = .ok (hp1, log)) :
    0 ∉ log ∧
    (retired hp1 t).count 0 = (retired hp t ++ [ptr]).count 0 ∧
    (0 ∈ retired hp t → 0 ∈ retired hp1 t) ∧
    (∀ u, u < HP_MAX_THREADS → 0 ∈ retired hp u →
      ∃ dl, isc_hp_destroy hp = .ok dl ∧ 0 ∈ dl) := by
  have hb : heldB hp 0 = true := (heldB_iff hp 0).mpr hzero
  obtain ⟨-, hlog, hkept, -, -, -, -, -⟩ := isc_hp_retire_ok hp hwf t ptr hp1 log hret
  refine ⟨?_, ?_, ?_, ?_⟩
  · intro hmem
    rw [hlog] at hmem
    have := (scanL_reclaimed (heldB hp) _ _ (le_refl _) 0 hmem).2
    rw [hb] at this
    exact Bool.noConfusion this
  · rw [hkept]
    exact scanL_count_held (heldB hp) 0 hb _ _ (le_refl _)
  · intro hin
    rw [hkept]
    exact scanL_keeps_held (heldB hp) 0 hb _ _ (le_refl _) (List.mem_append_left _ hin)
  · intro u hu hin
    obtain ⟨-, -, -, hlen, hrl⟩ := hwf
    refine ⟨_, destroy_loop_eq hp hrl HP_MAX_THREADS (by omega), ?_⟩
    simp only [List.mem_flatten, List.mem_map, List.mem_range]
    exact ⟨retired hp u, ⟨u, hu, rfl⟩, hin⟩

theorem C19_zero_not_reclaimed_witness :
    0 ∉ [7] ∧
    (retired demo_zero 1).count 0 = (retired demo_zero 1 ++ [7]).count 0 ∧
    (0 ∈ retired demo_zero 1 → 0 ∈ retired demo_zero 1) ∧
    (∀ u, u < HP_MAX_THREADS → 0 ∈ retired demo_zero u →
      ∃ dl, isc_hp_destroy demo_zero = .ok dl ∧ 0 ∈ dl) :=
  C19_zero_not_reclaimed demo_zero 1 7 demo_zero [7] (by decide!)
    ⟨0, 0, by decide, by decide, by decide!⟩ (by decide!)

end IscHp

namespace Rdata

open IscHp (Res Fault)

/-! ## `fromwire_tkey` -/

theorem uint16_fromregion_ok (r : List Nat) (h : 2 ≤ r.length) :
    ∃ v, uint16_fromregion r = .ok v := by
  match r, h with
  | hi :: lo :: rest, _ => exact ⟨_, rfl⟩

theorem uint16_fromregion_length (r : List Nat) (v : Nat) (h : uint16_fromregion r = .ok v) :
    2 ≤ r.length := by
  match r, h with
  | hi :: lo :: rest, _ => simp

theorem isc_buffer_active_length (b : isc_buffer) (h1 : b.current ≤ b.active)
    (h2 : b.active ≤ b.base.length) :
    (isc_buffer_active b).length = b.active - b.current := by
  simp only [isc_buffer_active, List.length_drop, List.length_take]
  omega

theorem mem_tobuffer_ok (target : isc_buffer) (bytes : List Nat)
    (h : bytes.length ≤ isc_buffer_available target) :
    mem_tobuffer target bytes =
      (.DNS_R_SUCCESS, { target with base := target.base ++ bytes }) := by
  rw [mem_tobuffer, if_neg (by omega)]

/-- The last stage: success exactly when the region holds a length `o` and `o + 2` bytes. -/
theorem fromwire_tkey_other_spec (sr : List Nat) (source target : isc_buffer)
    (hfwd : source.current + sr.length ≤ source.base.length)
    (hsp : sr.length ≤ isc_buffer_available target) :
    (∃ o, uint16_fromregion sr = .ok o ∧ o + 2 ≤ sr.length ∧
      fromwire_tkey_other sr source target =
        .ok (.DNS_R_SUCCESS, { source with current := source.current + (o + 2) },
             { target with base := target.base ++ sr.take (o + 2) })) ∨
    ((¬ ∃ o, uint16_fromregion sr = .ok o ∧ o + 2 ≤ sr.length) ∧
      ∃ s1 t1, fromwire_tkey_other sr source target = .ok (.DNS_R_UNEXPECTEDEND, s1, t1)) := by
  by_cases h2 : sr.length < 2
  · right
    refine ⟨?_, source, target, by rw [fromwire_tkey_other, if_pos h2]⟩
    rintro ⟨o, ho, -⟩
    have := uint16_fromregion_length sr o ho
    omega
  · obtain ⟨o, ho⟩ := uint16_fromregion_ok sr (by omega)
    by_cases h3 : sr.length < o + 2
    · right
      refine ⟨?_, source, target, ?_⟩
      · rintro ⟨o1, ho1, hlen⟩
        rw [ho] at ho1
        injection ho1 with ho1
        omega
      · rw [fromwire_tkey_other, if_neg h2, ho, Res.bind_ok, if_pos h3]
    · left
      refine ⟨o, ho, by omega, ?_⟩
      have hlen : (sr.take (o + 2)).length = o + 2 := by
        rw [List.length_take]; omega
      rw [fromwire_tkey_other, if_neg h2, ho, Res.bind_ok, if_neg h3, isc_buffer_forward,
        if_pos (by omega), Res.bind_ok, mem_tobuffer_ok target _ (by omega)]

/-- The middle stage, followed by the last one. -/
theorem fromwire_tkey_signature_spec (sr : List Nat) (source target : isc_buffer)
    (hfwd : source.current + sr.length ≤ source.base.length)
    (hsp : sr.length ≤ isc_buffer_available target) :
    (∃ s o, uint16_fromregion sr = .ok s ∧ uint16_fromregion (sr.drop (s + 2)) = .ok o ∧
      s + 2 + (o + 2) ≤ sr.length ∧
      fromwire_tkey_signature sr source target =
        .ok (.DNS_R_SUCCESS, { source with current := source.current + (s + 2 + (o + 2)) },
             { target with base := target.base ++ sr.take (s + 2 + (o + 2)) })) ∨
    ((¬ ∃ s o, uint16_fromregion sr = .ok s ∧ uint16_fromregion (sr.drop (s + 2)) = .ok o ∧
        s + 2 + (o + 2) ≤ sr.length) ∧
      ∃ s1 t1, fromwire_tkey_signature sr source target =
        .ok (.DNS_R_UNEXPECTEDEND, s1, t1)) := by
  by_cases h2 : sr.length < 2
  · right
    refine ⟨?_, source, target, by rw [fromwire_tkey_signature, if_pos h2]⟩
    rintro ⟨s, o, hs, -, -⟩
    have := uint16_fromregion_length sr s hs
    omega
  · obtain ⟨s, hs⟩ := uint16_fromregion_ok sr (by omega)
    by_cases h3 : sr.length < s + 2
    · right
      refine ⟨?_, source, target, ?_⟩
      · rintro ⟨s1, o1, hs1, -, hlen⟩
        rw [hs] at hs1
        injection hs1 with hs1
        omega
      · rw [fromwire_tkey_signature, if_neg h2, hs, Res.bind_ok, if_pos h3]
    · have hlen : (sr.take (s + 2)).length = s + 2 := by
        rw [List.length_take]; omega
      have hstage : fromwire_tkey_signature sr source target =
          fromwire_tkey_other (sr.drop (s + 2))
            { source with current := source.current + (s + 2) }
            { target with base := target.base ++ sr.take (s + 2) } := by
        rw [fromwire_tkey_signature, if_neg h2, hs, Res.bind_ok, if_neg h3,
          mem_tobuffer_ok target _ (by omega)]
        simp only [isc_region_consume, isc_buffer_forward]
        rw [if_pos (by omega), Res.bind_ok, if_pos (by omega), Res.bind_ok]
      have hav : isc_buffer_available
          ({ target with base := target.base ++ sr.take (s + 2) } : isc_buffer) =
          isc_buffer_available target - (s + 2) := by
        simp only [isc_buffer_available, List.length_append, hlen]
        omega
      rcases fromwire_tkey_other_spec (sr.drop (s + 2))
          { source with current := source.current + (s + 2) }
          { target with base := target.base ++ sr.take (s + 2) }
          (by simp only [List.length_drop]; omega)
          (by rw [hav]; simp only [List.length_drop]; omega) with
        ⟨o, ho, hol, heq⟩ | ⟨hno, s1, t1, heq⟩
      · left
        simp only [List.length_drop] at hol
        refine ⟨s, o, hs, ho, by omega, ?_⟩
        rw [hstage, heq]
        have e : sr.take (s + 2) ++ (sr.drop (s + 2)).take (o + 2) =
            sr.take (s + 2 + (o + 2)) := (List.take_add sr (s + 2) (o + 2)).symm
        simp only [List.append_assoc, e, Nat.add_assoc]
      · right
        refine ⟨?_, s1, t1, by rw [hstage, heq]⟩
        rintro ⟨s2, o2, hs2, ho2, hl2⟩
        rw [hs] at hs2
        injection hs2 with hs2
        subst hs2
        exact hno ⟨o2, ho2, by simp only [List.length_drop]; omega⟩

/-- The whole of `fromwire_tkey` on a source with active region `b` and a target that can
take `b`: success with the first `16 + s + o` bytes of `b` appended and consumed, or
`DNS_R_UNEXPECTEDEND`. -/
theorem fromwire_tkey_spec (source target : isc_buffer)
    (hc : source.current ≤ source.active) (ha : source.active ≤ source.base.length)
    (hspace : (isc_buffer_active source).length ≤ isc_buffer_available target) :
    (∃ s o, uint16_fromregion ((isc_buffer_active source).drop 12) = .ok s ∧
      uint16_fromregion ((isc_buffer_active source).drop (14 + s)) = .ok o ∧
      16 + s + o ≤ (isc_buffer_active source).length ∧
      fromwire_tkey 249 source target =
        .ok (.DNS_R_SUCCESS, { source with current := source.current + (16 + s + o) },
             { target with base := target.base ++ (isc_buffer_active source).take (16 + s + o) }))
    ∨
    ((¬ ∃ s o, uint16_fromregion ((isc_buffer_active source).drop 12) = .ok s ∧
        uint16_fromregion ((isc_buffer_active source).drop (14 + s)) = .ok o ∧
        16 + s + o ≤ (isc_buffer_active source).length) ∧
      ∃ s1 t1, fromwire_tkey 249 source target = .ok (.DNS_R_UNEXPECTEDEND, s1, t1)) := by
  have hlenb := isc_buffer_active_length source hc ha
  generalize hb : isc_buffer_active source = b at *
  by_cases h12 : b.length < 12
  · right
    refine ⟨?_, source, target, ?_⟩
    · rintro ⟨s, o, -, -, hl⟩
      omega
    · rw [fromwire_tkey, if_neg (by decide), hb, if_pos h12]
  · have hlen : (b.take 12).length = 12 := by
      rw [List.length_take]; omega
    have hstage : fromwire_tkey 249 source target =
        fromwire_tkey_signature (b.drop 12)
          { source with current := source.current + 12 }
          { target with base := target.base ++ b.take 12 } := by
      rw [fromwire_tkey, if_neg (by decide), hb, if_neg h12,
        mem_tobuffer_ok target _ (by omega)]
      simp only [isc_region_consume, isc_buffer_forward]
      rw [if_pos (by omega), Res.bind_ok, if_pos (by omega), Res.bind_ok]
    have hav : isc_buffer_available
        ({ target with base := target.base ++ b.take 12 } : isc_buffer) =
        isc_buffer_available target - 12 := by
      simp only [isc_buffer_available, List.length_append, hlen]
      omega
    have hdd : ∀ s, (b.drop 12).drop (s + 2) = b.drop (14 + s) := by
      intro s
      rw [List.drop_drop]
      congr 1
      omega
    rcases fromwire_tkey_signature_spec (b.drop 12)
        { source with current := source.current + 12 }
        { target with base := target.base ++ b.take 12 }
        (by simp only [List.length_drop]; omega)
        (by rw [hav]; simp only [List.length_drop]; omega) with
      ⟨s, o, hs, ho, hl, heq⟩ | ⟨hno, s1, t1, heq⟩
    · left
      simp only [List.length_drop] at hl
      rw [hdd] at ho
      refine ⟨s, o, hs, ho, by omega, ?_⟩
      rw [hstage, heq]
      have e : b.take 12 ++ (b.drop 12).take (s + 2 + (o + 2)) = b.take (16 + s + o) := by
        rw [← List.take_add]
        congr 1
        omega
      have e2 : source.current + 12 + (s + 2 + (o + 2)) = source.current + (16 + s + o) := by
        omega
      simp only [List.append_assoc, e, e2]
    · right
      refine ⟨?_, s1, t1, by rw [hstage, heq]⟩
      rintro ⟨s, o, hs, ho, hl⟩
      exact hno ⟨s, o, hs, by rw [hdd]; exact ho, by simp only [List.length_drop]; omega⟩

/-- C20 (TKEY wire decoding validates its embedded lengths): for a source with active
region `b` and a target whose available region can take `b`, `fromwire_tkey` returns
`DNS_R_SUCCESS` if and only if `b` has at least `16 + s + o` bytes, `s` being the
big-endian 16-bit value at offset 12 of `b` and `o` the one at offset `14 + s`; on success
exactly the first `16 + s + o` bytes of `b` are appended to the target and the source is
advanced by exactly `16 + s + o`; otherwise the result is `DNS_R_UNEXPECTEDEND`; and
`towire_tkey` on the appended bytes appends them unchanged. -/
theorem C20_fromwire_tkey_lengths (source target : isc_buffer)
    (hc : source.current ≤ source.active) (ha : source.active ≤ source.base.length)
    (hspace : (isc_buffer_active source).length ≤ isc_buffer_available target) :
    ∃ code source1 target1,
      fromwire_tkey 249 source target = .ok (code, source1, target1) ∧
      (code = .DNS_R_SUCCESS ↔
        ∃ s o, uint16_fromregion ((isc_buffer_active source).drop 12) = .ok s ∧
          uint16_fromregion ((isc_buffer_active source).drop (14 + s)) = .ok o ∧
          16 + s + o ≤ (isc_buffer_active source).length) ∧
      (code ≠ .DNS_R_SUCCESS → code = .DNS_R_UNEXPECTEDEND) ∧
      (code = .DNS_R_SUCCESS →
        ∃ s o, uint16_fromregion ((isc_buffer_active source).drop 12) = .ok s ∧
          uint16_fromregion ((isc_buffer_active source).drop (14 + s)) = .ok o ∧
          target1 =
            { target with
              base := target.base ++ (isc_buffer_active source).take (16 + s + o) } ∧
          source1 = { source with current := source.current + (16 + s + o) } ∧
          isc_buffer_active source1 = (isc_buffer_active source).drop (16 + s + o) ∧
          ∀ t2 : isc_buffer, 16 + s + o ≤ isc_buffer_available t2 →
            towire_tkey 249 ((isc_buffer_active source).take (16 + s + o)) t2 =
              .ok (.DNS_R_SUCCESS,
                { t2 with
                  base := t2.base ++ (isc_buffer_active source).take (16 + s + o) })) := by
  rcases fromwire_tkey_spec source target hc ha hspace with
    ⟨s, o, hs, ho, hl, heq⟩ | ⟨hno, s1, t1, heq⟩
  · refine ⟨_, _, _, heq, ⟨fun _ => ⟨s, o, hs, ho, hl⟩, fun _ => rfl⟩,
      fun h => absurd rfl h, fun _ => ⟨s, o, hs, ho, rfl, rfl, ?_, ?_⟩⟩
    · simp only [isc_buffer_active, List.drop_drop]
    · intro t2 ht2
      have hlen : ((isc_buffer_active source).take (16 + s + o)).length = 16 + s + o := by
        rw [List.length_take]; omega
      rw [towire_tkey, if_neg (by decide), mem_tobuffer_ok t2 _ (by omega)]
  · refine ⟨_, _, _, heq, ⟨fun h => ?_, fun h => absurd h hno⟩, fun _ => rfl, fun h => ?_⟩
    · exact dns_result.noConfusion h
    · exact dns_result.noConfusion h

theorem C20_fromwire_tkey_lengths_witness :
    ∃ code source1 target1,
      fromwire_tkey 249 demo_tkey_source demo_tkey_target = .ok (code, source1, target1) ∧
      (code = .DNS_R_SUCCESS ↔
        ∃ s o, uint16_fromregion ((isc_buffer_active demo_tkey_source).drop 12) = .ok s ∧
          uint16_fromregion ((isc_buffer_active demo_tkey_source).drop (14 + s)) = .ok o ∧
          16 + s + o ≤ (isc_buffer_active demo_tkey_source).length) ∧
      (code ≠ .DNS_R_SUCCESS → code = .DNS_R_UNEXPECTEDEND) ∧
      (code = .DNS_R_SUCCESS →
        ∃ s o, uint16_fromregion ((isc_buffer_active demo_tkey_source).drop 12) = .ok s ∧
          uint16_fromregion ((isc_buffer_active demo_tkey_source).drop (14 + s)) = .ok o ∧
          target1 =
            { demo_tkey_target with
              base := demo_tkey_target.base ++
                (isc_buffer_active demo_tkey_source).take (16 + s + o) } ∧
          source1 =
            { demo_tkey_source with current := demo_tkey_source.current + (16 + s + o) } ∧
          isc_buffer_active source1 = (isc_buffer_active demo_tkey_source).drop (16 + s + o) ∧
          ∀ t2 : isc_buffer, 16 + s + o ≤ isc_buffer_available t2 →
            towire_tkey 249 ((isc_buffer_active demo_tkey_source).take (16 + s + o)) t2 =
              .ok (.DNS_R_SUCCESS,
                { t2 with
                  base := t2.base ++
                    (isc_buffer_active demo_tkey_source).take (16 + s + o) })) :=
  C20_fromwire_tkey_lengths demo_tkey_source demo_tkey_target (by decide) (by decide)
    (by decide)

/-! ## `fromwire_in_a` -/

/-- C21 (A-record wire decoding): `fromwire_in_a` returns `ISC_R_UNEXPECTEDEND` when the
source has fewer than 4 active bytes, whatever the target; otherwise `ISC_R_NOSPACE` when
the target has fewer than 4 available bytes; in both cases source and target are
unchanged; otherwise it returns `ISC_R_SUCCESS`, the first 4 active source bytes, and
only these, are appended to the target, and the source is advanced by exactly 4. -/
theorem C21_fromwire_in_a (source target : isc_buffer) :
    ((isc_buffer_active source).length < 4 →
      fromwire_in_a dns_rdataclass_in dns_rdatatype_a source target =
        .ok (.ISC_R_UNEXPECTEDEND, source, target)) ∧
    (4 ≤ (isc_buffer_active source).length → isc_buffer_available target < 4 →
      fromwire_in_a dns_rdataclass_in dns_rdatatype_a source target =
        .ok (.ISC_R_NOSPACE, source, target)) ∧
    (4 ≤ (isc_buffer_active source).length → 4 ≤ isc_buffer_available target →
      fromwire_in_a dns_rdataclass_in dns_rdatatype_a source target =
        .ok (.ISC_R_SUCCESS, { source with current := source.current + 4 },
             { target with base := target.base ++ (isc_buffer_active source).take 4 }) ∧
      ((isc_buffer_active source).take 4).length = 4 ∧
      isc_buffer_active { source with current := source.current + 4 } =
        (isc_buffer_active source).drop 4) := by
  refine ⟨?_, ?_, ?_⟩
  · intro h
    rw [fromwire_in_a, if_neg (by simp), if_neg (by simp), if_pos h]
  · intro h1 h2
    rw [fromwire_in_a, if_neg (by simp), if_neg (by simp), if_neg (by omega), if_pos h2]
  · intro h1 h2
    have hlen : ((isc_buffer_active source).take 4).length = 4 := by
      rw [List.length_take]; omega
    have hcur : source.current + 4 ≤ source.base.length := by
      simp only [isc_buffer_active, List.length_drop, List.length_take] at h1
      omega
    have hav : target.base.length + 4 ≤ target.length := by
      simp only [isc_buffer_available] at h2
      omega
    refine ⟨?_, hlen, ?_⟩
    · rw [fromwire_in_a, if_neg (by simp), if_neg (by simp), if_neg (by omega),
        if_neg (by omega), isc_buffer_forward, if_pos hcur, Res.bind_ok, isc_buffer_add,
        if_pos (by rw [hlen]; exact hav), Res.bind_ok]
    · simp only [isc_buffer_active, List.drop_drop]

theorem C21_fromwire_in_a_witness :
    fromwire_in_a dns_rdataclass_in dns_rdatatype_a demo_a_source demo_tkey_target =
        .ok (.ISC_R_SUCCESS, { demo_a_source with current := demo_a_source.current + 4 },
             { demo_tkey_target with
               base := demo_tkey_target.base ++ (isc_buffer_active demo_a_source).take 4 }) ∧
      ((isc_buffer_active demo_a_source).take 4).length = 4 ∧
      isc_buffer_active { demo_a_source with current := demo_a_source.current + 4 } =
        (isc_buffer_active demo_a_source).drop 4 :=
  (C21_fromwire_in_a demo_a_source demo_tkey_target).2.2 (by decide) (by decide)

end Rdata
